import Mathlib

/-!
# Sweep-line segment intersection (`src/A/a.cpp`)

A shallow embedding of the program and theorems about it.

Conventions of the embedding.

* `double` values are rational numbers and the arithmetic on them is exact.
  The literals `1e-9` and `1e-6` are the rationals `1/10^9` and `1/10^6`.
* The global `sweepY` is passed to the functions that read it.
* A `Segment*` is a `SegPtr`: the position of the segment in the vector
  `segments` together with the segment stored there (segments are never
  written after construction). Pointer comparison compares positions; a
  nullable pointer is an `Option`.
* An `AVLNode*` is an `AVLTree`: `nil` is the null pointer. The tree owns its
  nodes, so in-place updates are modelled by returning the new subtree.
* A function that would dereference a null pointer returns `none`.
-/

set_option autoImplicit false

namespace SweepLine

/-! ## Geometry kernel -/

/-- The literal `1e-9`. -/
def eps : ℚ := 1 / 1000000000

/-- The literal `1e-6`. -/
def nudge : ℚ := 1 / 1000000

/-- The struct `Point`. -/
structure Point where
  x : ℚ
  y : ℚ
deriving DecidableEq, Repr

/-- The member `Point::operator<`. -/
def Point.lt (a o : Point) : Bool :=
  if |a.y - o.y| > eps then decide (a.y > o.y) else decide (a.x < o.x)

/-- The struct `Segment` (fields only; the constructor is `Segment.ctor`). -/
structure Segment where
  p : Point
  q : Point
  id : Int
deriving DecidableEq, Repr

/-- The constructor `Segment::Segment(p_, q_, id_)`: the endpoints are swapped
when `p.y < q.y || (p.y == q.y && p.x > q.x)`. -/
def Segment.ctor (p_ q_ : Point) (id_ : Int) : Segment :=
  if p_.y < q_.y ∨ (p_.y = q_.y ∧ p_.x > q_.x) then ⟨q_, p_, id_⟩ else ⟨p_, q_, id_⟩

/-- The member `Segment::getXatY`. -/
def Segment.getXatY (s : Segment) (y : ℚ) : ℚ :=
  if |s.p.y - s.q.y| < eps then min s.p.x s.q.x
  else s.p.x + (s.q.x - s.p.x) * ((s.p.y - y) / (s.p.y - s.q.y))

/-- The function `segmentLess(a, b, noid)`, reading the global `sweepY`. -/
def segmentLess (sweepY : ℚ) (a b : Segment) (noid : Bool) : Bool :=
  if !noid then
    let ax := a.getXatY sweepY
    let bx := b.getXatY sweepY
    decide (ax < bx) || (decide (|ax - bx| < eps) && decide (a.id > b.id))
  else
    let ax := a.getXatY sweepY
    let bx := b.getXatY sweepY
    decide (ax < bx) || decide (|ax - bx| < eps)

/-- The function `getTypePriority`. -/
def getTypePriority (t : Int) : Int :=
  if t = 2 then 3 else if t = 0 then 2 else if t = 1 then 1 else 0

/-- A `Segment*` pointing into the vector `segments`: the position pointed at
and the segment stored there. -/
structure SegPtr where
  addr : Nat
  seg : Segment
deriving DecidableEq, Repr

/-- Comparison `a == b` of two nullable `Segment*`. -/
def ptrEq : Option SegPtr → Option SegPtr → Bool
  | none, none => true
  | some a, some b => decide (a.addr = b.addr)
  | _, _ => false

/-- The struct `Event`; `type` is 0 for insert, 1 for remove, 2 for intersection. -/
structure Event where
  p : Point
  type : Int
  s1 : Option SegPtr
  s2 : Option SegPtr
deriving DecidableEq, Repr

/-- The member `Event::operator<` (`a.lt e` is `a < e`). -/
def Event.lt (a e : Event) : Bool :=
  if a.p.y ≠ e.p.y then decide (a.p.y < e.p.y)
  else if a.type ≠ e.type then decide (getTypePriority a.type < getTypePriority e.type)
  else decide (a.p.x > e.p.x)

/-- The function `operator==(const Point&, const Point&)`. -/
def pointEq (a b : Point) : Bool :=
  decide (|a.x - b.x| < eps) && decide (|a.y - b.y| < eps)

/-- The function `isPointOnSegment`. -/
def isPointOnSegment (pt : Point) (s : Segment) : Bool :=
  let cross := (pt.x - s.p.x) * (s.q.y - s.p.y) - (pt.y - s.p.y) * (s.q.x - s.p.x)
  if |cross| > eps then false
  else
    let dot := (pt.x - s.p.x) * (s.q.x - s.p.x) + (pt.y - s.p.y) * (s.q.y - s.p.y)
    if dot < -eps then false
    else
      let sqLen := (s.q.x - s.p.x) * (s.q.x - s.p.x) + (s.q.y - s.p.y) * (s.q.y - s.p.y)
      decide (dot ≤ sqLen + eps)

/-- The function `getIntersection(a, b, ip)`: `some ip` when it returns true
(with the point it wrote to `ip`), `none` when it returns false. -/
def getIntersection (a b : Segment) : Option Point :=
  let A1 := a.q.y - a.p.y
  let B1 := a.p.x - a.q.x
  let C1 := A1 * a.p.x + B1 * a.p.y
  let A2 := b.q.y - b.p.y
  let B2 := b.p.x - b.q.x
  let C2 := A2 * b.p.x + B2 * b.p.y
  let det := A1 * B2 - A2 * B1
  if |det| < eps then none
  else
    let ipx := (B2 * C1 - B1 * C2) / det
    let ipy := (A1 * C2 - A2 * C1) / det
    if min a.p.x a.q.x - eps ≤ ipx ∧ ipx ≤ max a.p.x a.q.x + eps ∧
       min a.p.y a.q.y - eps ≤ ipy ∧ ipy ≤ max a.p.y a.q.y + eps ∧
       min b.p.x b.q.x - eps ≤ ipx ∧ ipx ≤ max b.p.x b.q.x + eps ∧
       min b.p.y b.q.y - eps ≤ ipy ∧ ipy ≤ max b.p.y b.q.y + eps
    then some ⟨ipx, ipy⟩
    else none

/-! ## Status structure -/

/-- An `AVLNode*`: `nil` is the null pointer, `node segment maxLeft left right
height` a node with these fields. -/
inductive AVLTree where
  | nil : AVLTree
  | node (segment maxLeft : Option SegPtr) (left right : AVLTree) (height : Int) : AVLTree
deriving DecidableEq, Repr

namespace AVLTree

/-- Whether the pointer is null (`!n`). -/
def isNil : AVLTree → Bool
  | nil => true
  | node _ _ _ _ _ => false

/-- The member `AVLNode::isLeaf` (false on the null pointer, which has no such
member; every caller tests the pointer first). -/
def isLeaf : AVLTree → Bool
  | nil => false
  | node _ _ l r _ => l.isNil && r.isNil

/-- The function `height`. -/
def height : AVLTree → Int
  | nil => 0
  | node _ _ _ _ h => h

/-- The field `segment` of a node. -/
def segment : AVLTree → Option SegPtr
  | nil => none
  | node s _ _ _ _ => s

/-- The loop `while (rightmost->right) rightmost = rightmost->right;` of
`update`, followed by the read of `rightmost->segment`. -/
def rightmostSegment : AVLTree → Option SegPtr
  | nil => none
  | node s _ _ r _ => if r.isNil then s else rightmostSegment r

/-- The function `update`. -/
def update : AVLTree → AVLTree
  | nil => nil
  | node s _ l r _ =>
    let h := max l.height r.height + 1
    let m := if !l.isNil && l.isLeaf then l.segment
             else if !l.isNil then rightmostSegment l
             else s
    node s m l r h

/-- The function `rotateRight`; `none` when `y` or `y->left` is null. -/
def rotateRight : AVLTree → Option AVLTree
  | node ys ym (node xs xm xl xr xh) yr yh =>
    let y := update (node ys ym xr yr yh)
    some (update (node xs xm xl y xh))
  | _ => none

/-- The function `rotateLeft`; `none` when `x` or `x->right` is null. -/
def rotateLeft : AVLTree → Option AVLTree
  | node xs xm xl (node ys ym yl yr yh) xh =>
    let x := update (node xs xm xl yl xh)
    some (update (node ys ym x yr yh))
  | _ => none

/-- The function `balanceFactor`. -/
def balanceFactor : AVLTree → Int
  | nil => 0
  | node _ _ l r _ => l.height - r.height

/-- The rebalancing tail shared by `insert` (lines 174-186) and `erase`
(lines 222-234), run on a non-null `node`. -/
def rebalance (n : AVLTree) : Option AVLTree :=
  match n with
  | nil => none
  | node s m l r h =>
    let balance := balanceFactor (node s m l r h)
    if balance > 1 then
      if balanceFactor l ≥ 0 then rotateRight (node s m l r h)
      else (rotateLeft l).bind fun l1 => rotateRight (node s m l1 r h)
    else if balance < -1 then
      if balanceFactor r ≤ 0 then rotateLeft (node s m l r h)
      else (rotateRight r).bind fun r1 => rotateLeft (node s m l r1 h)
    else some (node s m l r h)

/-- The function `insert`, reading the global `sweepY`. -/
def insert (sweepY : ℚ) : AVLTree → SegPtr → Option AVLTree
  | nil, s => some (node (some s) (some s) nil nil 1)
  | node sg m l r h, s =>
    if (node sg m l r h).isLeaf then
      match sg with
      | none => none
      | some t =>
        let newLeaf := node (some s) (some s) nil nil 1
        if segmentLess sweepY s.seg t.seg false then
          some (update (node none none newLeaf (node sg m l r h) 1))
        else
          some (update (node none none (node sg m l r h) newLeaf 1))
    else
      match m with
      | none => none
      | some t =>
        if segmentLess sweepY s.seg t.seg false then
          (insert sweepY l s).bind fun l1 => rebalance (update (node sg m l1 r h))
        else
          (insert sweepY r s).bind fun r1 => rebalance (update (node sg m l r1 h))

/-- The function `erase`. -/
def erase : AVLTree → SegPtr → Option AVLTree
  | nil, _ => some nil
  | node sg m l r h, s =>
    if (node sg m l r h).isLeaf then
      if ptrEq sg (some s) then some nil else some (node sg m l r h)
    else
      (erase l s).bind fun l1 =>
      (erase r s).bind fun r1 =>
        if l1.isNil && r1.isNil then some nil
        else if l1.isNil then some r1
        else if r1.isNil then some l1
        else rebalance (update (node sg m l1 r1 h))

end AVLTree

open AVLTree

/-- The loop of `above` started at `root` with the running answer `succ`. The
two branches of the source's `if(noid)` run the same code, with `noid` passed
to `segmentLess` in the first and its default `false` in the second. -/
def aboveLoop (sweepY : ℚ) (s : SegPtr) (noid : Bool) :
    AVLTree → Option SegPtr → Option (Option SegPtr)
  | nil, succ => some succ
  | node sg m l r _, succ =>
    if l.isNil && r.isNil then
      match sg with
      | none => none
      | some t => some (if segmentLess sweepY s.seg t.seg noid then some t else succ)
    else
      match m with
      | none => none
      | some t =>
        if segmentLess sweepY s.seg t.seg noid then aboveLoop sweepY s noid l (some t)
        else aboveLoop sweepY s noid r succ

/-- The function `above`, reading the global `sweepY`. -/
def above (sweepY : ℚ) (root : AVLTree) (s : SegPtr) (noid : Bool) : Option (Option SegPtr) :=
  aboveLoop sweepY s noid root none

/-- The loop of `below` started at `root` with the running answer `pred`. -/
def belowLoop (sweepY : ℚ) (s : SegPtr) (noid : Bool) :
    AVLTree → Option SegPtr → Option (Option SegPtr)
  | nil, pred => some pred
  | node sg m l r _, pred =>
    if l.isNil && r.isNil then
      match sg with
      | none => none
      | some t => some (if segmentLess sweepY t.seg s.seg noid then some t else pred)
    else
      match m with
      | none => none
      | some t =>
        if segmentLess sweepY t.seg s.seg noid then belowLoop sweepY s noid r (some t)
        else belowLoop sweepY s noid l pred

/-- The function `below`, reading the global `sweepY`. -/
def below (sweepY : ℚ) (root : AVLTree) (s : SegPtr) (noid : Bool) : Option (Option SegPtr) :=
  belowLoop sweepY s noid root none

/-! ## Deduplication set and event queue -/

/-- The functor `PointHash`; `hashDouble` stands for the library's
`hash<double>`, which is not part of the program. -/
def PointHash (hashDouble : ℚ → Nat) (p : Point) : Nat :=
  hashDouble p.x ^^^ hashDouble p.y

/-- The call `seen.count(p)` on the `unordered_set<Point, PointHash>` holding
the points `seen` (latest insertion first). A stored point is found when it is
`p` itself, or when it has the hash of `p` and `operator==` accepts it; the
first case is an instance of the second (see `count_eq_filter`) and is listed so
that the lookup of a stored point does not depend on the hash function. Two
different hash values are taken to lie in different buckets. -/
def count (hashDouble : ℚ → Nat) (seen : List Point) (p : Point) : Nat :=
  (seen.filter fun q =>
    decide (q = p) || (pointEq q p && decide (PointHash hashDouble q = PointHash hashDouble p))).length

/-- The call `events.push(e)` on the `priority_queue<Event>` holding `events`
(in the order they were pushed). -/
def push (events : List Event) (e : Event) : List Event :=
  events ++ [e]

/-- The call `events.top()`: an event that is not `<` any other pending event.
Among several such events the one pushed first is taken (the library leaves
the choice open). `none` on the empty queue. -/
def top : List Event → Option Event
  | [] => none
  | e :: rest => some (rest.foldl (fun best c => if best.lt c then c else best) e)

/-- The call `events.pop()`: the event `events.top()` leaves the queue. -/
def pop (events : List Event) : List Event :=
  match top events with
  | none => []
  | some e => events.erase e

/-! ## Sweep engine -/

/-- The function `addEvent(events, a, b, p, seen)`, reading the global
`sweepY`; returns the queue and the set it leaves. -/
def addEvent (hashDouble : ℚ → Nat) (sweepY : ℚ) (events : List Event)
    (a b : Option SegPtr) (p : Point) (seen : List Point) : List Event × List Point :=
  match a, b with
  | some a, some b =>
    if a.addr = b.addr then (events, seen)
    else
      match getIntersection a.seg b.seg with
      | none => (events, seen)
      | some ip =>
        if ip.y < sweepY - eps ∨ (|ip.y - sweepY| < eps ∧ ip.x > p.x + eps) then
          if count hashDouble seen ip = 0 then
            (push events ⟨ip, 2, some a, some b⟩, ip :: seen)
          else (events, seen)
        else (events, seen)
  | _, _ => (events, seen)

/-- The variables of `findIntersections` together with the global `sweepY`. -/
structure State where
  events : List Event
  seen : List Point
  root : AVLTree
  sweepY : ℚ
  output : List Point
deriving DecidableEq, Repr

/-- One pass of the body of the loop `for (Segment* other : {above, below})`
of the insert and remove dispatch, for the event point `p` of segment `s1`;
returns the set and the output it leaves. -/
def checkOther (hashDouble : ℚ → Nat) (p : Point) (s1 : SegPtr)
    (acc : List Point × List Point) (other : Option SegPtr) : List Point × List Point :=
  match other with
  | none => acc
  | some o =>
    if isPointOnSegment p o.seg && decide (o.seg.id ≠ s1.seg.id) then
      if count hashDouble acc.1 p = 0 then (p :: acc.1, acc.2 ++ [p]) else acc
    else acc

/-- The queue built by the first loop of `findIntersections` from the segments
at positions `i, i+1, ...` of the vector. -/
def pushEndpoints : Nat → List Segment → List Event → List Event
  | _, [], events => events
  | i, s :: rest, events =>
    if |s.p.y - s.q.y| < eps then
      let pin := if s.p.x < s.q.x then s.p else s.q
      let pout := if s.p.x < s.q.x then s.q else s.p
      let insert_pt : Point := ⟨pin.x, pin.y + nudge⟩
      let remove_pt : Point := ⟨pout.x, pout.y - nudge⟩
      pushEndpoints (i + 1) rest
        (push (push events ⟨insert_pt, 0, some ⟨i, s⟩, none⟩) ⟨remove_pt, 1, some ⟨i, s⟩, none⟩)
    else
      pushEndpoints (i + 1) rest
        (push (push events ⟨s.p, 0, some ⟨i, s⟩, none⟩) ⟨s.q, 1, some ⟨i, s⟩, none⟩)

/-- The state of `findIntersections` when it reaches its `while` loop. -/
def init (segments : List Segment) : State :=
  { events := pushEndpoints 0 segments [], seen := [], root := nil, sweepY := 0, output := [] }

/-- The dispatch of an insert event `e` (type 0) popped from the queue, in the
state `st` left by `sweepY = e.p.y`. The pointer `e.s1` is dereferenced. -/
def stepInsert (hashDouble : ℚ → Nat) (st : State) (e : Event) : Option State :=
  match e.s1 with
  | none => none
  | some s1 =>
    let sweepY := st.sweepY
    (above sweepY st.root s1 true).bind fun a0 =>
    (below sweepY st.root s1 true).bind fun b0 =>
    let so := [a0, b0].foldl (checkOther hashDouble e.p s1) (st.seen, st.output)
    let sweepY := sweepY - nudge
    (insert sweepY st.root s1).bind fun root =>
    (above sweepY root s1 false).bind fun ab =>
    (below sweepY root s1 false).bind fun bl =>
    let es := addEvent hashDouble sweepY st.events ab (some s1) e.p so.1
    let es := addEvent hashDouble sweepY es.1 (some s1) bl e.p es.2
    some { events := es.1, seen := es.2, root := root, sweepY := sweepY, output := so.2 }

/-- The dispatch of a remove event `e` (type 1) popped from the queue. -/
def stepRemove (hashDouble : ℚ → Nat) (st : State) (e : Event) : Option State :=
  match e.s1 with
  | none => none
  | some s1 =>
    let sweepY := st.sweepY
    (above sweepY st.root s1 true).bind fun a0 =>
    (below sweepY st.root s1 true).bind fun b0 =>
    let so := [a0, b0].foldl (checkOther hashDouble e.p s1) (st.seen, st.output)
    (above sweepY st.root s1 false).bind fun ab =>
    (below sweepY st.root s1 false).bind fun bl =>
    (erase st.root s1).bind fun root =>
    let es := addEvent hashDouble sweepY st.events ab bl e.p so.1
    some { events := es.1, seen := es.2, root := root, sweepY := sweepY, output := so.2 }

/-- The dispatch of an intersection event `e` (type 2) popped from the queue. -/
def stepIntersection (hashDouble : ℚ → Nat) (st : State) (e : Event) : Option State :=
  match e.s1, e.s2 with
  | some s1, some s2 =>
    let sweepY := st.sweepY
    let output := st.output ++ [e.p]
    (erase st.root s1).bind fun root =>
    (erase root s2).bind fun root =>
    let sweepY := sweepY - nudge
    (insert sweepY root s2).bind fun root =>
    (insert sweepY root s1).bind fun root =>
    let bottom := if segmentLess sweepY s1.seg s2.seg false then s1 else s2
    let top := if segmentLess sweepY s1.seg s2.seg false then s2 else s1
    (above sweepY root top false).bind fun above_top =>
    (below sweepY root bottom false).bind fun below_bottom =>
    let es := addEvent hashDouble sweepY st.events above_top (some top) e.p st.seen
    let es := addEvent hashDouble sweepY es.1 (some bottom) below_bottom e.p es.2
    some { events := es.1, seen := es.2, root := root, sweepY := sweepY, output := output }
  | _, _ => none

/-- One iteration of the `while` loop of `findIntersections` on a non-empty
queue: the top event is popped and dispatched. `none` when the queue is empty
or a null pointer is dereferenced. -/
def step (hashDouble : ℚ → Nat) (st : State) : Option State :=
  match top st.events with
  | none => none
  | some e =>
    let st1 := { st with events := pop st.events, sweepY := e.p.y }
    if e.type = 0 then stepInsert hashDouble st1 e
    else if e.type = 1 then stepRemove hashDouble st1 e
    else if e.type = 2 then stepIntersection hashDouble st1 e
    else some st1

/-- The `while (!events.empty())` loop run for at most `fuel` iterations:
the state in which the queue is empty, `none` when a null pointer is
dereferenced or the queue is not empty after `fuel` iterations. -/
def loop (hashDouble : ℚ → Nat) : Nat → State → Option State
  | fuel, st =>
    if st.events.isEmpty then some st
    else
      match fuel with
      | 0 => none
      | fuel + 1 => (step hashDouble st).bind (loop hashDouble fuel)

/-- The number of iterations `findIntersections` is given on `n` segments: one
per endpoint and one per pair of segments. -/
def maxIterations (n : Nat) : Nat :=
  2 * n + n * (n - 1) / 2

/-- The function `findIntersections(segments, output)` called with an empty
`output`: the vector `output` it leaves. -/
def findIntersections (hashDouble : ℚ → Nat) (segments : List Segment) : Option (List Point) :=
  (loop hashDouble (maxIterations segments.length) (init segments)).map State.output

/-! ## Runs that do not depend on the hash function

`loopFree fuel st` checks, along the run of the loop from `st` under the
constant hash function, that every lookup `seen.count(p)` made is
*unambiguous*: no stored point other than `p` itself is accepted by
`operator==`. Such a lookup has the same answer for every hash function, so
the run is the run of `findIntersections` for every hash function
(`findIntersections_free`). -/

/-- The constant hash function: every stored point that `operator==` accepts is found. -/
def hashConst : ℚ → Nat := fun _ => 0

/-- No stored point other than `p` itself is accepted by `operator==` as equal to `p`. -/
def unambiguous (seen : List Point) (p : Point) : Bool :=
  seen.all fun q => decide (q = p) || !pointEq q p

/-- The lookup `addEvent` makes on these arguments, if it makes one, is unambiguous. -/
def addEventFree (sweepY : ℚ) (a b : Option SegPtr) (p : Point) (seen : List Point) : Bool :=
  match a, b with
  | some a, some b =>
    if a.addr = b.addr then true
    else
      match getIntersection a.seg b.seg with
      | none => true
      | some ip =>
        if ip.y < sweepY - eps ∨ (|ip.y - sweepY| < eps ∧ ip.x > p.x + eps) then unambiguous seen ip
        else true
  | _, _ => true

/-- The lookup `checkOther` makes on these arguments, if it makes one, is unambiguous. -/
def checkOtherFree (p : Point) (s1 : SegPtr) (acc : List Point × List Point)
    (other : Option SegPtr) : Bool :=
  match other with
  | none => true
  | some o =>
    if isPointOnSegment p o.seg && decide (o.seg.id ≠ s1.seg.id) then unambiguous acc.1 p else true

/-- The lookups of `stepInsert` under the constant hash function are unambiguous. -/
def stepInsertFree (st : State) (e : Event) : Bool :=
  match e.s1 with
  | none => true
  | some s1 =>
    match above st.sweepY st.root s1 true, below st.sweepY st.root s1 true with
    | some a0, some b0 =>
      let acc1 := checkOther hashConst e.p s1 (st.seen, st.output) a0
      let so := checkOther hashConst e.p s1 acc1 b0
      checkOtherFree e.p s1 (st.seen, st.output) a0 && checkOtherFree e.p s1 acc1 b0 &&
      match insert (st.sweepY - nudge) st.root s1 with
      | none => true
      | some root =>
        match above (st.sweepY - nudge) root s1 false, below (st.sweepY - nudge) root s1 false with
        | some ab, some bl =>
          addEventFree (st.sweepY - nudge) ab (some s1) e.p so.1 &&
          addEventFree (st.sweepY - nudge) (some s1) bl e.p
            (addEvent hashConst (st.sweepY - nudge) st.events ab (some s1) e.p so.1).2
        | _, _ => true
    | _, _ => true

/-- The lookups of `stepRemove` under the constant hash function are unambiguous. -/
def stepRemoveFree (st : State) (e : Event) : Bool :=
  match e.s1 with
  | none => true
  | some s1 =>
    match above st.sweepY st.root s1 true, below st.sweepY st.root s1 true with
    | some a0, some b0 =>
      let acc1 := checkOther hashConst e.p s1 (st.seen, st.output) a0
      let so := checkOther hashConst e.p s1 acc1 b0
      checkOtherFree e.p s1 (st.seen, st.output) a0 && checkOtherFree e.p s1 acc1 b0 &&
      match above st.sweepY st.root s1 false, below st.sweepY st.root s1 false with
      | some ab, some bl => addEventFree st.sweepY ab bl e.p so.1
      | _, _ => true
    | _, _ => true

/-- The lookups of `stepIntersection` under the constant hash function are unambiguous. -/
def stepIntersectionFree (st : State) (e : Event) : Bool :=
  match e.s1, e.s2 with
  | some s1, some s2 =>
    match (erase st.root s1).bind fun root => (erase root s2).bind fun root =>
        (insert (st.sweepY - nudge) root s2).bind fun root => insert (st.sweepY - nudge) root s1 with
    | none => true
    | some root =>
      let bottom := if segmentLess (st.sweepY - nudge) s1.seg s2.seg false then s1 else s2
      let top := if segmentLess (st.sweepY - nudge) s1.seg s2.seg false then s2 else s1
      match above (st.sweepY - nudge) root top false, below (st.sweepY - nudge) root bottom false with
      | some above_top, some below_bottom =>
        addEventFree (st.sweepY - nudge) above_top (some top) e.p st.seen &&
        addEventFree (st.sweepY - nudge) (some bottom) below_bottom e.p
          (addEvent hashConst (st.sweepY - nudge) st.events above_top (some top) e.p st.seen).2
      | _, _ => true
  | _, _ => true

/-- The lookups of `step` under the constant hash function are unambiguous. -/
def stepFree (st : State) : Bool :=
  match top st.events with
  | none => true
  | some e =>
    let st1 := { st with events := pop st.events, sweepY := e.p.y }
    if e.type = 0 then stepInsertFree st1 e
    else if e.type = 1 then stepRemoveFree st1 e
    else if e.type = 2 then stepIntersectionFree st1 e
    else true

/-- The lookups of `loop` under the constant hash function are unambiguous. -/
def loopFree : Nat → State → Bool
  | fuel, st =>
    if st.events.isEmpty then true
    else
      match fuel with
      | 0 => true
      | fuel + 1 =>
        stepFree st &&
        match step hashConst st with
        | none => true
        | some st1 => loopFree fuel st1

/-! ## Invariants of the status tree and of the loop -/

/-- A non-null tree whose leaves hold segments satisfying `Q`, whose internal
nodes have two non-null children, a cached `maxLeft` satisfying `Q` and the
height `max(height(left), height(right)) + 1`. -/
def Shaped (Q : SegPtr → Prop) : AVLTree → Prop
  | nil => False
  | node sg m l r h =>
    (l = nil ∧ r = nil ∧ h = 1 ∧ ∃ s, sg = some s ∧ Q s) ∨
    (Shaped Q l ∧ Shaped Q r ∧ h = max l.height r.height + 1 ∧ ∃ t, m = some t ∧ Q t)

/-- The null pointer or a `Shaped` tree. -/
def TreeOK (Q : SegPtr → Prop) (t : AVLTree) : Prop :=
  t = nil ∨ Shaped Q t

/-- A nullable segment pointer that satisfies `Q` when it is not null. -/
def OptQ (Q : SegPtr → Prop) (o : Option SegPtr) : Prop :=
  ∀ x, o = some x → Q x

/-- The pointers `&segments[i]`, `&segments[i+1]`, ... to the segments of a
vector whose tail from position `i` is the given list. -/
def ptrsFrom : Nat → List Segment → List SegPtr
  | _, [] => []
  | i, s :: rest => ⟨i, s⟩ :: ptrsFrom (i + 1) rest

/-- The pairs of a list, each pair of positions once. -/
def pairsOf : List SegPtr → List (SegPtr × SegPtr)
  | [] => []
  | a :: rest => rest.map (fun b => (a, b)) ++ pairsOf rest

/-- The points `getIntersection` gives for the pairs of segments of the vector. -/
def candidates (segments : List Segment) : List Point :=
  (pairsOf (ptrsFrom 0 segments)).filterMap fun ab => getIntersection ab.1.seg ab.2.seg

/-- An event as the program creates them: an insert or remove event of a
segment satisfying `Q`, or an intersection event of two such segments. -/
def EvOK (Q : SegPtr → Prop) (e : Event) : Prop :=
  ((e.type = 0 ∨ e.type = 1) ∧ ∃ s, e.s1 = some s ∧ Q s) ∨
  (e.type = 2 ∧ ∃ a b, e.s1 = some a ∧ e.s2 = some b ∧ Q a ∧ Q b)

/-- The invariant of the queue `events`, the events `tr` popped so far and the
set `seen`, for the input `segments`. -/
structure QInv (segments : List Segment) (events tr : List Event) (seen : List Point) : Prop where
  ok : ∀ e ∈ events, EvOK (fun s => s ∈ ptrsFrom 0 segments) e
  ends : List.Perm ((events ++ tr).filter fun e => decide (e.type ≠ 2)) (init segments).events
  known : ∀ e ∈ events ++ tr, e.type = 2 → e.p ∈ seen ∧ e.p ∈ candidates segments
  once : (((events ++ tr).filter fun e => decide (e.type = 2)).map fun e => e.p).Nodup

/-- The events popped by the first `k` iterations of the loop of
`findIntersections` started in state `st`, in the order they are popped (all
the events the loop pops when it ends within `k` iterations). -/
def popped (hashDouble : ℚ → Nat) : Nat → State → List Event
  | 0, _ => []
  | k + 1, st =>
    match top st.events, step hashDouble st with
    | some e, some st1 => e :: popped hashDouble k st1
    | _, _ => []

/-- What identifies an endpoint event: its kind and its segment pointers. -/
def Event.key (e : Event) : Int × Option SegPtr × Option SegPtr :=
  (e.type, e.s1, e.s2)

/-- The invariant of the loop of `findIntersections` on the input `segments`,
with `tr` the events popped so far. -/
structure Inv (segments : List Segment) (tr : List Event) (st : State) : Prop where
  tree : TreeOK (fun s => s ∈ ptrsFrom 0 segments) st.root
  queue : QInv segments st.events tr st.seen

/-- The events popped by `findIntersections` on `segments`, in the order they
are popped. -/
def processed (hashDouble : ℚ → Nat) (segments : List Segment) : List Event :=
  popped hashDouble (maxIterations segments.length) (init segments)

/-- The points of the pending intersection events. -/
def pendingPoints (events : List Event) : List Point :=
  (events.filter fun e => decide (e.type = 2)).map fun e => e.p

/-- The invariant that ties the output to the set `seen`: a point entered
`seen` only when the lookup did not find it among the points stored before,
and the output entries and the points of the pending intersection events are
members of `seen`, each once. -/
structure OutInv (hashDouble : ℚ → Nat) (events : List Event) (seen output : List Point) :
    Prop where
  fresh : seen.Pairwise fun p q =>
    ¬ (pointEq q p = true ∧ PointHash hashDouble q = PointHash hashDouble p)
  sub : ∀ x ∈ output ++ pendingPoints events, x ∈ seen
  once : (output ++ pendingPoints events).Nodup

/-! ## The line equations of `getIntersection` -/

/-- The coefficient `A1 = a.q.y - a.p.y` of `getIntersection`. -/
def Segment.lineA (s : Segment) : ℚ := s.q.y - s.p.y

/-- The coefficient `B1 = a.p.x - a.q.x` of `getIntersection`. -/
def Segment.lineB (s : Segment) : ℚ := s.p.x - s.q.x

/-- The right-hand side `C1 = A1 * a.p.x + B1 * a.p.y` of `getIntersection`. -/
def Segment.lineC (s : Segment) : ℚ := s.lineA * s.p.x + s.lineB * s.p.y

/-- The determinant `det = A1 * B2 - A2 * B1` of `getIntersection`. -/
def det (a b : Segment) : ℚ := a.lineA * b.lineB - b.lineA * a.lineB

/-- The point satisfies the line equation `A * x + B * y = C` of the segment. -/
def onLine (s : Segment) (pt : Point) : Prop := s.lineA * pt.x + s.lineB * pt.y = s.lineC

/-- The point lies in the bounding box of the segment widened by `1e-9`. -/
def inBox (s : Segment) (pt : Point) : Prop :=
  min s.p.x s.q.x - eps ≤ pt.x ∧ pt.x ≤ max s.p.x s.q.x + eps ∧
  min s.p.y s.q.y - eps ≤ pt.y ∧ pt.y ≤ max s.p.y s.q.y + eps

instance (s : Segment) (pt : Point) : Decidable (onLine s pt) := by
  unfold onLine; infer_instance

instance (s : Segment) (pt : Point) : Decidable (inBox s pt) := by
  unfold inBox; infer_instance

/-! ## Properties of the status tree named by the specification -/

/-- The leaves of a tree from left to right, each given by its `segment` field:
the traversal of `inorder`. -/
def leaves : AVLTree → List (Option SegPtr)
  | nil => []
  | node sg _ l r _ => if l.isNil && r.isNil then [sg] else leaves l ++ leaves r

/-- Every internal node has two children. -/
def TwoChildren : AVLTree → Prop
  | nil => True
  | node _ _ l r _ => (l = nil ∧ r = nil) ∨ (l ≠ nil ∧ r ≠ nil ∧ TwoChildren l ∧ TwoChildren r)

/-- The true height of a subtree: the number of nodes on its longest downward path. -/
def trueHeight : AVLTree → Int
  | nil => 0
  | node _ _ l r _ => max (trueHeight l) (trueHeight r) + 1

/-- Every stored height equals the true subtree height. -/
def HeightsTrue : AVLTree → Prop
  | nil => True
  | node sg m l r h => h = trueHeight (node sg m l r h) ∧ HeightsTrue l ∧ HeightsTrue r

/-- At every node the heights of the left and right subtree differ by at most 1. -/
def Balanced : AVLTree → Prop
  | nil => True
  | node _ _ l r _ => |l.height - r.height| ≤ 1 ∧ Balanced l ∧ Balanced r

/-- A well-formed status tree: two children per internal node, true heights,
balance within 1. -/
def WellFormed (t : AVLTree) : Prop :=
  TwoChildren t ∧ HeightsTrue t ∧ Balanced t

/-- Every leaf holds a segment and every internal node a `maxLeft` that is not null. -/
def NonNull : AVLTree → Prop
  | nil => True
  | node sg m l r _ =>
    (l = nil ∧ r = nil ∧ sg ≠ none) ∨ ((l ≠ nil ∨ r ≠ nil) ∧ m ≠ none ∧ NonNull l ∧ NonNull r)

/-- Every internal node has a left subtree with a rightmost leaf, and its
`maxLeft` is the `segment` of that leaf. -/
def Cached : AVLTree → Prop
  | nil => True
  | node _ m l r _ =>
    (l = nil ∧ r = nil) ∨
      ((l ≠ nil ∨ r ≠ nil) ∧ (leaves l).getLast? = some m ∧ Cached l ∧ Cached r)

/-- The number of leaves whose `segment` is the pointer `s`. -/
def holders (t : AVLTree) (s : SegPtr) : Nat :=
  ((leaves t).filter fun x => ptrEq x (some s)).length

/-- A non-null tree with two children per internal node and the height
`max(height(left), height(right)) + 1` stored at every node. -/
def Sound : AVLTree → Prop
  | nil => False
  | node _ _ l r h =>
    (l = nil ∧ r = nil ∧ h = 1) ∨ (Sound l ∧ Sound r ∧ h = max l.height r.height + 1)

/-- A property of trees that `update` establishes at a node from its two
subtrees, and that passes from a node to its subtrees. -/
structure Closed (P : AVLTree → Prop) : Prop where
  upd : ∀ (sg m : Option SegPtr) (l r : AVLTree) (h : Int),
    Sound l → Sound r → P l → P r → P (update (node sg m l r h))
  sub : ∀ (sg m : Option SegPtr) (l r : AVLTree) (h : Int),
    Sound l → Sound r → P (node sg m l r h) → P l ∧ P r

/-- Decision procedure for `TwoChildren`. -/
def decTwoChildren : (t : AVLTree) → Decidable (TwoChildren t)
  | nil => isTrue trivial
  | node _ _ l r _ =>
    have := decTwoChildren l
    have := decTwoChildren r
    by unfold TwoChildren; exact inferInstance

instance : DecidablePred TwoChildren := decTwoChildren

/-- Decision procedure for `HeightsTrue`. -/
def decHeightsTrue : (t : AVLTree) → Decidable (HeightsTrue t)
  | nil => isTrue trivial
  | node _ _ l r _ =>
    have := decHeightsTrue l
    have := decHeightsTrue r
    by unfold HeightsTrue; exact inferInstance

instance : DecidablePred HeightsTrue := decHeightsTrue

/-- Decision procedure for `Balanced`. -/
def decBalanced : (t : AVLTree) → Decidable (Balanced t)
  | nil => isTrue trivial
  | node _ _ l r _ =>
    have := decBalanced l
    have := decBalanced r
    by unfold Balanced; exact inferInstance

instance : DecidablePred Balanced := decBalanced

instance : DecidablePred WellFormed := fun t => by unfold WellFormed; exact inferInstance

/-- Decision procedure for `NonNull`. -/
def decNonNull : (t : AVLTree) → Decidable (NonNull t)
  | nil => isTrue trivial
  | node _ _ l r _ =>
    have := decNonNull l
    have := decNonNull r
    by unfold NonNull; exact inferInstance

instance : DecidablePred NonNull := decNonNull

/-- Decision procedure for `Cached`. -/
def decCached : (t : AVLTree) → Decidable (Cached t)
  | nil => isTrue trivial
  | node _ _ l r _ =>
    have := decCached l
    have := decCached r
    by unfold Cached; exact inferInstance

instance : DecidablePred Cached := decCached

/-! ## Inputs used below -/

/-- A hash function that gives different numbers different hash values (on
the numbers met below), standing for a `hash<double>` that separates them. -/
def hashExact : ℚ → Nat := fun q =>
  2 * Nat.pair q.num.natAbs q.den + (if q.num < 0 then 1 else 0)

/-- Segments `(0,0)-(2,2)` with id 0 and `(0,2)-(2,0)` with id 1. -/
def crossInput : List Segment :=
  [Segment.ctor ⟨0, 0⟩ ⟨2, 2⟩ 0, Segment.ctor ⟨0, 2⟩ ⟨2, 0⟩ 1]

/-- The triangle `(0,0)-(4,0)`, `(0,0)-(2,4)`, `(4,0)-(2,4)` with ids 0, 1, 2. -/
def triangleInput : List Segment :=
  [Segment.ctor ⟨0, 0⟩ ⟨4, 0⟩ 0, Segment.ctor ⟨0, 0⟩ ⟨2, 4⟩ 1, Segment.ctor ⟨4, 0⟩ ⟨2, 4⟩ 2]

/-- The triangle with the second and third segment in exchanged positions,
ids kept. -/
def triangleInputSwapped : List Segment :=
  [Segment.ctor ⟨0, 0⟩ ⟨4, 0⟩ 0, Segment.ctor ⟨4, 0⟩ ⟨2, 4⟩ 2, Segment.ctor ⟨0, 0⟩ ⟨2, 4⟩ 1]

/-- A horizontal segment `(0,0)-(10,0)` crossed by the vertical segments
`(2,1)-(2,-1)` and `(5,1)-(5,-1)`; ids 0, 1, 2. -/
def combInput : List Segment :=
  [Segment.ctor ⟨0, 0⟩ ⟨10, 0⟩ 0, Segment.ctor ⟨2, 1⟩ ⟨2, -1⟩ 1, Segment.ctor ⟨5, 1⟩ ⟨5, -1⟩ 2]

/-- A horizontal segment `(0,0)-(10,0)` crossed by `(2,1)-(2,-1)`, and the
segment `(5,3)-(5,0)` whose lower endpoint lies on it; ids 0, 1, 2. -/
def teeInput : List Segment :=
  [Segment.ctor ⟨0, 0⟩ ⟨10, 0⟩ 0, Segment.ctor ⟨2, 1⟩ ⟨2, -1⟩ 1, Segment.ctor ⟨5, 3⟩ ⟨5, 0⟩ 2]

/-- Segments `(4,4)-(5,5)`, `(0,5)-(4,1)`, `(3,0)-(4,4)` with ids 0, 1, 2. -/
def fanInput : List Segment :=
  [Segment.ctor ⟨4, 4⟩ ⟨5, 5⟩ 0, Segment.ctor ⟨0, 5⟩ ⟨4, 1⟩ 1, Segment.ctor ⟨3, 0⟩ ⟨4, 4⟩ 2]

/-- The segments of `fanInput` in the order second, third, first, with the ids
0, 1, 2 given by the new positions. -/
def fanInputPermuted : List Segment :=
  [Segment.ctor ⟨0, 5⟩ ⟨4, 1⟩ 0, Segment.ctor ⟨3, 0⟩ ⟨4, 4⟩ 1, Segment.ctor ⟨4, 4⟩ ⟨5, 5⟩ 2]

/-- The vertical segment `(0,10)-(0,-10)` and two segments whose upper
endpoints `(0,5)` and `(0,5 - 5e-10)` lie on it; ids 0, 1, 2. -/
def nearInput : List Segment :=
  [Segment.ctor ⟨0, 10⟩ ⟨0, -10⟩ 0, Segment.ctor ⟨0, 5⟩ ⟨3, 4⟩ 1,
   Segment.ctor ⟨0, 5 - 5 / 10000000000⟩ ⟨3, 3⟩ 2]

/-- Two insert events at the same height, `(1,0)` and `(0,0)`. -/
def eventRight : Event := ⟨⟨1, 0⟩, 0, none, none⟩

/-- The insert event at `(0,0)`. -/
def eventLeft : Event := ⟨⟨0, 0⟩, 0, none, none⟩

/-- An intersection event at `(3,1)`. -/
def eventCross : Event := ⟨⟨3, 1⟩, 2, none, none⟩

/-- A remove event at `(0,1)`. -/
def eventRemove : Event := ⟨⟨0, 1⟩, 1, none, none⟩

/-- The segment `(0,1)-(0,0)` with id 0. -/
def segAtZero : Segment := Segment.ctor ⟨0, 1⟩ ⟨0, 0⟩ 0

/-- The segment `(5e-10,1)-(5e-10,0)` with id 1. -/
def segNearZero : Segment := Segment.ctor ⟨5 / 10000000000, 1⟩ ⟨5 / 10000000000, 0⟩ 1

/-- The segment `(12e-10,1)-(12e-10,0)` with id 3. -/
def tieHigh : Segment := Segment.ctor ⟨12 / 10000000000, 1⟩ ⟨12 / 10000000000, 0⟩ 3

/-- The segment `(6e-10,1)-(6e-10,0)` with id 2. -/
def tieMid : Segment := Segment.ctor ⟨6 / 10000000000, 1⟩ ⟨6 / 10000000000, 0⟩ 2

/-- The segment `(0,1)-(0,0)` with id 1. -/
def tieLow : Segment := Segment.ctor ⟨0, 1⟩ ⟨0, 0⟩ 1

/-- A pointer to the segment `(0,1)-(0,0)` with id 0, stored at position 0. -/
def ptrLeft : SegPtr := ⟨0, Segment.ctor ⟨0, 1⟩ ⟨0, 0⟩ 0⟩

/-- A pointer to the segment `(1,1)-(1,0)` with id 1, stored at position 1. -/
def ptrMid : SegPtr := ⟨1, Segment.ctor ⟨1, 1⟩ ⟨1, 0⟩ 1⟩

/-- A pointer to the segment `(2,1)-(2,0)` with id 2, stored at position 2. -/
def ptrRight : SegPtr := ⟨2, Segment.ctor ⟨2, 1⟩ ⟨2, 0⟩ 2⟩

/-- A leaf as `insert` creates it. -/
def leafOf (s : SegPtr) : AVLTree := node (some s) (some s) nil nil 1

/-- The tree `insert` builds from the leaves `ptrLeft` and `ptrMid`. -/
def twoLeafTree : AVLTree := node none (some ptrLeft) (leafOf ptrLeft) (leafOf ptrMid) 2

/-- The tree `twoLeafTree` with the field `maxLeft` of its root left null. -/
def unsetCacheTree : AVLTree := node none none (leafOf ptrLeft) (leafOf ptrMid) 2

/-- The tree `twoLeafTree` with the stored height 5 in its left leaf (and 6 in the root). -/
def tallLeafTree : AVLTree :=
  node none (some ptrLeft) (node (some ptrLeft) (some ptrLeft) nil nil 5) (leafOf ptrMid) 6

/-- The vertical segment `(0,1)-(0,0)` (id 0) and the segment
`(-10,10)-(10,-10-1e-9)` (id 1), whose line passes `x = 0` at `y = -5e-10`,
below the lower endpoint of the first. -/
def zombieInput : List Segment :=
  [Segment.ctor ⟨0, 1⟩ ⟨0, 0⟩ 0, Segment.ctor ⟨-10, 10⟩ ⟨10, -10 - 1 / 1000000000⟩ 1]

/-- The parallel segments `(0,0)-(2,0)` (id 0) and `(0,1)-(2,1)` (id 1). -/
def parallelInput : List Segment :=
  [Segment.ctor ⟨0, 0⟩ ⟨2, 0⟩ 0, Segment.ctor ⟨0, 1⟩ ⟨2, 1⟩ 1]

/-- The horizontal segment `(0,0)-(10,0)` (id 0) and the vertical segment
`(0,1)-(0,-1)` (id 1) through its left endpoint. -/
def nudgedInput : List Segment :=
  [Segment.ctor ⟨0, 0⟩ ⟨10, 0⟩ 0, Segment.ctor ⟨0, 1⟩ ⟨0, -1⟩ 1]

/-! # Theorems -/

/-! ## The event order and the queue -/

theorem eventLt_iff (a b : Event) :
    a.lt b = true ↔
      a.p.y < b.p.y ∨
      (a.p.y = b.p.y ∧ a.type ≠ b.type ∧ getTypePriority a.type < getTypePriority b.type) ∨
      (a.p.y = b.p.y ∧ a.type = b.type ∧ b.p.x < a.p.x) := by
  unfold Event.lt
  by_cases h1 : a.p.y = b.p.y
  · by_cases h2 : a.type = b.type
    · simp [h1, h2]
    · simp [h1, h2]
  · simp only [ne_eq, h1, not_false_eq_true, if_true, decide_eq_true_eq, false_and, or_false]

theorem eventLt_irrefl (a : Event) : a.lt a = false := by
  simp [Event.lt]

/-- `Event::operator<` is transitive. -/
theorem eventLt_trans {a b c : Event} (hab : a.lt b = true) (hbc : b.lt c = true) :
    a.lt c = true := by
  rw [eventLt_iff] at *
  rcases hab with h | ⟨hy, ht, hp⟩ | ⟨hy, ht, hx⟩ <;>
    rcases hbc with h' | ⟨hy', ht', hp'⟩ | ⟨hy', ht', hx'⟩
  · exact Or.inl (lt_trans h h')
  · exact Or.inl (hy' ▸ h)
  · exact Or.inl (hy' ▸ h)
  · exact Or.inl (hy ▸ h')
  · refine Or.inr (Or.inl ⟨hy.trans hy', ?_, lt_trans hp hp'⟩)
    intro he
    rw [he] at hp
    exact lt_irrefl _ (lt_trans hp hp')
  · refine Or.inr (Or.inl ⟨hy.trans hy', ht' ▸ ht, ht' ▸ hp⟩)
  · exact Or.inl (hy ▸ h')
  · refine Or.inr (Or.inl ⟨hy.trans hy', ht ▸ ht', ht ▸ hp'⟩)
  · exact Or.inr (Or.inr ⟨hy.trans hy', ht.trans ht', lt_trans hx' hx⟩)

theorem foldl_max_mem (rest : List Event) (e : Event) :
    rest.foldl (fun best c => if best.lt c then c else best) e ∈ e :: rest := by
  induction rest generalizing e with
  | nil => simp
  | cons c rest ih =>
    simp only [List.foldl_cons]
    have := ih (if e.lt c then c else e)
    rcases List.mem_cons.1 this with h | h
    · rw [h]; split <;> simp
    · exact List.mem_cons_of_mem _ (List.mem_cons_of_mem _ h)

theorem foldl_max_ge (rest : List Event) (e : Event) (pre : List Event)
    (hpre : ∀ c ∈ pre, e.lt c = false) :
    ∀ c ∈ pre ++ e :: rest,
      (rest.foldl (fun best c => if best.lt c then c else best) e).lt c = false := by
  induction rest generalizing e pre with
  | nil =>
    intro c hc
    simp only [List.foldl_nil]
    rcases List.mem_append.1 hc with h | h
    · exact hpre c h
    · simp only [List.mem_singleton] at h
      rw [h]; exact eventLt_irrefl e
  | cons d rest ih =>
    intro c hc
    simp only [List.foldl_cons]
    have key : ∀ c ∈ pre ++ [e, d], (if e.lt d then d else e).lt c = false := by
      intro c hc
      by_cases hed : e.lt d = true
      · simp only [hed, if_true]
        rcases List.mem_append.1 hc with h | h
        · have hec := hpre c h
          by_contra hdc
          simp only [Bool.not_eq_false] at hdc
          rw [eventLt_trans hed hdc] at hec
          exact Bool.noConfusion hec
        · simp only [List.mem_cons, List.mem_singleton, List.not_mem_nil, or_false] at h
          rcases h with h | h
          · by_contra hdc
            simp only [Bool.not_eq_false] at hdc
            have := eventLt_trans hed hdc
            rw [h, eventLt_irrefl] at this
            exact Bool.noConfusion this
          · rw [h]; exact eventLt_irrefl d
      · simp only [hed]
        rcases List.mem_append.1 hc with h | h
        · exact hpre c h
        · simp only [List.mem_cons, List.mem_singleton, List.not_mem_nil, or_false] at h
          rcases h with h | h
          · rw [h]; exact eventLt_irrefl e
          · rw [h]; simpa using hed
    apply ih (if e.lt d then d else e) (pre ++ [e, d]) key c
    simp only [List.mem_append, List.mem_cons, List.mem_singleton, List.not_mem_nil, or_false] at hc ⊢
    tauto

/-- The event `top()` returns is a pending event. -/
theorem top_mem {events : List Event} {t : Event} (h : top events = some t) : t ∈ events := by
  cases events with
  | nil => simp [top] at h
  | cons e rest =>
    simp only [top, Option.some.injEq] at h
    rw [← h]; exact foldl_max_mem rest e

/-- The event `top()` returns is `<` no pending event. -/
theorem top_max {events : List Event} {t : Event} (h : top events = some t) :
    ∀ c ∈ events, t.lt c = false := by
  cases events with
  | nil => simp [top] at h
  | cons e rest =>
    simp only [top, Option.some.injEq] at h
    rw [← h]
    simpa using foldl_max_ge rest e [] (by simp)

/-! ## Hash-independent runs -/

theorem count_free (hd hd' : ℚ → Nat) {seen : List Point} {p : Point}
    (h : unambiguous seen p = true) : count hd seen p = count hd' seen p := by
  unfold count
  congr 1
  apply List.filter_congr
  intro q hq
  have := (List.all_eq_true.1 h) q hq
  by_cases hqp : q = p
  · simp [hqp]
  · cases hpe : pointEq q p with
    | false => simp [hqp]
    | true => simp [hqp, hpe] at this

theorem addEvent_free (hd hd' : ℚ → Nat) {sweepY : ℚ} {events : List Event}
    {a b : Option SegPtr} {p : Point} {seen : List Point}
    (h : addEventFree sweepY a b p seen = true) :
    addEvent hd sweepY events a b p seen = addEvent hd' sweepY events a b p seen := by
  unfold addEvent
  unfold addEventFree at h
  cases a with
  | none => rfl
  | some a =>
    cases b with
    | none => rfl
    | some b =>
      simp only at h ⊢
      by_cases hab : a.addr = b.addr
      · simp [hab]
      · simp only [hab, if_false] at h ⊢
        cases hi : getIntersection a.seg b.seg with
        | none => rfl
        | some ip =>
          simp only [hi] at h ⊢
          split_ifs at h with hc
          · simp only [hc, if_true]
            rw [count_free hd hd' h]
          · simp only [hc, if_false]

theorem checkOther_free (hd hd' : ℚ → Nat) {p : Point} {s1 : SegPtr}
    {acc : List Point × List Point} {other : Option SegPtr}
    (h : checkOtherFree p s1 acc other = true) :
    checkOther hd p s1 acc other = checkOther hd' p s1 acc other := by
  unfold checkOther
  unfold checkOtherFree at h
  cases other with
  | none => rfl
  | some o =>
    simp only at h ⊢
    split_ifs at h with hc
    · simp only [hc, if_true]
      rw [count_free hd hd' h]
    · simp only [hc]
      rfl

theorem bind_congr_some {α β : Type} {x : Option α} {f g : α → Option β}
    (h : ∀ a, x = some a → f a = g a) : x.bind f = x.bind g := by
  cases x with
  | none => rfl
  | some a => exact h a rfl

theorem stepInsert_free (hd : ℚ → Nat) {st : State} {e : Event}
    (h : stepInsertFree st e = true) : stepInsert hd st e = stepInsert hashConst st e := by
  unfold stepInsert
  unfold stepInsertFree at h
  cases hs : e.s1 with
  | none => rfl
  | some s1 =>
    simp only [hs] at h ⊢
    refine bind_congr_some fun a0 ha => bind_congr_some fun b0 hb => ?_
    simp only [ha, hb, Bool.and_eq_true, List.foldl_cons, List.foldl_nil] at h ⊢
    obtain ⟨⟨h1, h2⟩, h3⟩ := h
    rw [checkOther_free hd hashConst h1, checkOther_free hd hashConst h2]
    refine bind_congr_some fun root hi => bind_congr_some fun ab hab =>
      bind_congr_some fun bl hbl => ?_
    simp only [hi, hab, hbl, Bool.and_eq_true] at h3
    rw [addEvent_free hd hashConst h3.1, addEvent_free hd hashConst h3.2]

theorem stepRemove_free (hd : ℚ → Nat) {st : State} {e : Event}
    (h : stepRemoveFree st e = true) : stepRemove hd st e = stepRemove hashConst st e := by
  unfold stepRemove
  unfold stepRemoveFree at h
  cases hs : e.s1 with
  | none => rfl
  | some s1 =>
    simp only [hs] at h ⊢
    refine bind_congr_some fun a0 ha => bind_congr_some fun b0 hb => ?_
    simp only [ha, hb, Bool.and_eq_true, List.foldl_cons, List.foldl_nil] at h ⊢
    obtain ⟨⟨h1, h2⟩, h3⟩ := h
    rw [checkOther_free hd hashConst h1, checkOther_free hd hashConst h2]
    refine bind_congr_some fun ab hab => bind_congr_some fun bl hbl =>
      bind_congr_some fun root _ => ?_
    simp only [hab, hbl] at h3
    rw [addEvent_free hd hashConst h3]

theorem stepIntersection_free (hd : ℚ → Nat) {st : State} {e : Event}
    (h : stepIntersectionFree st e = true) :
    stepIntersection hd st e = stepIntersection hashConst st e := by
  unfold stepIntersection
  unfold stepIntersectionFree at h
  cases hs1 : e.s1 with
  | none => rfl
  | some s1 =>
    cases hs2 : e.s2 with
    | none => rfl
    | some s2 =>
      simp only [hs1, hs2] at h ⊢
      refine bind_congr_some fun r1 he1 => bind_congr_some fun r2 he2 =>
        bind_congr_some fun r3 hi1 => bind_congr_some fun root hi2 =>
        bind_congr_some fun ab hab => bind_congr_some fun bl hbl => ?_
      simp only [he1, he2, hi1, hi2, hab, hbl, Option.some_bind, Bool.and_eq_true] at h
      rw [addEvent_free hd hashConst h.1, addEvent_free hd hashConst h.2]

theorem step_free (hd : ℚ → Nat) {st : State} (h : stepFree st = true) :
    step hd st = step hashConst st := by
  unfold step
  unfold stepFree at h
  cases ht : top st.events with
  | none => rfl
  | some e =>
    simp only [ht] at h ⊢
    split_ifs at h ⊢ with h0 h1 h2
    · exact stepInsert_free hd h
    · exact stepRemove_free hd h
    · exact stepIntersection_free hd h
    · rfl

theorem loop_zero (hd : ℚ → Nat) (st : State) :
    loop hd 0 st = if st.events.isEmpty then some st else none := by
  rw [loop]

theorem loop_succ (hd : ℚ → Nat) (fuel : Nat) (st : State) :
    loop hd (fuel + 1) st =
      if st.events.isEmpty then some st else (step hd st).bind (loop hd fuel) := by
  rw [loop]

theorem loop_free (hd : ℚ → Nat) (fuel : Nat) (st : State) (h : loopFree fuel st = true) :
    loop hd fuel st = loop hashConst fuel st := by
  induction fuel generalizing st with
  | zero => rw [loop_zero, loop_zero]
  | succ k ih =>
    rw [loop_succ, loop_succ]
    rw [loopFree] at h
    by_cases he : st.events.isEmpty = true
    · simp only [he, if_true]
    · simp only [he, Bool.false_eq_true, if_false, Bool.and_eq_true] at h ⊢
      rw [step_free hd h.1]
      refine bind_congr_some fun st1 hs => ?_
      simp only [hs] at h
      exact ih st1 h.2

/-- A run whose lookups are all unambiguous is the same for every hash function. -/
theorem findIntersections_free (hd : ℚ → Nat) (segments : List Segment)
    (h : loopFree (maxIterations segments.length) (init segments) = true) :
    findIntersections hd segments = findIntersections hashConst segments := by
  unfold findIntersections
  rw [loop_free hd _ _ h]

/-! ## The status tree keeps its shape -/

variable {Q : SegPtr → Prop}

theorem isNil_nil : (nil : AVLTree).isNil = true := rfl

theorem isNil_iff {t : AVLTree} : t.isNil = true ↔ t = nil := by
  cases t <;> simp [isNil]

theorem Shaped.ne_nil {t : AVLTree} (h : Shaped Q t) : t ≠ nil := by
  intro e; rw [e] at h; exact h

theorem Shaped.isNil {t : AVLTree} (h : Shaped Q t) : t.isNil = false := by
  cases t with
  | nil => exact h.elim
  | node _ _ _ _ _ => rfl

theorem Shaped.height_pos {t : AVLTree} (h : Shaped Q t) : 1 ≤ t.height := by
  induction t with
  | nil => exact h.elim
  | node sg m l r hh ihl ihr =>
    rcases h with ⟨_, _, h1, _⟩ | ⟨hl, hr, hh', _⟩
    · simp [height, h1]
    · have h1 := ihl hl
      have h2 : l.height ≤ max l.height r.height := le_max_left _ _
      show 1 ≤ hh
      rw [hh']
      linarith

theorem Shaped.leaf {sg m : Option SegPtr} {h : Int} (hs : Shaped Q (node sg m nil nil h)) :
    h = 1 ∧ ∃ s, sg = some s ∧ Q s := by
  rcases hs with ⟨_, _, h1, hq⟩ | ⟨hl, _⟩
  · exact ⟨h1, hq⟩
  · exact hl.elim

theorem Shaped.internal {sg m : Option SegPtr} {l r : AVLTree} {h : Int}
    (hs : Shaped Q (node sg m l r h)) (hn : l ≠ nil ∨ r ≠ nil) :
    Shaped Q l ∧ Shaped Q r ∧ h = max l.height r.height + 1 ∧ ∃ t, m = some t ∧ Q t := by
  rcases hs with ⟨hl, hr, _⟩ | h
  · rcases hn with hn | hn
    · exact absurd hl hn
    · exact absurd hr hn
  · exact h

theorem Shaped.of_height {t : AVLTree} (hs : Shaped Q t) (hh : 2 ≤ t.height) :
    ∃ sg m l r h, t = node sg m l r h ∧ Shaped Q l ∧ Shaped Q r := by
  cases t with
  | nil => exact hs.elim
  | node sg m l r h =>
    rcases hs with ⟨_, _, h1, _⟩ | ⟨hl, hr, _⟩
    · simp only [height, h1] at hh; omega
    · exact ⟨sg, m, l, r, h, rfl, hl, hr⟩

theorem Shaped.rightmost {t : AVLTree} (hs : Shaped Q t) :
    ∃ s, rightmostSegment t = some s ∧ Q s := by
  induction t with
  | nil => exact hs.elim
  | node sg m l r h _ ihr =>
    rcases hs with ⟨_, hr, _, hq⟩ | ⟨_, hr, _, _⟩
    · simp only [rightmostSegment, hr, isNil, if_true]; exact hq
    · simp only [rightmostSegment, hr.isNil, Bool.false_eq_true, if_false]; exact ihr hr

theorem Shaped.update {l r : AVLTree} (hl : Shaped Q l) (hr : Shaped Q r)
    (sg m : Option SegPtr) (h : Int) : Shaped Q (update (node sg m l r h)) := by
  unfold AVLTree.update
  refine Or.inr ⟨hl, hr, rfl, ?_⟩
  simp only [hl.isNil, Bool.not_false, Bool.true_and, Bool.false_eq_true, if_false, if_true]
  split
  · rename_i hleaf
    cases l with
    | nil => exact hl.elim
    | node a b c d e =>
      simp only [isLeaf, Bool.and_eq_true] at hleaf
      have hc : c = nil := isNil_iff.1 hleaf.1
      have hd : d = nil := isNil_iff.1 hleaf.2
      subst hc; subst hd
      exact hl.leaf.2
  · exact hl.rightmost

theorem update_height (sg m : Option SegPtr) (l r : AVLTree) (h : Int) :
    (update (node sg m l r h)).height = max l.height r.height + 1 := by
  simp [AVLTree.update, height]

theorem update_node (sg m : Option SegPtr) (l r : AVLTree) (h : Int) :
    ∃ m', update (node sg m l r h) = node sg m' l r (max l.height r.height + 1) := by
  exact ⟨_, rfl⟩

theorem rotateRight_shaped {xl xr yr : AVLTree} (hxl : Shaped Q xl) (hxr : Shaped Q xr)
    (hyr : Shaped Q yr) (ys ym xs xm : Option SegPtr) (xh yh : Int) :
    ∃ t, rotateRight (node ys ym (node xs xm xl xr xh) yr yh) = some t ∧ Shaped Q t :=
  ⟨_, rfl, Shaped.update hxl (Shaped.update hxr hyr _ _ _) _ _ _⟩

theorem rotateLeft_shaped {xl yl yr : AVLTree} (hxl : Shaped Q xl) (hyl : Shaped Q yl)
    (hyr : Shaped Q yr) (xs xm ys ym : Option SegPtr) (xh yh : Int) :
    ∃ t, rotateLeft (node xs xm xl (node ys ym yl yr yh) xh) = some t ∧ Shaped Q t :=
  ⟨_, rfl, Shaped.update (Shaped.update hxl hyl _ _ _) hyr _ _ _⟩

/-- The rebalancing tail of `insert` and `erase` meets no null pointer and keeps the shape. -/
theorem rebalance_shaped {l r : AVLTree} (hl : Shaped Q l) (hr : Shaped Q r)
    (sg m : Option SegPtr) (h : Int) :
    ∃ t, rebalance (update (node sg m l r h)) = some t ∧ Shaped Q t := by
  obtain ⟨m', hu⟩ := update_node sg m l r h
  have hsu : Shaped Q (update (node sg m l r h)) := Shaped.update hl hr sg m h
  rw [hu] at hsu ⊢
  simp only [rebalance, balanceFactor]
  have hlp := hl.height_pos
  have hrp := hr.height_pos
  split_ifs with h1 h2 h3 h4
  · -- left heavy, single rotation
    obtain ⟨a, b, c, d, e, rfl, hc, hd⟩ := hl.of_height (by omega)
    exact rotateRight_shaped hc hd hr _ _ _ _ _ _
  · obtain ⟨a, b, c, d, e, rfl, hc, hd⟩ := hl.of_height (by omega)
    simp only [balanceFactor, ge_iff_le, not_le] at h2
    have hcp := hc.height_pos
    obtain ⟨a', b', c', d', e', rfl, hc', hd'⟩ := hd.of_height (by omega)
    obtain ⟨t1, ht1, hs1⟩ := rotateLeft_shaped hc hc' hd' a b a' b' e e'
    rw [ht1]
    simp only [Option.some_bind]
    simp only [rotateLeft, Option.some.injEq] at ht1
    obtain ⟨m2, hm2⟩ := update_node a' b' (update (node a b c c' e)) d' e'
    rw [hm2] at ht1
    subst ht1
    exact rotateRight_shaped (Shaped.update hc hc' _ _ _) hd' hr _ _ _ _ _ _
  · obtain ⟨a, b, c, d, e, rfl, hc, hd⟩ := hr.of_height (by omega)
    exact rotateLeft_shaped hl hc hd _ _ _ _ _ _
  · obtain ⟨a, b, c, d, e, rfl, hc, hd⟩ := hr.of_height (by omega)
    simp only [balanceFactor, not_le] at h4
    have hdp := hd.height_pos
    obtain ⟨a', b', c', d', e', rfl, hc', hd'⟩ := hc.of_height (by omega)
    obtain ⟨t1, ht1, hs1⟩ := rotateRight_shaped hc' hd' hd a b a' b' e' e
    rw [ht1]
    simp only [Option.some_bind]
    simp only [rotateRight, Option.some.injEq] at ht1
    obtain ⟨m2, hm2⟩ := update_node a' b' c' (update (node a b d' d e)) e'
    rw [hm2] at ht1
    subst ht1
    exact rotateLeft_shaped hl hc' (Shaped.update hd' hd _ _ _) _ _ _ _ _ _
  · exact ⟨_, rfl, hsu⟩

theorem shaped_leaf {s : SegPtr} (hs : Q s) (m : Option SegPtr) :
    Shaped Q (node (some s) m nil nil 1) :=
  Or.inl ⟨rfl, rfl, rfl, s, rfl, hs⟩

theorem isLeaf_false_of {l r : AVLTree} (hl : (l.isNil && r.isNil) = false) :
    l ≠ nil ∨ r ≠ nil := by
  by_contra hc
  push_neg at hc
  simp [hc.1, hc.2, isNil] at hl

theorem isLeaf_true_of {l r : AVLTree} (hl : (l.isNil && r.isNil) = true) :
    l = nil ∧ r = nil := by
  simp only [Bool.and_eq_true] at hl
  exact ⟨isNil_iff.1 hl.1, isNil_iff.1 hl.2⟩

/-- `insert` meets no null pointer and keeps the shape. -/
theorem insert_shaped (sweepY : ℚ) {t : AVLTree} (ht : TreeOK Q t) {s : SegPtr} (hs : Q s) :
    ∃ t', insert sweepY t s = some t' ∧ Shaped Q t' := by
  induction t with
  | nil => exact ⟨_, rfl, shaped_leaf hs _⟩
  | node sg m l r h ihl ihr =>
    have hsh : Shaped Q (node sg m l r h) := by
      rcases ht with ht | ht
      · exact AVLTree.noConfusion ht
      · exact ht
    unfold AVLTree.insert
    cases hleaf : (node sg m l r h).isLeaf with
    | true =>
      obtain ⟨rfl, rfl⟩ := isLeaf_true_of hleaf
      obtain ⟨_, t, rfl, hq⟩ := hsh.leaf
      simp only [if_true]
      split_ifs
      · exact ⟨_, rfl, Shaped.update (shaped_leaf hs _) hsh _ _ _⟩
      · exact ⟨_, rfl, Shaped.update hsh (shaped_leaf hs _) _ _ _⟩
    | false =>
      obtain ⟨hl, hr, _, t, rfl, hq⟩ := hsh.internal (isLeaf_false_of hleaf)
      simp only [Bool.false_eq_true, if_false]
      split_ifs
      · obtain ⟨l1, hl1, hsl1⟩ := ihl (Or.inr hl)
        rw [hl1]
        exact rebalance_shaped hsl1 hr sg (some t) h
      · obtain ⟨r1, hr1, hsr1⟩ := ihr (Or.inr hr)
        rw [hr1]
        exact rebalance_shaped hl hsr1 sg (some t) h

/-- `erase` meets no null pointer and leaves the null pointer or a tree of the shape. -/
theorem erase_shaped {t : AVLTree} (ht : TreeOK Q t) (s : SegPtr) :
    ∃ t', erase t s = some t' ∧ TreeOK Q t' := by
  induction t with
  | nil => exact ⟨_, rfl, Or.inl rfl⟩
  | node sg m l r h ihl ihr =>
    have hsh : Shaped Q (node sg m l r h) := by
      rcases ht with ht | ht
      · exact AVLTree.noConfusion ht
      · exact ht
    rw [AVLTree.erase]
    cases hleaf : (node sg m l r h).isLeaf with
    | true =>
      simp only [if_true]
      split_ifs
      · exact ⟨_, rfl, Or.inl rfl⟩
      · exact ⟨_, rfl, Or.inr hsh⟩
    | false =>
      obtain ⟨hl, hr, _, _⟩ := hsh.internal (isLeaf_false_of hleaf)
      obtain ⟨l1, hl1, hsl1⟩ := ihl (Or.inr hl)
      obtain ⟨r1, hr1, hsr1⟩ := ihr (Or.inr hr)
      simp only [Bool.false_eq_true, if_false, hl1, hr1, Option.some_bind]
      rcases hsl1 with rfl | hsl1
      · rcases hsr1 with rfl | hsr1
        · simp only [isNil_nil, Bool.and_self, if_true]
          exact ⟨_, rfl, Or.inl rfl⟩
        · simp only [isNil_nil, hsr1.isNil, Bool.true_and, Bool.false_eq_true, if_false, if_true]
          exact ⟨_, rfl, Or.inr hsr1⟩
      · rcases hsr1 with rfl | hsr1
        · simp only [isNil_nil, hsl1.isNil, Bool.false_and, Bool.false_eq_true, if_false, if_true]
          exact ⟨_, rfl, Or.inr hsl1⟩
        · simp only [hsl1.isNil, hsr1.isNil, Bool.false_and, Bool.false_eq_true, if_false]
          obtain ⟨t, h1, h2⟩ := rebalance_shaped hsl1 hsr1 sg m h
          exact ⟨t, h1, Or.inr h2⟩

theorem aboveLoop_ok (sweepY : ℚ) (s : SegPtr) (noid : Bool) {t : AVLTree} (ht : TreeOK Q t)
    {succ : Option SegPtr} (hsucc : OptQ Q succ) :
    ∃ r, aboveLoop sweepY s noid t succ = some r ∧ OptQ Q r := by
  induction t generalizing succ with
  | nil => exact ⟨_, rfl, hsucc⟩
  | node sg m l r h ihl ihr =>
    have hsh : Shaped Q (node sg m l r h) := by
      rcases ht with ht | ht
      · exact AVLTree.noConfusion ht
      · exact ht
    unfold aboveLoop
    cases hleaf : (l.isNil && r.isNil) with
    | true =>
      obtain ⟨rfl, rfl⟩ := isLeaf_true_of hleaf
      obtain ⟨_, t, rfl, hq⟩ := hsh.leaf
      simp only [if_true]
      refine ⟨_, rfl, ?_⟩
      split_ifs
      · intro x hx; cases hx; exact hq
      · exact hsucc
    | false =>
      obtain ⟨hl, hr, _, t, rfl, hq⟩ :=
        hsh.internal (isLeaf_false_of hleaf)
      simp only [Bool.false_eq_true, if_false]
      split_ifs
      · exact ihl (Or.inr hl) (fun x hx => by cases hx; exact hq)
      · exact ihr (Or.inr hr) hsucc

theorem belowLoop_ok (sweepY : ℚ) (s : SegPtr) (noid : Bool) {t : AVLTree} (ht : TreeOK Q t)
    {pred : Option SegPtr} (hpred : OptQ Q pred) :
    ∃ r, belowLoop sweepY s noid t pred = some r ∧ OptQ Q r := by
  induction t generalizing pred with
  | nil => exact ⟨_, rfl, hpred⟩
  | node sg m l r h ihl ihr =>
    have hsh : Shaped Q (node sg m l r h) := by
      rcases ht with ht | ht
      · exact AVLTree.noConfusion ht
      · exact ht
    unfold belowLoop
    cases hleaf : (l.isNil && r.isNil) with
    | true =>
      obtain ⟨rfl, rfl⟩ := isLeaf_true_of hleaf
      obtain ⟨_, t, rfl, hq⟩ := hsh.leaf
      simp only [if_true]
      refine ⟨_, rfl, ?_⟩
      split_ifs
      · intro x hx; cases hx; exact hq
      · exact hpred
    | false =>
      obtain ⟨hl, hr, _, t, rfl, hq⟩ :=
        hsh.internal (isLeaf_false_of hleaf)
      simp only [Bool.false_eq_true, if_false]
      split_ifs
      · exact ihr (Or.inr hr) (fun x hx => by cases hx; exact hq)
      · exact ihl (Or.inr hl) hpred

/-- `above` meets no null pointer and returns null or a segment of the tree. -/
theorem above_ok (sweepY : ℚ) (s : SegPtr) (noid : Bool) {t : AVLTree} (ht : TreeOK Q t) :
    ∃ r, above sweepY t s noid = some r ∧ OptQ Q r :=
  aboveLoop_ok sweepY s noid ht (fun _ hx => Option.noConfusion hx)

/-- `below` meets no null pointer and returns null or a segment of the tree. -/
theorem below_ok (sweepY : ℚ) (s : SegPtr) (noid : Bool) {t : AVLTree} (ht : TreeOK Q t) :
    ∃ r, below sweepY t s noid = some r ∧ OptQ Q r :=
  belowLoop_ok sweepY s noid ht (fun _ hx => Option.noConfusion hx)

/-! ## The queue invariant -/

/-- `getIntersection` gives the same result for a pair in either order. -/
theorem getIntersection_comm (a b : Segment) : getIntersection a b = getIntersection b a := by
  unfold getIntersection
  simp only
  have hdet : (b.q.y - b.p.y) * (a.p.x - a.q.x) - (a.q.y - a.p.y) * (b.p.x - b.q.x) =
      -((a.q.y - a.p.y) * (b.p.x - b.q.x) - (b.q.y - b.p.y) * (a.p.x - a.q.x)) := by ring
  rw [hdet, abs_neg]
  have hx : ((a.p.x - a.q.x) * ((b.q.y - b.p.y) * b.p.x + (b.p.x - b.q.x) * b.p.y) -
      (b.p.x - b.q.x) * ((a.q.y - a.p.y) * a.p.x + (a.p.x - a.q.x) * a.p.y)) /
      -((a.q.y - a.p.y) * (b.p.x - b.q.x) - (b.q.y - b.p.y) * (a.p.x - a.q.x)) =
      ((b.p.x - b.q.x) * ((a.q.y - a.p.y) * a.p.x + (a.p.x - a.q.x) * a.p.y) -
      (a.p.x - a.q.x) * ((b.q.y - b.p.y) * b.p.x + (b.p.x - b.q.x) * b.p.y)) /
      ((a.q.y - a.p.y) * (b.p.x - b.q.x) - (b.q.y - b.p.y) * (a.p.x - a.q.x)) := by
    rw [div_neg, ← neg_div]; congr 1; ring
  have hy : ((b.q.y - b.p.y) * ((a.q.y - a.p.y) * a.p.x + (a.p.x - a.q.x) * a.p.y) -
      (a.q.y - a.p.y) * ((b.q.y - b.p.y) * b.p.x + (b.p.x - b.q.x) * b.p.y)) /
      -((a.q.y - a.p.y) * (b.p.x - b.q.x) - (b.q.y - b.p.y) * (a.p.x - a.q.x)) =
      ((a.q.y - a.p.y) * ((b.q.y - b.p.y) * b.p.x + (b.p.x - b.q.x) * b.p.y) -
      (b.q.y - b.p.y) * ((a.q.y - a.p.y) * a.p.x + (a.p.x - a.q.x) * a.p.y)) /
      ((a.q.y - a.p.y) * (b.p.x - b.q.x) - (b.q.y - b.p.y) * (a.p.x - a.q.x)) := by
    rw [div_neg, ← neg_div]; congr 1; ring
  rw [hx, hy]
  split_ifs with h1 h2 h3 h3
  · rfl
  · rfl
  · exact absurd ⟨h2.2.2.2.2.1, h2.2.2.2.2.2.1, h2.2.2.2.2.2.2.1, h2.2.2.2.2.2.2.2,
      h2.1, h2.2.1, h2.2.2.1, h2.2.2.2.1⟩ h3
  · exact absurd ⟨h3.2.2.2.2.1, h3.2.2.2.2.2.1, h3.2.2.2.2.2.2.1, h3.2.2.2.2.2.2.2,
      h3.1, h3.2.1, h3.2.2.1, h3.2.2.2.1⟩ h2
  · rfl

theorem mem_pairsOf {l : List SegPtr} {a b : SegPtr} (ha : a ∈ l) (hb : b ∈ l) (hne : a ≠ b) :
    (a, b) ∈ pairsOf l ∨ (b, a) ∈ pairsOf l := by
  induction l with
  | nil => simp at ha
  | cons c rest ih =>
    simp only [pairsOf, List.mem_append, List.mem_map, Prod.mk.injEq]
    rcases List.mem_cons.1 ha with rfl | ha'
    · rcases List.mem_cons.1 hb with rfl | hb'
      · exact absurd rfl hne
      · exact Or.inl (Or.inl ⟨b, hb', rfl, rfl⟩)
    · rcases List.mem_cons.1 hb with rfl | hb'
      · exact Or.inr (Or.inl ⟨a, ha', rfl, rfl⟩)
      · rcases ih ha' hb' with h | h
        · exact Or.inl (Or.inr h)
        · exact Or.inr (Or.inr h)

theorem two_mul_length_pairsOf (l : List SegPtr) :
    2 * (pairsOf l).length = l.length * (l.length - 1) := by
  induction l with
  | nil => rfl
  | cons c rest ih =>
    simp only [pairsOf, List.length_append, List.length_map, List.length_cons,
      Nat.add_sub_cancel]
    rw [Nat.mul_add, ih]
    cases rest.length with
    | zero => rfl
    | succ k => simp only [Nat.add_sub_cancel]; ring

theorem length_pairsOf (l : List SegPtr) :
    (pairsOf l).length = l.length * (l.length - 1) / 2 := by
  have := two_mul_length_pairsOf l
  omega

theorem length_ptrsFrom (i : Nat) (segments : List Segment) :
    (ptrsFrom i segments).length = segments.length := by
  induction segments generalizing i with
  | nil => rfl
  | cons s rest ih => simp [ptrsFrom, ih]

theorem length_candidates_le (segments : List Segment) :
    (candidates segments).length ≤ segments.length * (segments.length - 1) / 2 := by
  unfold candidates
  refine le_trans (List.length_filterMap_le _ _) ?_
  rw [length_pairsOf, length_ptrsFrom]

theorem mem_candidates {segments : List Segment} {a b : SegPtr} {ip : Point}
    (ha : a ∈ ptrsFrom 0 segments) (hb : b ∈ ptrsFrom 0 segments) (hne : a.addr ≠ b.addr)
    (hi : getIntersection a.seg b.seg = some ip) : ip ∈ candidates segments := by
  have hab : a ≠ b := fun h => hne (by rw [h])
  unfold candidates
  rw [List.mem_filterMap]
  rcases mem_pairsOf ha hb hab with h | h
  · exact ⟨(a, b), h, hi⟩
  · exact ⟨(b, a), h, by rw [getIntersection_comm]; exact hi⟩

theorem nodup_length_le_candidates {segments : List Segment} {l : List Point}
    (hn : l.Nodup) (hs : ∀ p ∈ l, p ∈ candidates segments) :
    l.length ≤ segments.length * (segments.length - 1) / 2 :=
  le_trans (List.Subperm.length_le (List.Nodup.subperm hn hs)) (length_candidates_le segments)

theorem count_ne_zero_of_mem (hd : ℚ → Nat) {seen : List Point} {p : Point} (h : p ∈ seen) :
    count hd seen p ≠ 0 := by
  unfold count
  rw [Nat.ne_zero_iff_zero_lt, List.length_pos_iff_exists_mem]
  exact ⟨p, List.mem_filter.2 ⟨h, by simp⟩⟩

theorem qinv_mono {segments : List Segment} {events tr : List Event} {seen seen' : List Point}
    (h : QInv segments events tr seen) (hs : ∀ p ∈ seen, p ∈ seen') :
    QInv segments events tr seen' :=
  ⟨h.ok, h.ends, fun e he ht => ⟨hs _ (h.known e he ht).1, (h.known e he ht).2⟩, h.once⟩

theorem qinv_push {segments : List Segment} {events tr : List Event} {seen : List Point}
    (h : QInv segments events tr seen) {a b : SegPtr} {ip : Point}
    (ha : a ∈ ptrsFrom 0 segments) (hb : b ∈ ptrsFrom 0 segments) (hne : a.addr ≠ b.addr)
    (hi : getIntersection a.seg b.seg = some ip) (hn : ip ∉ seen) :
    QInv segments (push events ⟨ip, 2, some a, some b⟩) tr (ip :: seen) := by
  have hperm : List.Perm (push events ⟨ip, 2, some a, some b⟩ ++ tr)
      (⟨ip, 2, some a, some b⟩ :: (events ++ tr)) := by
    unfold push
    rw [List.append_assoc]
    exact List.perm_middle
  refine ⟨?_, ?_, ?_, ?_⟩
  · intro e he
    unfold push at he
    rcases List.mem_append.1 he with he | he
    · exact h.ok e he
    · simp only [List.mem_singleton] at he
      subst he
      exact Or.inr ⟨rfl, a, b, rfl, rfl, ha, hb⟩
  · refine List.Perm.trans (List.Perm.filter _ hperm) ?_
    rw [List.filter_cons_of_neg (by simp)]
    exact h.ends
  · intro e he ht
    rcases List.mem_cons.1 ((List.Perm.mem_iff hperm).1 he) with rfl | he
    · exact ⟨List.mem_cons_self _ _, mem_candidates ha hb hne hi⟩
    · exact ⟨List.mem_cons_of_mem _ (h.known e he ht).1, (h.known e he ht).2⟩
  · rw [List.Perm.nodup_iff (List.Perm.map _ (List.Perm.filter _ hperm))]
    rw [List.filter_cons_of_pos (by simp), List.map_cons, List.nodup_cons]
    refine ⟨?_, h.once⟩
    intro hmem
    rw [List.mem_map] at hmem
    obtain ⟨e, he, hep⟩ := hmem
    rw [List.mem_filter] at he
    have := (h.known e he.1 (by simpa using he.2)).1
    simp only at hep
    rw [hep] at this
    exact hn this

theorem subset_addEvent (hd : ℚ → Nat) (sweepY : ℚ) (events : List Event)
    (a b : Option SegPtr) (p : Point) (seen : List Point) :
    ∀ x ∈ seen, x ∈ (addEvent hd sweepY events a b p seen).2 := by
  intro x hx
  unfold addEvent
  split
  · split_ifs
    · exact hx
    · split
      · exact hx
      · split_ifs
        · exact List.mem_cons_of_mem _ hx
        · exact hx
        · exact hx
  · exact hx

theorem qinv_addEvent (hd : ℚ → Nat) (sweepY : ℚ) {segments : List Segment}
    {events tr : List Event} {seen : List Point} (h : QInv segments events tr seen)
    {a b : Option SegPtr} (ha : OptQ (fun s => s ∈ ptrsFrom 0 segments) a)
    (hb : OptQ (fun s => s ∈ ptrsFrom 0 segments) b) (p : Point) :
    QInv segments (addEvent hd sweepY events a b p seen).1 tr
      (addEvent hd sweepY events a b p seen).2 := by
  unfold addEvent
  split
  · rename_i a' b'
    split_ifs with h1
    · exact h
    · split
      · exact h
      · rename_i ip hi
        split_ifs with h2 h3
        · exact qinv_push h (ha a' rfl) (hb b' rfl) h1 hi
            (fun hm => count_ne_zero_of_mem hd hm h3)
        · exact h
        · exact h
  · exact h

theorem subset_checkOther (hd : ℚ → Nat) (p : Point) (s1 : SegPtr)
    (acc : List Point × List Point) (other : Option SegPtr) :
    ∀ x ∈ acc.1, x ∈ (checkOther hd p s1 acc other).1 := by
  intro x hx
  unfold checkOther
  split
  · exact hx
  · split_ifs
    · exact List.mem_cons_of_mem _ hx
    · exact hx
    · exact hx

theorem top_eq_none {events : List Event} (h : top events = none) : events = [] := by
  cases events with
  | nil => rfl
  | cons e rest => simp [top] at h

theorem qinv_pop {segments : List Segment} {events tr : List Event} {seen : List Point}
    (h : QInv segments events tr seen) {e : Event} (ht : top events = some e) :
    QInv segments (pop events) (tr ++ [e]) seen ∧ EvOK (fun s => s ∈ ptrsFrom 0 segments) e := by
  have hmem : e ∈ events := top_mem ht
  have hpop : pop events = events.erase e := by simp [pop, ht]
  have hperm : List.Perm (events.erase e ++ (tr ++ [e])) (events ++ tr) := by
    have h1 : List.Perm (events.erase e ++ (tr ++ [e])) (e :: (events.erase e ++ tr)) := by
      rw [← List.append_assoc]
      exact List.perm_append_singleton _ _
    refine h1.trans ?_
    have h2 : List.Perm (e :: events.erase e) events := (List.perm_cons_erase hmem).symm
    exact List.Perm.append_right tr h2
  rw [hpop]
  refine ⟨⟨?_, ?_, ?_, ?_⟩, h.ok e hmem⟩
  · intro x hx
    exact h.ok x (List.mem_of_mem_erase hx)
  · exact (List.Perm.filter _ hperm).trans h.ends
  · intro x hx
    exact h.known x ((List.Perm.mem_iff hperm).1 hx)
  · rw [List.Perm.nodup_iff (List.Perm.map _ (List.Perm.filter _ hperm))]
    exact h.once

/-! ## The loop invariant -/

theorem pushEndpoints_key (i : Nat) (segments : List Segment) (acc : List Event) :
    (pushEndpoints i segments acc).map Event.key =
      acc.map Event.key ++
        (ptrsFrom i segments).flatMap fun s => [(0, some s, none), (1, some s, none)] := by
  induction segments generalizing i acc with
  | nil => simp [pushEndpoints, ptrsFrom]
  | cons s rest ih =>
    unfold pushEndpoints
    split <;> (simp only [ih]; simp [push, ptrsFrom, Event.key])

theorem init_key (segments : List Segment) :
    (init segments).events.map Event.key =
      (ptrsFrom 0 segments).flatMap fun s => [(0, some s, none), (1, some s, none)] := by
  simp [init, pushEndpoints_key]

theorem init_event {segments : List Segment} {e : Event} (he : e ∈ (init segments).events) :
    (e.type = 0 ∨ e.type = 1) ∧ ∃ s, e.s1 = some s ∧ s ∈ ptrsFrom 0 segments := by
  have h1 : e.key ∈ (init segments).events.map Event.key := List.mem_map_of_mem _ he
  rw [init_key, List.mem_flatMap] at h1
  obtain ⟨s, hs, hk⟩ := h1
  simp only [List.mem_cons, List.mem_singleton, Event.key, Prod.mk.injEq, List.not_mem_nil,
    or_false] at hk
  rcases hk with ⟨h1, h2, _⟩ | ⟨h1, h2, _⟩
  · exact ⟨Or.inl h1, s, h2, hs⟩
  · exact ⟨Or.inr h1, s, h2, hs⟩

theorem length_endpoint_keys (i : Nat) (segments : List Segment) :
    ((ptrsFrom i segments).flatMap fun s =>
      [((0 : Int), some s, (none : Option SegPtr)), (1, some s, none)]).length =
      2 * segments.length := by
  induction segments generalizing i with
  | nil => rfl
  | cons s rest ih =>
    simp only [ptrsFrom, List.flatMap_cons, List.length_append, ih, List.length_cons,
      List.length_nil]
    omega

theorem length_init (segments : List Segment) :
    (init segments).events.length = 2 * segments.length := by
  have h := congrArg List.length (init_key segments)
  rw [List.length_map] at h
  rw [h, length_endpoint_keys]

theorem qinv_init (segments : List Segment) : QInv segments (init segments).events [] [] := by
  refine ⟨?_, ?_, ?_, ?_⟩
  · intro e he
    exact Or.inl (init_event he)
  · rw [List.append_nil, List.filter_eq_self.2]
    intro e he
    rcases (init_event he).1 with h | h <;> simp [h]
  · intro e he ht
    rw [List.append_nil] at he
    rcases (init_event he).1 with h | h <;> rw [h] at ht <;> exact absurd ht (by decide)
  · rw [List.append_nil, List.filter_eq_nil_iff.2]
    · exact List.nodup_nil
    · intro e he
      rcases (init_event he).1 with h | h <;> simp [h]

theorem inv_init (segments : List Segment) : Inv segments [] (init segments) :=
  ⟨Or.inl rfl, qinv_init segments⟩

theorem optQ_some {Q : SegPtr → Prop} {s : SegPtr} (h : Q s) : OptQ Q (some s) :=
  fun _ hx => Option.some.inj hx ▸ h

theorem subset_checkOthers (hd : ℚ → Nat) (p : Point) (s1 : SegPtr)
    (acc : List Point × List Point) (a0 b0 : Option SegPtr) :
    ∀ x ∈ acc.1, x ∈ ([a0, b0].foldl (checkOther hd p s1) acc).1 := by
  intro x hx
  simp only [List.foldl_cons, List.foldl_nil]
  exact subset_checkOther hd p s1 _ b0 x (subset_checkOther hd p s1 acc a0 x hx)

theorem stepInsert_inv (hd : ℚ → Nat) {segments : List Segment} {tr : List Event} {st : State}
    (h : Inv segments tr st) {e : Event} {s : SegPtr} (hs1 : e.s1 = some s)
    (hs : s ∈ ptrsFrom 0 segments) :
    ∃ st1, stepInsert hd st e = some st1 ∧ Inv segments tr st1 := by
  unfold stepInsert
  simp only [hs1]
  obtain ⟨a0, ha0, _⟩ := above_ok st.sweepY s true h.tree
  obtain ⟨b0, hb0, _⟩ := below_ok st.sweepY s true h.tree
  obtain ⟨root, hroot, hsh⟩ := insert_shaped (st.sweepY - nudge) h.tree
    (Q := fun s => s ∈ ptrsFrom 0 segments) hs
  obtain ⟨ab, hab, hqa⟩ := above_ok (st.sweepY - nudge) s false
    (Or.inr hsh : TreeOK (fun s => s ∈ ptrsFrom 0 segments) root)
  obtain ⟨bl, hbl, hqb⟩ := below_ok (st.sweepY - nudge) s false
    (Or.inr hsh : TreeOK (fun s => s ∈ ptrsFrom 0 segments) root)
  simp only [ha0, hb0, hroot, hab, hbl, Option.some_bind]
  refine ⟨_, rfl, ⟨Or.inr hsh, ?_⟩⟩
  have hself : OptQ (fun s => s ∈ ptrsFrom 0 segments) (some s) := optQ_some hs
  have q1 := qinv_mono h.queue (subset_checkOthers hd e.p s (st.seen, st.output) a0 b0)
  have q2 := qinv_addEvent hd (st.sweepY - nudge) q1 hqa hself e.p
  exact qinv_addEvent hd (st.sweepY - nudge) q2 hself hqb e.p

theorem stepRemove_inv (hd : ℚ → Nat) {segments : List Segment} {tr : List Event} {st : State}
    (h : Inv segments tr st) {e : Event} {s : SegPtr} (hs1 : e.s1 = some s) :
    ∃ st1, stepRemove hd st e = some st1 ∧ Inv segments tr st1 := by
  unfold stepRemove
  simp only [hs1]
  obtain ⟨a0, ha0, _⟩ := above_ok st.sweepY s true h.tree
  obtain ⟨b0, hb0, _⟩ := below_ok st.sweepY s true h.tree
  obtain ⟨ab, hab, hqa⟩ := above_ok st.sweepY s false h.tree
  obtain ⟨bl, hbl, hqb⟩ := below_ok st.sweepY s false h.tree
  obtain ⟨root, hroot, hsh⟩ := erase_shaped h.tree s
  simp only [ha0, hb0, hroot, hab, hbl, Option.some_bind]
  refine ⟨_, rfl, ⟨hsh, ?_⟩⟩
  have q1 := qinv_mono h.queue (subset_checkOthers hd e.p s (st.seen, st.output) a0 b0)
  exact qinv_addEvent hd st.sweepY q1 hqa hqb e.p

theorem stepIntersection_inv (hd : ℚ → Nat) {segments : List Segment} {tr : List Event}
    {st : State} (h : Inv segments tr st) {e : Event} {a b : SegPtr} (hs1 : e.s1 = some a)
    (hs2 : e.s2 = some b) (ha : a ∈ ptrsFrom 0 segments) (hb : b ∈ ptrsFrom 0 segments) :
    ∃ st1, stepIntersection hd st e = some st1 ∧ Inv segments tr st1 := by
  unfold stepIntersection
  simp only [hs1, hs2]
  obtain ⟨r1, hr1, hsh1⟩ := erase_shaped h.tree a
  obtain ⟨r2, hr2, hsh2⟩ := erase_shaped hsh1 b
  obtain ⟨r3, hr3, hsh3⟩ := insert_shaped (st.sweepY - nudge) hsh2
    (Q := fun s => s ∈ ptrsFrom 0 segments) hb
  obtain ⟨root, hroot, hsh⟩ := insert_shaped (st.sweepY - nudge)
    (Or.inr hsh3 : TreeOK (fun s => s ∈ ptrsFrom 0 segments) r3)
    (Q := fun s => s ∈ ptrsFrom 0 segments) ha
  have hqt : (if segmentLess (st.sweepY - nudge) a.seg b.seg false then b else a) ∈
      ptrsFrom 0 segments := by split_ifs <;> assumption
  have hqbt : (if segmentLess (st.sweepY - nudge) a.seg b.seg false then a else b) ∈
      ptrsFrom 0 segments := by split_ifs <;> assumption
  obtain ⟨ab, hab, hqa⟩ := above_ok (st.sweepY - nudge)
    (if segmentLess (st.sweepY - nudge) a.seg b.seg false then b else a) false
    (Or.inr hsh : TreeOK (fun s => s ∈ ptrsFrom 0 segments) root)
  obtain ⟨bl, hbl, hqb⟩ := below_ok (st.sweepY - nudge)
    (if segmentLess (st.sweepY - nudge) a.seg b.seg false then a else b) false
    (Or.inr hsh : TreeOK (fun s => s ∈ ptrsFrom 0 segments) root)
  simp only [hr1, hr2, hr3, hroot, hab, hbl, Option.some_bind]
  refine ⟨_, rfl, ⟨Or.inr hsh, ?_⟩⟩
  have q2 := qinv_addEvent hd (st.sweepY - nudge) h.queue hqa (optQ_some hqt) e.p
  exact qinv_addEvent hd (st.sweepY - nudge) q2 (optQ_some hqbt) hqb e.p

/-- One iteration of the loop meets no null pointer and keeps the invariant. -/
theorem step_inv (hd : ℚ → Nat) {segments : List Segment} {tr : List Event} {st : State}
    (h : Inv segments tr st) {e : Event} (ht : top st.events = some e) :
    ∃ st1, step hd st = some st1 ∧ Inv segments (tr ++ [e]) st1 := by
  obtain ⟨hq, hev⟩ := qinv_pop h.queue ht
  have h0 : Inv segments (tr ++ [e]) { st with events := pop st.events, sweepY := e.p.y } :=
    ⟨h.tree, hq⟩
  unfold step
  simp only [ht]
  rcases hev with ⟨h01 | h01, s, hs1, hs⟩ | ⟨h2, a, b, hs1, hs2, ha, hb⟩
  · simp only [h01, if_true]
    exact stepInsert_inv hd h0 hs1 hs
  · simp only [h01, if_true]
    exact stepRemove_inv hd h0 hs1
  · simp only [h2, if_true]
    exact stepIntersection_inv hd h0 hs1 hs2 ha hb

/-! ## Termination -/

theorem length_filter_type (l : List Event) :
    (l.filter fun e => decide (e.type = 2)).length +
      (l.filter fun e => decide (e.type ≠ 2)).length = l.length := by
  induction l with
  | nil => rfl
  | cons e rest ih =>
    by_cases h : e.type = 2
    · rw [List.filter_cons_of_pos (by simpa using h), List.filter_cons_of_neg (by simpa using h)]
      simp only [List.length_cons]
      omega
    · rw [List.filter_cons_of_neg (by simpa using h), List.filter_cons_of_pos (by simpa using h)]
      simp only [List.length_cons]
      omega

theorem qinv_crossings_le {segments : List Segment} {events tr : List Event}
    {seen : List Point} (h : QInv segments events tr seen) :
    ((events ++ tr).filter fun e => decide (e.type = 2)).length ≤
      segments.length * (segments.length - 1) / 2 := by
  have := @nodup_length_le_candidates segments _ h.once (by
    intro p hp
    rw [List.mem_map] at hp
    obtain ⟨e, he, rfl⟩ := hp
    rw [List.mem_filter] at he
    exact (h.known e he.1 (by simpa using he.2)).2)
  rwa [List.length_map] at this

theorem qinv_length {segments : List Segment} {events tr : List Event}
    {seen : List Point} (h : QInv segments events tr seen) :
    events.length + tr.length =
      2 * segments.length + ((events ++ tr).filter fun e => decide (e.type = 2)).length := by
  have h1 := length_filter_type (events ++ tr)
  have h2 := List.Perm.length_eq h.ends
  rw [length_init] at h2
  rw [List.length_append] at h1
  omega

theorem qinv_length_le {segments : List Segment} {events tr : List Event}
    {seen : List Point} (h : QInv segments events tr seen) :
    events.length + tr.length ≤ maxIterations segments.length := by
  have h1 := qinv_length h
  have h2 := qinv_crossings_le h
  unfold maxIterations
  omega

theorem popped_zero (hd : ℚ → Nat) (st : State) : popped hd 0 st = [] := by
  rw [popped]

theorem popped_succ_none (hd : ℚ → Nat) (k : Nat) {st : State} (ht : top st.events = none) :
    popped hd (k + 1) st = [] := by
  rw [popped, ht]

theorem popped_succ_some (hd : ℚ → Nat) (k : Nat) {st st1 : State} {e : Event}
    (ht : top st.events = some e) (hs : step hd st = some st1) :
    popped hd (k + 1) st = e :: popped hd k st1 := by
  rw [popped, ht, hs]

/-- From a state satisfying the invariant the loop reaches the empty queue within the iterations left over by the events already popped. -/
theorem loop_terminates (hd : ℚ → Nat) (segments : List Segment) (fuel : Nat) :
    ∀ (st : State) (tr : List Event), Inv segments tr st →
      maxIterations segments.length ≤ fuel + tr.length →
      ∃ st1, loop hd fuel st = some st1 ∧ st1.events = [] ∧
        Inv segments (tr ++ popped hd fuel st) st1 := by
  induction fuel with
  | zero =>
    intro st tr h hb
    have hl := qinv_length_le h.queue
    have hnil : st.events = [] := List.length_eq_zero.1 (by omega)
    refine ⟨st, ?_, hnil, ?_⟩
    · rw [loop_zero, hnil]; rfl
    · rw [popped_zero, List.append_nil]; exact h
  | succ k ih =>
    intro st tr h hb
    cases ht : top st.events with
    | none =>
      have hnil : st.events = [] := top_eq_none ht
      refine ⟨st, ?_, hnil, ?_⟩
      · rw [loop_succ, hnil]; rfl
      · rw [popped_succ_none hd k ht, List.append_nil]; exact h
    | some e =>
      obtain ⟨st1, hs, hi⟩ := step_inv hd h ht
      have hne : st.events.isEmpty = false := by
        cases hev : st.events with
        | nil => rw [hev] at ht; simp [top] at ht
        | cons _ _ => rfl
      obtain ⟨st2, h1, h2, h3⟩ := ih st1 (tr ++ [e]) hi (by
        rw [List.length_append, List.length_singleton]; omega)
      refine ⟨st2, ?_, h2, ?_⟩
      · rw [loop_succ, hne, hs]
        simpa using h1
      · rw [popped_succ_some hd k ht hs]
        simpa using h3

/-- C7. `findIntersections` ends on every input, for every hash function.
Before the loop the queue holds, for each segment in turn, one insert event
and one remove event of that segment. The loop, given `2n + n(n-1)/2`
iterations for `n` segments, reaches the empty queue without dereferencing a
null pointer, so `findIntersections` returns its output. Of the events it
pops, those that are not intersection events are exactly the `2n` endpoint
events pushed before the loop; the intersection events have pairwise
different points and there are at most `n(n-1)/2` of them; in all at most
`2n + n(n-1)/2` events are popped. -/
theorem findIntersections_terminates (hashDouble : ℚ → Nat) (segments : List Segment) :
    ((init segments).events.map Event.key =
      (ptrsFrom 0 segments).flatMap fun s => [(0, some s, none), (1, some s, none)]) ∧
    ∃ st, loop hashDouble (maxIterations segments.length) (init segments) = some st ∧
      st.events = [] ∧
      findIntersections hashDouble segments = some st.output ∧
      List.Perm ((processed hashDouble segments).filter fun e => decide (e.type ≠ 2))
        (init segments).events ∧
      (((processed hashDouble segments).filter fun e => decide (e.type = 2)).map
        fun e => e.p).Nodup ∧
      ((processed hashDouble segments).filter fun e => decide (e.type = 2)).length ≤
        segments.length * (segments.length - 1) / 2 ∧
      (processed hashDouble segments).length ≤
        2 * segments.length + segments.length * (segments.length - 1) / 2 := by
  refine ⟨init_key segments, ?_⟩
  obtain ⟨st, h1, h2, h3⟩ := loop_terminates hashDouble segments (maxIterations segments.length)
    (init segments) [] (inv_init segments) (by simp)
  rw [List.nil_append] at h3
  have hq : QInv segments [] (processed hashDouble segments) st.seen := by
    have := h3.queue
    rw [h2] at this
    exact this
  refine ⟨st, h1, h2, ?_, ?_, ?_, ?_, ?_⟩
  · unfold findIntersections; rw [h1]; rfl
  · simpa using hq.ends
  · simpa using hq.once
  · simpa using qinv_crossings_le hq
  · have := qinv_length_le hq
    simpa [maxIterations] using this

/-! ## The output and the set `seen` -/

/-- The lookup finds the stored points that have the hash of `p` and that `operator==` accepts. -/
theorem count_eq_filter (hd : ℚ → Nat) (seen : List Point) (p : Point) :
    count hd seen p =
      (seen.filter fun q =>
        decide (PointHash hd q = PointHash hd p) && pointEq q p).length := by
  unfold count
  congr 1
  apply List.filter_congr
  intro q _
  by_cases hqp : q = p
  · subst hqp
    have : pointEq q q = true := by
      simp only [pointEq, sub_self, abs_zero, Bool.and_eq_true, decide_eq_true_eq, and_self]
      norm_num [eps]
    simp [this]
  · simp only [hqp, decide_False, Bool.false_or]
    exact Bool.and_comm _ _

theorem count_eq_zero (hd : ℚ → Nat) {seen : List Point} {p : Point}
    (h : count hd seen p = 0) :
    p ∉ seen ∧ ∀ q ∈ seen, ¬ (pointEq q p = true ∧ PointHash hd q = PointHash hd p) := by
  refine ⟨fun hm => count_ne_zero_of_mem hd hm h, ?_⟩
  intro q hq hc
  unfold count at h
  rw [List.length_eq_zero, List.filter_eq_nil_iff] at h
  exact h q hq (by simp [hc.1, hc.2])

theorem pendingPoints_push (events : List Event) (e : Event) (h : e.type = 2) :
    pendingPoints (push events e) = pendingPoints events ++ [e.p] := by
  unfold pendingPoints push
  rw [List.filter_append, List.map_append, List.filter_cons_of_pos (by simpa using h)]
  rfl

theorem outinv_insert {hd : ℚ → Nat} {events : List Event} {seen output : List Point}
    (h : OutInv hd events seen output) {p : Point} (hc : count hd seen p = 0) :
    seen.Pairwise (fun p q => ¬ (pointEq q p = true ∧ PointHash hd q = PointHash hd p)) ∧
    (p :: seen).Pairwise (fun p q => ¬ (pointEq q p = true ∧ PointHash hd q = PointHash hd p)) ∧
    p ∉ output ++ pendingPoints events := by
  obtain ⟨h1, h2⟩ := count_eq_zero hd hc
  exact ⟨h.fresh, List.pairwise_cons.2 ⟨h2, h.fresh⟩, fun hm => h1 (h.sub p hm)⟩

theorem outinv_checkOther (hd : ℚ → Nat) {events : List Event} (p : Point) (s1 : SegPtr)
    (acc : List Point × List Point) (h : OutInv hd events acc.1 acc.2)
    (other : Option SegPtr) :
    OutInv hd events (checkOther hd p s1 acc other).1 (checkOther hd p s1 acc other).2 := by
  unfold checkOther
  split
  · exact h
  · split_ifs with h1 h2
    · obtain ⟨_, hf, hn⟩ := outinv_insert h h2
      have hperm : List.Perm (acc.2 ++ [p] ++ pendingPoints events)
          (p :: (acc.2 ++ pendingPoints events)) := by
        rw [List.append_assoc]
        exact List.perm_middle
      refine ⟨hf, ?_, ?_⟩
      · intro x hx
        rcases List.mem_cons.1 ((List.Perm.mem_iff hperm).1 hx) with rfl | hx
        · exact List.mem_cons_self _ _
        · exact List.mem_cons_of_mem _ (h.sub x hx)
      · rw [List.Perm.nodup_iff hperm, List.nodup_cons]
        exact ⟨hn, h.once⟩
    · exact h
    · exact h

theorem outinv_addEvent (hd : ℚ → Nat) (sweepY : ℚ) {events : List Event}
    {seen output : List Point} (h : OutInv hd events seen output)
    (a b : Option SegPtr) (p : Point) :
    OutInv hd (addEvent hd sweepY events a b p seen).1
      (addEvent hd sweepY events a b p seen).2 output := by
  unfold addEvent
  split
  · rename_i a' b'
    split_ifs with h1
    · exact h
    · split
      · exact h
      · rename_i ip hi
        split_ifs with h2 h3
        · obtain ⟨_, hf, hn⟩ := outinv_insert h h3
          have hpp := pendingPoints_push events ⟨ip, 2, some a', some b'⟩ rfl
          have hperm : List.Perm (output ++ (pendingPoints events ++ [ip]))
              (ip :: (output ++ pendingPoints events)) := by
            rw [← List.append_assoc]
            exact List.perm_append_singleton _ _
          refine ⟨hf, ?_, ?_⟩
          · intro x hx
            simp only [hpp] at hx
            rcases List.mem_cons.1 ((List.Perm.mem_iff hperm).1 hx) with rfl | hx
            · exact List.mem_cons_self _ _
            · exact List.mem_cons_of_mem _ (h.sub x hx)
          · simp only [hpp]
            rw [List.Perm.nodup_iff hperm, List.nodup_cons]
            exact ⟨hn, h.once⟩
        · exact h
        · exact h
  · exact h

theorem pendingPoints_perm {events : List Event} {e : Event} (hm : e ∈ events) :
    List.Perm (pendingPoints events) (pendingPoints (e :: events.erase e)) := by
  unfold pendingPoints
  exact List.Perm.map _ (List.Perm.filter _ (List.perm_cons_erase hm))

theorem outinv_pop {hd : ℚ → Nat} {events : List Event} {seen output : List Point}
    (h : OutInv hd events seen output) {e : Event} (ht : top events = some e) :
    (e.type ≠ 2 → OutInv hd (pop events) seen output) ∧
    (e.type = 2 → OutInv hd (pop events) seen (output ++ [e.p])) := by
  have hmem : e ∈ events := top_mem ht
  have hpop : pop events = events.erase e := by simp [pop, ht]
  have hperm := pendingPoints_perm hmem
  rw [hpop]
  constructor
  · intro hne
    have he : pendingPoints (e :: events.erase e) = pendingPoints (events.erase e) := by
      unfold pendingPoints
      rw [List.filter_cons_of_neg (by simpa using hne)]
    rw [he] at hperm
    have hp2 : List.Perm (output ++ pendingPoints (events.erase e))
        (output ++ pendingPoints events) := List.Perm.append_left _ hperm.symm
    exact ⟨h.fresh, fun x hx => h.sub x ((List.Perm.mem_iff hp2).1 hx),
      (List.Perm.nodup_iff hp2).2 h.once⟩
  · intro heq
    have he : pendingPoints (e :: events.erase e) = e.p :: pendingPoints (events.erase e) := by
      unfold pendingPoints
      rw [List.filter_cons_of_pos (by simpa using heq)]
      rfl
    rw [he] at hperm
    have hp2 : List.Perm (output ++ [e.p] ++ pendingPoints (events.erase e))
        (output ++ pendingPoints events) := by
      rw [List.append_assoc]
      exact List.Perm.append_left _ hperm.symm
    exact ⟨h.fresh, fun x hx => h.sub x ((List.Perm.mem_iff hp2).1 hx),
      (List.Perm.nodup_iff hp2).2 h.once⟩

theorem outinv_stepInsert (hd : ℚ → Nat) (st : State) {st1 : State} {e : Event}
    (h : OutInv hd st.events st.seen st.output) (hs : stepInsert hd st e = some st1) :
    OutInv hd st1.events st1.seen st1.output := by
  unfold stepInsert at hs
  split at hs
  · exact Option.noConfusion hs
  · rename_i s1 _
    simp only [Option.bind_eq_some] at hs
    obtain ⟨a0, _, b0, _, root, _, ab, _, bl, _, hst⟩ := hs
    rw [← Option.some.inj hst]
    simp only [List.foldl_cons, List.foldl_nil]
    have h1 := outinv_checkOther hd e.p s1 (st.seen, st.output) h a0
    have h2 := outinv_checkOther hd e.p s1 _ h1 b0
    have h3 := outinv_addEvent hd (st.sweepY - nudge) h2 ab (some s1) e.p
    exact outinv_addEvent hd (st.sweepY - nudge) h3 (some s1) bl e.p

theorem outinv_stepRemove (hd : ℚ → Nat) (st : State) {st1 : State} {e : Event}
    (h : OutInv hd st.events st.seen st.output) (hs : stepRemove hd st e = some st1) :
    OutInv hd st1.events st1.seen st1.output := by
  unfold stepRemove at hs
  split at hs
  · exact Option.noConfusion hs
  · rename_i s1 _
    simp only [Option.bind_eq_some] at hs
    obtain ⟨a0, _, b0, _, ab, _, bl, _, root, _, hst⟩ := hs
    rw [← Option.some.inj hst]
    simp only [List.foldl_cons, List.foldl_nil]
    have h1 := outinv_checkOther hd e.p s1 (st.seen, st.output) h a0
    have h2 := outinv_checkOther hd e.p s1 _ h1 b0
    exact outinv_addEvent hd st.sweepY h2 ab bl e.p

theorem outinv_stepIntersection (hd : ℚ → Nat) (st : State) {st1 : State} {e : Event}
    (h : OutInv hd st.events st.seen (st.output ++ [e.p]))
    (hs : stepIntersection hd st e = some st1) :
    OutInv hd st1.events st1.seen st1.output := by
  unfold stepIntersection at hs
  split at hs
  · rename_i s1 s2 _ _
    simp only [Option.bind_eq_some] at hs
    obtain ⟨r1, _, r2, _, r3, _, root, _, ab, _, bl, _, hst⟩ := hs
    rw [← Option.some.inj hst]
    have h3 := outinv_addEvent hd (st.sweepY - nudge) h ab
      (some (if segmentLess (st.sweepY - nudge) s1.seg s2.seg false then s2 else s1)) e.p
    exact outinv_addEvent hd (st.sweepY - nudge) h3
      (some (if segmentLess (st.sweepY - nudge) s1.seg s2.seg false then s1 else s2)) bl e.p
  · exact Option.noConfusion hs

/-- One iteration of the loop keeps the invariant of the output. -/
theorem outinv_step (hd : ℚ → Nat) {st st1 : State}
    (h : OutInv hd st.events st.seen st.output) (hs : step hd st = some st1) :
    OutInv hd st1.events st1.seen st1.output := by
  unfold step at hs
  split at hs
  · exact Option.noConfusion hs
  · rename_i e ht
    obtain ⟨hp1, hp2⟩ := outinv_pop h ht
    split_ifs at hs with h0 h1 h2
    · exact outinv_stepInsert hd { st with events := pop st.events, sweepY := e.p.y }
        (hp1 (by rw [h0]; decide)) hs
    · exact outinv_stepRemove hd { st with events := pop st.events, sweepY := e.p.y }
        (hp1 (by rw [h1]; decide)) hs
    · exact outinv_stepIntersection hd { st with events := pop st.events, sweepY := e.p.y }
        (hp2 h2) hs
    · rw [← Option.some.inj hs]
      exact hp1 h2

theorem outinv_loop (hd : ℚ → Nat) (fuel : Nat) :
    ∀ {st st1 : State}, OutInv hd st.events st.seen st.output → loop hd fuel st = some st1 →
      OutInv hd st1.events st1.seen st1.output := by
  induction fuel with
  | zero =>
    intro st st1 h hs
    rw [loop_zero] at hs
    split_ifs at hs
    rw [← Option.some.inj hs]; exact h
  | succ k ih =>
    intro st st1 h hs
    rw [loop_succ] at hs
    split_ifs at hs
    · rw [← Option.some.inj hs]; exact h
    · rw [Option.bind_eq_some] at hs
      obtain ⟨st2, h2, h3⟩ := hs
      exact ih (outinv_step hd h h2) h3

theorem pointEq_comm (a b : Point) : pointEq a b = pointEq b a := by
  unfold pointEq
  rw [abs_sub_comm a.x b.x, abs_sub_comm a.y b.y]

/-- Every output entry went through the check-and-insert against `seen`.
For every input and every hash function `findIntersections` returns an output
whose entries are pairwise different points; and when the hash function gives
equal hash values to any two points that `operator==` accepts, no two entries
at different positions are equal under `operator==`. -/
theorem output_entries_checked (hashDouble : ℚ → Nat) (segments : List Segment) :
    ∃ out, findIntersections hashDouble segments = some out ∧ out.Nodup ∧
      ((∀ a b, pointEq a b = true → PointHash hashDouble a = PointHash hashDouble b) →
        out.Pairwise fun a b => pointEq a b = false) := by
  obtain ⟨st, h1, _, _⟩ := loop_terminates hashDouble segments (maxIterations segments.length)
    (init segments) [] (inv_init segments) (by simp)
  have h0 : OutInv hashDouble (init segments).events (init segments).seen
      (init segments).output := by
    refine ⟨List.Pairwise.nil, ?_, ?_⟩
    · intro x hx
      simp only [init, pendingPoints, List.nil_append, List.mem_map, List.mem_filter] at hx
      obtain ⟨e, ⟨he, ht⟩, _⟩ := hx
      have := (@init_event segments _ he).1
      simp only [decide_eq_true_eq] at ht
      rcases this with h | h <;> rw [h] at ht <;> exact absurd ht (by decide)
    · have : pendingPoints (init segments).events = [] := by
        unfold pendingPoints
        rw [List.filter_eq_nil_iff.2, List.map_nil]
        intro e he
        rcases (init_event he).1 with h | h <;> simp [h]
      rw [this]
      exact List.nodup_nil
  have hinv := outinv_loop hashDouble _ h0 h1
  have hnd : st.output.Nodup := (List.nodup_append.1 hinv.once).1
  refine ⟨st.output, by unfold findIntersections; rw [h1]; rfl, hnd, ?_⟩
  intro hresp
  have hseen : st.seen.Pairwise fun a b => pointEq a b = false := by
    refine List.Pairwise.imp ?_ hinv.fresh
    intro p q hpq
    by_contra hc
    simp only [Bool.not_eq_false] at hc
    rw [pointEq_comm] at hc
    exact hpq ⟨hc, hresp q p hc⟩
  refine List.Nodup.pairwise_of_forall_ne hnd ?_
  intro a ha b hb hab
  exact List.Pairwise.forall (fun x y hxy => by rw [pointEq_comm]; exact hxy) hseen
    (hinv.sub a (List.mem_append_left _ ha)) (hinv.sub b (List.mem_append_left _ hb)) hab

/-! ## The queue pops a greatest event -/

/-- An event that is `<` another pending event is not the top of the queue
and stays in the queue when the top is popped. -/
theorem pop_keeps_lower {events : List Event} {a b : Event} (ha : a ∈ events)
    (hb : b ∈ events) (hlt : a.lt b = true) : top events ≠ some a ∧ a ∈ pop events := by
  have hne : top events ≠ some a := by
    intro ht
    have := top_max ht b hb
    rw [hlt] at this
    exact Bool.noConfusion this
  refine ⟨hne, ?_⟩
  unfold pop
  cases ht : top events with
  | none =>
    cases events with
    | nil => simp at ha
    | cons e rest => simp [top] at ht
  | some t =>
    simp only
    have : a ≠ t := fun h => hne (h ▸ ht)
    exact (List.mem_erase_of_ne this).2 ha

/-- C8. `getTypePriority` ranks intersection 3, insert 2, remove 1. Of two
pending events `a` and `b`, when `b` has the strictly greater `y`, or the same
`y` and the higher-ranked kind (intersection over insert, insert over remove,
intersection over remove), then `a < b` under `Event::operator<`, `a` is not the
event `top()` returns, and `a` is still pending after `pop()`: `b` leaves the
queue before `a`. -/
theorem event_order_height_then_kind (events : List Event) (a b : Event)
    (ha : a ∈ events) (hb : b ∈ events)
    (h : a.p.y < b.p.y ∨ (a.p.y = b.p.y ∧
      ((a.type = 0 ∧ b.type = 2) ∨ (a.type = 1 ∧ b.type = 0) ∨ (a.type = 1 ∧ b.type = 2)))) :
    (getTypePriority 2 = 3 ∧ getTypePriority 0 = 2 ∧ getTypePriority 1 = 1) ∧
    a.lt b = true ∧ top events ≠ some a ∧ a ∈ pop events := by
  have hlt : a.lt b = true := by
    rw [eventLt_iff]
    rcases h with h | ⟨hy, h | h | h⟩
    · exact Or.inl h
    · refine Or.inr (Or.inl ⟨hy, ?_, ?_⟩) <;> simp [h.1, h.2, getTypePriority]
    · refine Or.inr (Or.inl ⟨hy, ?_, ?_⟩) <;> simp [h.1, h.2, getTypePriority]
    · refine Or.inr (Or.inl ⟨hy, ?_, ?_⟩) <;> simp [h.1, h.2, getTypePriority]
  exact ⟨⟨rfl, rfl, rfl⟩, hlt, pop_keeps_lower ha hb hlt⟩

/-- C8 at the queue holding a remove event at `(0,1)` and an intersection
event at `(3,1)`: the remove event is not popped first. -/
theorem event_order_height_then_kind_witness :
    (getTypePriority 2 = 3 ∧ getTypePriority 0 = 2 ∧ getTypePriority 1 = 1) ∧
    eventRemove.lt eventCross = true ∧
    top [eventRemove, eventCross] ≠ some eventRemove ∧
    eventRemove ∈ pop [eventRemove, eventCross] :=
  event_order_height_then_kind [eventRemove, eventCross] eventRemove eventCross
    (by simp) (by simp) (Or.inr ⟨rfl, Or.inr (Or.inr ⟨rfl, rfl⟩)⟩)

/-- C9 as stated fails: of the two insert events at `(1,0)` and `(0,0)` (same
`y`, same kind) the one with the greater `x` is `<` the other under
`Event::operator<`, and `top()` returns the one with the smaller `x`, in
whichever order they were pushed. -/
theorem event_order_greater_x_not_first :
    eventRight.p.y = eventLeft.p.y ∧ eventRight.type = eventLeft.type ∧
    eventLeft.p.x < eventRight.p.x ∧
    eventRight.lt eventLeft = true ∧ eventLeft.lt eventRight = false ∧
    top [eventRight, eventLeft] = some eventLeft ∧
    top [eventLeft, eventRight] = some eventLeft := by
  refine ⟨rfl, rfl, by decide!, by decide!, by decide!, by decide!, by decide!⟩

/-- C9 amended. Of two pending events `a` and `b` with equal `y` and equal
kind, when `a` has the greater `x` then `a < b` under `Event::operator<`, `a` is
not the event `top()` returns, and `a` is still pending after `pop()`: the event
with the smaller `x` leaves the queue first (ascending `x`). -/
theorem event_order_smaller_x_first (events : List Event) (a b : Event)
    (ha : a ∈ events) (hb : b ∈ events)
    (hy : a.p.y = b.p.y) (ht : a.type = b.type) (hx : b.p.x < a.p.x) :
    a.lt b = true ∧ top events ≠ some a ∧ a ∈ pop events := by
  have hlt : a.lt b = true := (eventLt_iff a b).2 (Or.inr (Or.inr ⟨hy, ht, hx⟩))
  exact ⟨hlt, pop_keeps_lower ha hb hlt⟩

/-- C9 amended, at the queue holding the insert events at `(1,0)` and `(0,0)`. -/
theorem event_order_smaller_x_first_witness :
    eventRight.lt eventLeft = true ∧
    top [eventRight, eventLeft] ≠ some eventRight ∧
    eventRight ∈ pop [eventRight, eventLeft] :=
  event_order_smaller_x_first [eventRight, eventLeft] eventRight eventLeft
    (by simp) (by simp) rfl rfl (by decide!)

/-! ## The constructor of `Segment` -/

/-- C10 as stated fails: for the endpoints `(0,0)` and `(1,0)`, of equal `y`,
the stored `p` is `(0,0)`, the endpoint with the smaller `x`, in whichever
order the two are passed. -/
theorem ctor_equal_height_keeps_smaller_x :
    (Segment.ctor ⟨0, 0⟩ ⟨1, 0⟩ 0).p = ⟨0, 0⟩ ∧ (Segment.ctor ⟨0, 0⟩ ⟨1, 0⟩ 0).q = ⟨1, 0⟩ ∧
    (Segment.ctor ⟨1, 0⟩ ⟨0, 0⟩ 0).p = ⟨0, 0⟩ ∧ (Segment.ctor ⟨1, 0⟩ ⟨0, 0⟩ 0).q = ⟨1, 0⟩ := by
  refine ⟨by decide!, by decide!, by decide!, by decide!⟩

/-- C10 amended. The constructor stores the two endpoints it is given, in one
order or the other, and the id; the stored `p` is the endpoint with the
greater `y` (`q.y ≤ p.y`), and when the two `y` values are equal the stored `p`
is the endpoint with the smaller `x` (`p.x ≤ q.x`). -/
theorem ctor_upper_endpoint (p_ q_ : Point) (id_ : Int) :
    ((Segment.ctor p_ q_ id_).p = p_ ∧ (Segment.ctor p_ q_ id_).q = q_ ∨
      (Segment.ctor p_ q_ id_).p = q_ ∧ (Segment.ctor p_ q_ id_).q = p_) ∧
    (Segment.ctor p_ q_ id_).id = id_ ∧
    (Segment.ctor p_ q_ id_).q.y ≤ (Segment.ctor p_ q_ id_).p.y ∧
    ((Segment.ctor p_ q_ id_).p.y = (Segment.ctor p_ q_ id_).q.y →
      (Segment.ctor p_ q_ id_).p.x ≤ (Segment.ctor p_ q_ id_).q.x) := by
  unfold Segment.ctor
  split
  · rename_i h
    refine ⟨Or.inr ⟨rfl, rfl⟩, rfl, ?_, ?_⟩
    · rcases h with h | h
      · exact le_of_lt h
      · exact le_of_eq h.1
    · intro he
      rcases h with h | h
      · exact absurd he.symm (ne_of_lt h)
      · exact le_of_lt h.2
  · rename_i h
    push_neg at h
    refine ⟨Or.inl ⟨rfl, rfl⟩, rfl, ?_, ?_⟩
    · exact h.1
    · intro he
      exact h.2 he

/-! ## Runs of `findIntersections` on given inputs -/

/-- C5. On the segments `(0,0)-(2,2)` (id 0) and `(0,2)-(2,0)` (id 1),
`findIntersections` returns, for every hash function, the output vector
holding the one point `(1,1)`. -/
theorem cross_output (hashDouble : ℚ → Nat) :
    findIntersections hashDouble crossInput = some [⟨1, 1⟩] :=
  (findIntersections_free hashDouble crossInput (by decide!)).trans (by decide!)

/-- C6. On the triangle `(0,0)-(4,0)`, `(0,0)-(2,4)`, `(4,0)-(2,4)` (ids 0, 1,
2), `findIntersections` returns, for every hash function, the output vector
`(2,4), (4,0), (0,0)`: the three vertices and no other point. -/
theorem triangle_output (hashDouble : ℚ → Nat) :
    findIntersections hashDouble triangleInput = some [⟨2, 4⟩, ⟨4, 0⟩, ⟨0, 0⟩] :=
  (findIntersections_free hashDouble triangleInput (by decide!)).trans (by decide!)

/-- The triangle with its second and third segment in exchanged positions of
the vector and their ids kept: the two insert events at `(2,4)`, which compare
equal, are pushed and so popped in the other order. The output is that of
`triangle_output`. -/
theorem triangle_output_other_tie (hashDouble : ℚ → Nat) :
    findIntersections hashDouble triangleInputSwapped = some [⟨2, 4⟩, ⟨4, 0⟩, ⟨0, 0⟩] :=
  (findIntersections_free hashDouble triangleInputSwapped (by decide!)).trans (by decide!)

/-- C1 fails on the code. The horizontal segment `(0,0)-(10,0)` and the
vertical segment `(5,1)-(5,-1)` cross at the single point `(5,0)`, the midpoint
of both (`getIntersection` finds it, `isPointOnSegment` accepts it for both).
On the input holding them and the vertical segment `(2,1)-(2,-1)`,
`findIntersections` returns, for every hash function, the output `(2,0)`
alone: no point equal to `(5,0)`. -/
theorem crossing_right_of_first_missed :
    getIntersection (Segment.ctor ⟨0, 0⟩ ⟨10, 0⟩ 0) (Segment.ctor ⟨5, 1⟩ ⟨5, -1⟩ 2) = some ⟨5, 0⟩ ∧
    isPointOnSegment ⟨5, 0⟩ (Segment.ctor ⟨0, 0⟩ ⟨10, 0⟩ 0) = true ∧
    isPointOnSegment ⟨5, 0⟩ (Segment.ctor ⟨5, 1⟩ ⟨5, -1⟩ 2) = true ∧
    pointEq ⟨2, 0⟩ ⟨5, 0⟩ = false ∧
    ∀ hashDouble : ℚ → Nat, findIntersections hashDouble combInput = some [⟨2, 0⟩] :=
  ⟨by decide!, by decide!, by decide!, by decide!, fun hashDouble =>
    (findIntersections_free hashDouble combInput (by decide!)).trans (by decide!)⟩

/-- C2 fails on the code. The lower endpoint `(5,0)` of the segment
`(5,3)-(5,0)` lies on the horizontal segment `(0,0)-(10,0)`. On the input
holding them and the vertical segment `(2,1)-(2,-1)`, `findIntersections`
returns, for every hash function, the output `(2,0)` alone: no point equal to
`(5,0)`. -/
theorem endpoint_on_horizontal_missed :
    isPointOnSegment ⟨5, 0⟩ (Segment.ctor ⟨0, 0⟩ ⟨10, 0⟩ 0) = true ∧
    (Segment.ctor ⟨5, 3⟩ ⟨5, 0⟩ 2).q = ⟨5, 0⟩ ∧
    pointEq ⟨2, 0⟩ ⟨5, 0⟩ = false ∧
    ∀ hashDouble : ℚ → Nat, findIntersections hashDouble teeInput = some [⟨2, 0⟩] :=
  ⟨by decide!, by decide!, by decide!, fun hashDouble =>
    (findIntersections_free hashDouble teeInput (by decide!)).trans (by decide!)⟩

/-- C3 fails on the code. `fanInputPermuted` holds the segments of `fanInput`
in another order, with ids given by position. For every hash function
`findIntersections` returns `(4,4)` on the first and `(4,4), (17/5,8/5)` on
the second: the two sets of output points differ. -/
theorem permuted_input_changes_output :
    List.Perm (fanInputPermuted.map fun s => (s.p, s.q)) (fanInput.map fun s => (s.p, s.q)) ∧
    fanInput.map (fun s => s.id) = [0, 1, 2] ∧
    fanInputPermuted.map (fun s => s.id) = [0, 1, 2] ∧
    (∀ hashDouble : ℚ → Nat, findIntersections hashDouble fanInput = some [⟨4, 4⟩]) ∧
    (∀ hashDouble : ℚ → Nat,
      findIntersections hashDouble fanInputPermuted = some [⟨4, 4⟩, ⟨17 / 5, 8 / 5⟩]) :=
  ⟨by decide!, by decide!, by decide!,
    fun hashDouble => (findIntersections_free hashDouble fanInput (by decide!)).trans (by decide!),
    fun hashDouble =>
      (findIntersections_free hashDouble fanInputPermuted (by decide!)).trans (by decide!)⟩

/-- C4 fails on the code. On the vertical segment `(0,10)-(0,-10)` and two
segments whose upper endpoints `(0,5)` and `(0,5 - 5e-10)` lie on it, under a
hash function that gives the two endpoints different hash values,
`findIntersections` returns both endpoints, and `operator==` holds them equal. -/
theorem near_points_both_emitted :
    findIntersections hashExact nearInput = some [⟨0, 5⟩, ⟨0, 5 - 5 / 10000000000⟩] ∧
    pointEq ⟨0, 5⟩ ⟨0, 5 - 5 / 10000000000⟩ = true ∧
    PointHash hashExact ⟨0, 5⟩ ≠ PointHash hashExact ⟨0, 5 - 5 / 10000000000⟩ :=
  ⟨by decide!, by decide!, by decide!⟩

/-! ## The order `segmentLess` -/

theorem eps_pos : 0 < eps := by norm_num [eps]

/-- The value of `segmentLess` without `noid`, as a proposition. -/
theorem segmentLess_false_iff (sweepY : ℚ) (a b : Segment) :
    segmentLess sweepY a b false = true ↔
      a.getXatY sweepY < b.getXatY sweepY ∨
        (|a.getXatY sweepY - b.getXatY sweepY| < eps ∧ b.id < a.id) := by
  simp [segmentLess]

/-- When the two x-values are equal or at least `1e-9` apart, `segmentLess` without
`noid` is the order by x, then by descending id. -/
theorem segmentLess_of_apart {sweepY : ℚ} {a b : Segment}
    (h : a.getXatY sweepY = b.getXatY sweepY ∨ eps ≤ |a.getXatY sweepY - b.getXatY sweepY|) :
    segmentLess sweepY a b false = true ↔
      a.getXatY sweepY < b.getXatY sweepY ∨
        (a.getXatY sweepY = b.getXatY sweepY ∧ b.id < a.id) := by
  rw [segmentLess_false_iff]
  constructor
  · rintro (h1 | ⟨h1, h2⟩)
    · exact Or.inl h1
    · rcases h with h | h
      · exact Or.inr ⟨h, h2⟩
      · exact absurd h1 (not_lt.2 h)
  · rintro (h1 | ⟨h1, h2⟩)
    · exact Or.inl h1
    · refine Or.inr ⟨?_, h2⟩
      rw [h1, sub_self, abs_zero]
      exact eps_pos

/-- C11 as stated fails. At the sweep coordinate `1/2` the segments `segAtZero`
(x = 0, id 0) and `segNearZero` (x = 5e-10, id 1) have different ids and
`segmentLess` holds in both directions between them; and for `tieHigh`
(x = 12e-10, id 3), `tieMid` (x = 6e-10, id 2), `tieLow` (x = 0, id 1), of
pairwise different ids, `segmentLess(tieHigh, tieMid)` and
`segmentLess(tieMid, tieLow)` hold while `segmentLess(tieHigh, tieLow)` does
not: within the tolerance `1e-9` the id decides against the x-value. -/
theorem segmentLess_not_strict_order :
    segAtZero.id ≠ segNearZero.id ∧
    segmentLess (1 / 2) segAtZero segNearZero false = true ∧
    segmentLess (1 / 2) segNearZero segAtZero false = true ∧
    tieHigh.id ≠ tieMid.id ∧ tieMid.id ≠ tieLow.id ∧ tieHigh.id ≠ tieLow.id ∧
    segmentLess (1 / 2) tieHigh tieMid false = true ∧
    segmentLess (1 / 2) tieMid tieLow false = true ∧
    segmentLess (1 / 2) tieHigh tieLow false = false := by
  refine ⟨by decide!, by decide!, by decide!, by decide!, by decide!, by decide!, by decide!,
    by decide!, by decide!⟩

/-- C11 amended. At a fixed sweep coordinate `segmentLess` without `noid` is
irreflexive, and for segments `a`, `b`, `c` whose x-values at the sweep
coordinate are pairwise equal or at least `1e-9` apart: when `a` and `b` have
different ids exactly one of `segmentLess(a, b)` and `segmentLess(b, a)` holds,
and `segmentLess(a, b)` with `segmentLess(b, c)` gives `segmentLess(a, c)`. -/
theorem segmentLess_strict_order_when_apart (sweepY : ℚ) (a b c : Segment)
    (hab : a.getXatY sweepY = b.getXatY sweepY ∨ eps ≤ |a.getXatY sweepY - b.getXatY sweepY|)
    (hbc : b.getXatY sweepY = c.getXatY sweepY ∨ eps ≤ |b.getXatY sweepY - c.getXatY sweepY|)
    (hac : a.getXatY sweepY = c.getXatY sweepY ∨ eps ≤ |a.getXatY sweepY - c.getXatY sweepY|)
    (hid : a.id ≠ b.id) :
    segmentLess sweepY a a false = false ∧
    (segmentLess sweepY a b false = true ↔ segmentLess sweepY b a false = false) ∧
    (segmentLess sweepY a b false = true → segmentLess sweepY b c false = true →
      segmentLess sweepY a c false = true) := by
  have hba : b.getXatY sweepY = a.getXatY sweepY ∨
      eps ≤ |b.getXatY sweepY - a.getXatY sweepY| := by
    rcases hab with h | h
    · exact Or.inl h.symm
    · exact Or.inr (by rw [abs_sub_comm]; exact h)
  refine ⟨?_, ?_, ?_⟩
  · rw [← Bool.not_eq_true, segmentLess_false_iff]
    simp
  · rw [← Bool.not_eq_true, segmentLess_of_apart hab, segmentLess_of_apart hba]
    constructor
    · rintro (h | ⟨h1, h2⟩)
      · rintro (h' | ⟨h1', _⟩)
        · exact lt_asymm h h'
        · exact absurd h1'.symm (ne_of_lt h)
      · rintro (h' | ⟨_, h2'⟩)
        · exact absurd h1.symm (ne_of_lt h')
        · exact lt_asymm h2 h2'
    · intro h
      push_neg at h
      rcases lt_trichotomy (a.getXatY sweepY) (b.getXatY sweepY) with h1 | h1 | h1
      · exact Or.inl h1
      · refine Or.inr ⟨h1, ?_⟩
        have := h.2 h1.symm
        exact lt_of_le_of_ne this (fun e => hid e.symm)
      · exact absurd h1 (not_lt.2 h.1)
  · rw [segmentLess_of_apart hab, segmentLess_of_apart hbc, segmentLess_of_apart hac]
    rintro (h | ⟨h1, h2⟩) (h' | ⟨h1', h2'⟩)
    · exact Or.inl (lt_trans h h')
    · exact Or.inl (h1' ▸ h)
    · exact Or.inl (h1 ▸ h')
    · exact Or.inr ⟨h1.trans h1', lt_trans h2' h2⟩

/-- C11 amended, at `tieHigh` (x = 12e-10), `tieLow` and `segAtZero` (both x = 0,
ids 1 and 0) and the sweep coordinate `1/2`. -/
theorem segmentLess_strict_order_when_apart_witness :
    segmentLess (1 / 2) tieHigh tieHigh false = false ∧
    (segmentLess (1 / 2) tieHigh tieLow false = true ↔
      segmentLess (1 / 2) tieLow tieHigh false = false) ∧
    (segmentLess (1 / 2) tieHigh tieLow false = true →
      segmentLess (1 / 2) tieLow segAtZero false = true →
      segmentLess (1 / 2) tieHigh segAtZero false = true) :=
  segmentLess_strict_order_when_apart (1 / 2) tieHigh tieLow segAtZero
    (Or.inr (by decide!)) (Or.inl (by decide!)) (Or.inr (by decide!)) (by decide!)

/-! ## The intersection of two lines -/

/-- C12. With `A`, `B`, `C` the line coefficients and `det = A1 * B2 - A2 * B1`
as `getIntersection` computes them: when `|det| < 1e-9` the function returns
false; otherwise the two line equations `A1 * x + B1 * y = C1` and
`A2 * x + B2 * y = C2` have exactly one solution `pt`, and the function returns
true with `ip = pt` when `pt` lies in both bounding boxes widened by `1e-9`,
and false when it does not. -/
theorem getIntersection_solves_both_lines (a b : Segment) :
    (|det a b| < eps → getIntersection a b = none) ∧
    (eps ≤ |det a b| →
      ∃ pt : Point, onLine a pt ∧ onLine b pt ∧
        (∀ pt' : Point, onLine a pt' → onLine b pt' → pt' = pt) ∧
        getIntersection a b = if inBox a pt ∧ inBox b pt then some pt else none) := by
  constructor
  · intro h
    simp only [det, Segment.lineA, Segment.lineB] at h
    simp only [getIntersection, h, if_true]
  · intro h
    have hd : det a b ≠ 0 := by
      intro h0
      rw [h0, abs_zero] at h
      exact absurd h (not_le.2 eps_pos)
    refine ⟨⟨(b.lineB * a.lineC - a.lineB * b.lineC) / det a b,
      (a.lineA * b.lineC - b.lineA * a.lineC) / det a b⟩, ?_, ?_, ?_, ?_⟩
    · simp only [onLine]
      field_simp
      simp only [det]
      ring
    · simp only [onLine]
      field_simp
      simp only [det]
      ring
    · intro pt h1 h2
      simp only [onLine] at h1 h2
      have hx : pt.x = (b.lineB * a.lineC - a.lineB * b.lineC) / det a b := by
        rw [eq_div_iff hd, ← h1, ← h2]
        simp only [det]
        ring
      have hy : pt.y = (a.lineA * b.lineC - b.lineA * a.lineC) / det a b := by
        rw [eq_div_iff hd, ← h1, ← h2]
        simp only [det]
        ring
      cases pt
      simp only at hx hy
      rw [hx, hy]
    · have h' := not_lt.2 h
      simp only [det, Segment.lineA, Segment.lineB] at h'
      simp only [getIntersection, h', if_false, inBox, det, Segment.lineA, Segment.lineB,
        Segment.lineC, and_assoc]

/-- C12 at the parallel segments `(0,0)-(2,0)`, `(0,1)-(2,1)` (false) and at the
crossing segments `(0,0)-(2,2)`, `(0,2)-(2,0)` of `crossInput`. -/
theorem getIntersection_solves_both_lines_witness :
    getIntersection (Segment.ctor ⟨0, 0⟩ ⟨2, 0⟩ 0) (Segment.ctor ⟨0, 1⟩ ⟨2, 1⟩ 1) = none ∧
    ∃ pt : Point, onLine (Segment.ctor ⟨0, 0⟩ ⟨2, 2⟩ 0) pt ∧
      onLine (Segment.ctor ⟨0, 2⟩ ⟨2, 0⟩ 1) pt ∧
      (∀ pt' : Point, onLine (Segment.ctor ⟨0, 0⟩ ⟨2, 2⟩ 0) pt' →
        onLine (Segment.ctor ⟨0, 2⟩ ⟨2, 0⟩ 1) pt' → pt' = pt) ∧
      getIntersection (Segment.ctor ⟨0, 0⟩ ⟨2, 2⟩ 0) (Segment.ctor ⟨0, 2⟩ ⟨2, 0⟩ 1) =
        if inBox (Segment.ctor ⟨0, 0⟩ ⟨2, 2⟩ 0) pt ∧ inBox (Segment.ctor ⟨0, 2⟩ ⟨2, 0⟩ 1) pt
        then some pt else none :=
  ⟨(getIntersection_solves_both_lines _ _).1 (by decide!),
    (getIntersection_solves_both_lines (Segment.ctor ⟨0, 0⟩ ⟨2, 2⟩ 0)
      (Segment.ctor ⟨0, 2⟩ ⟨2, 0⟩ 1)).2 (by decide!)⟩

/-! ## Points of a segment -/

/-- The value of `isPointOnSegment`, as a proposition. -/
theorem isPointOnSegment_iff (pt : Point) (s : Segment) :
    isPointOnSegment pt s = true ↔
      |(pt.x - s.p.x) * (s.q.y - s.p.y) - (pt.y - s.p.y) * (s.q.x - s.p.x)| ≤ eps ∧
      -eps ≤ (pt.x - s.p.x) * (s.q.x - s.p.x) + (pt.y - s.p.y) * (s.q.y - s.p.y) ∧
      (pt.x - s.p.x) * (s.q.x - s.p.x) + (pt.y - s.p.y) * (s.q.y - s.p.y) ≤
        (s.q.x - s.p.x) * (s.q.x - s.p.x) + (s.q.y - s.p.y) * (s.q.y - s.p.y) + eps := by
  simp only [isPointOnSegment]
  split_ifs with h1 h2
  · simp only [Bool.false_eq_true, false_iff, not_and]
    intro h
    exact absurd h (not_le.2 h1)
  · simp only [Bool.false_eq_true, false_iff, not_and]
    intro _ h
    exact absurd h (not_le.2 h2)
  · simp only [decide_eq_true_eq]
    exact ⟨fun h => ⟨not_lt.1 h1, not_lt.1 h2, h⟩, fun h => h.2.2⟩

/-- C19. For a segment whose endpoint heights differ by at least `1e-9` and a
`y` with `q.y ≤ y ≤ p.y`, the point `(getXatY(y), y)` satisfies
`isPointOnSegment` for the segment; `getXatY(p.y) = p.x` and
`getXatY(q.y) = q.x`; and both endpoints satisfy `isPointOnSegment`. -/
theorem getXatY_on_segment (s : Segment) (y : ℚ) (hd : eps ≤ |s.p.y - s.q.y|)
    (hlo : s.q.y ≤ y) (hhi : y ≤ s.p.y) :
    isPointOnSegment ⟨s.getXatY y, y⟩ s = true ∧
    s.getXatY s.p.y = s.p.x ∧ s.getXatY s.q.y = s.q.x ∧
    isPointOnSegment s.p s = true ∧ isPointOnSegment s.q s = true := by
  have he := eps_pos
  have hpq : s.q.y ≤ s.p.y := le_trans hlo hhi
  have habs : |s.p.y - s.q.y| = s.p.y - s.q.y := abs_of_nonneg (sub_nonneg.2 hpq)
  rw [habs] at hd
  have hpos : 0 < s.p.y - s.q.y := lt_of_lt_of_le he hd
  have hne : s.p.y - s.q.y ≠ 0 := ne_of_gt hpos
  have hx : ∀ z, s.getXatY z = s.p.x + (s.q.x - s.p.x) * ((s.p.y - z) / (s.p.y - s.q.y)) := by
    intro z
    simp only [Segment.getXatY, habs, not_lt.2 hd, if_false]
  have hsq : 0 ≤ (s.q.x - s.p.x) * (s.q.x - s.p.x) + (s.q.y - s.p.y) * (s.q.y - s.p.y) :=
    add_nonneg (mul_self_nonneg _) (mul_self_nonneg _)
  refine ⟨?_, ?_, ?_, ?_, ?_⟩
  · rw [isPointOnSegment_iff]
    simp only [hx]
    have ht0 : 0 ≤ (s.p.y - y) / (s.p.y - s.q.y) := div_nonneg (sub_nonneg.2 hhi) hpos.le
    have ht1 : (s.p.y - y) / (s.p.y - s.q.y) ≤ 1 := by
      rw [div_le_one hpos]
      linarith
    have hy : y - s.p.y = ((s.p.y - y) / (s.p.y - s.q.y)) * (s.q.y - s.p.y) := by
      field_simp
      ring
    generalize (s.p.y - y) / (s.p.y - s.q.y) = t at ht0 ht1 hy
    have hc : (s.p.x + (s.q.x - s.p.x) * t - s.p.x) * (s.q.y - s.p.y)
        - (y - s.p.y) * (s.q.x - s.p.x) = 0 := by
      rw [hy]; ring
    have hdot : (s.p.x + (s.q.x - s.p.x) * t - s.p.x) * (s.q.x - s.p.x)
        + (y - s.p.y) * (s.q.y - s.p.y)
        = t * ((s.q.x - s.p.x) * (s.q.x - s.p.x) + (s.q.y - s.p.y) * (s.q.y - s.p.y)) := by
      rw [hy]; ring
    rw [hc, hdot, abs_zero]
    refine ⟨he.le, ?_, ?_⟩
    · have := mul_nonneg ht0 hsq
      linarith
    · have := mul_le_of_le_one_left hsq ht1
      linarith
  · rw [hx, sub_self, zero_div, mul_zero, add_zero]
  · rw [hx, div_self hne, mul_one]
    ring
  · rw [isPointOnSegment_iff]
    simp only [sub_self, zero_mul, abs_zero, add_zero]
    exact ⟨he.le, by linarith, by linarith⟩
  · rw [isPointOnSegment_iff]
    have hc : (s.q.x - s.p.x) * (s.q.y - s.p.y) - (s.q.y - s.p.y) * (s.q.x - s.p.x) = 0 := by
      ring
    rw [hc, abs_zero]
    exact ⟨he.le, by linarith, by linarith⟩

/-- C19 at the segment `(0,5)-(4,1)` and `y = 2`. -/
theorem getXatY_on_segment_witness :
    isPointOnSegment ⟨(Segment.ctor ⟨0, 5⟩ ⟨4, 1⟩ 0).getXatY 2, 2⟩
      (Segment.ctor ⟨0, 5⟩ ⟨4, 1⟩ 0) = true ∧
    (Segment.ctor ⟨0, 5⟩ ⟨4, 1⟩ 0).getXatY 5 = 0 ∧
    (Segment.ctor ⟨0, 5⟩ ⟨4, 1⟩ 0).getXatY 1 = 4 ∧
    isPointOnSegment ⟨0, 5⟩ (Segment.ctor ⟨0, 5⟩ ⟨4, 1⟩ 0) = true ∧
    isPointOnSegment ⟨4, 1⟩ (Segment.ctor ⟨0, 5⟩ ⟨4, 1⟩ 0) = true :=
  getXatY_on_segment (Segment.ctor ⟨0, 5⟩ ⟨4, 1⟩ 0) 2 (by decide!) (by decide!) (by decide!)

/-! ## Sound trees: rotations, `insert` and `erase` -/

theorem sound_ne_nil {t : AVLTree} (h : Sound t) : t ≠ nil := by
  intro e; rw [e] at h; exact h

theorem sound_isNil {t : AVLTree} (h : Sound t) : t.isNil = false := by
  cases t with
  | nil => exact h.elim
  | node _ _ _ _ _ => rfl

theorem sound_height_pos {t : AVLTree} (h : Sound t) : 1 ≤ t.height := by
  induction t with
  | nil => exact h.elim
  | node sg m l r hh ihl ihr =>
    rcases h with ⟨_, _, h1⟩ | ⟨hl, hr, hh'⟩
    · simp [height, h1]
    · have h1 := ihl hl
      show 1 ≤ hh
      omega

theorem sound_internal {sg m : Option SegPtr} {l r : AVLTree} {h : Int}
    (hs : Sound (node sg m l r h)) (hn : l ≠ nil ∨ r ≠ nil) :
    Sound l ∧ Sound r ∧ h = max l.height r.height + 1 := by
  rcases hs with ⟨hl, hr, _⟩ | h
  · rcases hn with hn | hn
    · exact absurd hl hn
    · exact absurd hr hn
  · exact h

theorem sound_of_height {t : AVLTree} (hs : Sound t) (hh : 2 ≤ t.height) :
    ∃ sg m l r h, t = node sg m l r h ∧ Sound l ∧ Sound r ∧ h = max l.height r.height + 1 := by
  cases t with
  | nil => exact hs.elim
  | node sg m l r h =>
    rcases hs with ⟨_, _, h1⟩ | ⟨hl, hr, h1⟩
    · simp only [height, h1] at hh; omega
    · exact ⟨sg, m, l, r, h, rfl, hl, hr, h1⟩

theorem sound_leaf (sg m : Option SegPtr) : Sound (node sg m nil nil 1) :=
  Or.inl ⟨rfl, rfl, rfl⟩

theorem sound_update {l r : AVLTree} (hl : Sound l) (hr : Sound r)
    (sg m : Option SegPtr) (h : Int) : Sound (update (node sg m l r h)) :=
  Or.inr ⟨hl, hr, rfl⟩

theorem leaves_update (t : AVLTree) : leaves (update t) = leaves t := by
  cases t <;> rfl

theorem leaves_internal {l : AVLTree} (hl : Sound l) (sg m : Option SegPtr) (r : AVLTree)
    (h : Int) : leaves (node sg m l r h) = leaves l ++ leaves r := by
  simp only [leaves, sound_isNil hl, Bool.false_and, Bool.false_eq_true, if_false]

theorem leaves_update_node {l : AVLTree} (hl : Sound l) (sg m : Option SegPtr) (r : AVLTree)
    (h : Int) : leaves (update (node sg m l r h)) = leaves l ++ leaves r := by
  rw [leaves_update, leaves_internal hl]

theorem balanced_update {l r : AVLTree} (hl : Balanced l) (hr : Balanced r)
    (hb : |l.height - r.height| ≤ 1) (sg m : Option SegPtr) (h : Int) :
    Balanced (update (node sg m l r h)) :=
  ⟨hb, hl, hr⟩

theorem Balanced.sub {sg m : Option SegPtr} {l r : AVLTree} {h : Int}
    (hb : Balanced (node sg m l r h)) : |l.height - r.height| ≤ 1 ∧ Balanced l ∧ Balanced r :=
  hb

theorem balanced_leaf (sg m : Option SegPtr) (h : Int) : Balanced (node sg m nil nil h) :=
  ⟨by simp [height], trivial, trivial⟩

theorem height_node (sg m : Option SegPtr) (l r : AVLTree) (h : Int) :
    (node sg m l r h).height = h := rfl

theorem balanceFactor_node (sg m : Option SegPtr) (l r : AVLTree) (h : Int) :
    balanceFactor (node sg m l r h) = l.height - r.height := rfl

/-- The rebalancing tail of `insert` and `erase` on `update(node)`, for a node
whose two subtrees are sound: it returns a sound tree with the leaves of the
two subtrees in order, keeps every closed property, and when the subtrees are
balanced and their heights differ by at most 2 the result is balanced and its
height is that of the updated node or, after a rotation, possibly one less. -/
theorem rebalance_spec {P : AVLTree → Prop} (hP : Closed P) {l r : AVLTree}
    (hl : Sound l) (hr : Sound r) (pl : P l) (pr : P r) (sg m : Option SegPtr) (h : Int) :
    ∃ t, rebalance (update (node sg m l r h)) = some t ∧ Sound t ∧ P t ∧
      leaves t = leaves l ++ leaves r ∧
      (Balanced l → Balanced r → |l.height - r.height| ≤ 2 →
        Balanced t ∧
        (t.height = max l.height r.height + 1 ∨
          (1 < |l.height - r.height| ∧ t.height = max l.height r.height))) := by
  obtain ⟨m', hu⟩ := update_node sg m l r h
  have hsu : Sound (update (node sg m l r h)) := sound_update hl hr sg m h
  have hpu : P (update (node sg m l r h)) := hP.upd sg m l r h hl hr pl pr
  have hlu : leaves (update (node sg m l r h)) = leaves l ++ leaves r :=
    leaves_update_node hl sg m r h
  rw [hu] at hsu hpu hlu ⊢
  simp only [rebalance, balanceFactor_node]
  have hlp := sound_height_pos hl
  have hrp := sound_height_pos hr
  split_ifs with h1 h2 h3 h4
  · -- left heavy, single rotation
    obtain ⟨a, b, c, d, e, rfl, hc, hd, he⟩ := sound_of_height hl (by omega)
    obtain ⟨pc, pd⟩ := hP.sub a b c d e hc hd pl
    rw [balanceFactor_node] at h2
    rw [height_node] at h1
    refine ⟨_, rfl, sound_update hc (sound_update hd hr _ _ _) _ _ _,
      hP.upd _ _ _ _ _ hc (sound_update hd hr _ _ _) pc (hP.upd _ _ _ _ _ hd hr pd pr), ?_, ?_⟩
    · rw [leaves_update_node hc, leaves_update_node hd, leaves_internal hc, List.append_assoc]
    · intro bl br hb
      obtain ⟨b1, bc, bd⟩ := bl.sub
      rw [abs_le] at hb b1
      rw [height_node] at hb
      refine ⟨balanced_update bc (balanced_update bd br ?_ _ _ _) ?_ _ _ _, ?_⟩
      · rw [abs_le]; omega
      · rw [update_height, abs_le]; omega
      · rw [update_height, update_height, height_node, lt_abs]
        omega
  · -- left heavy, double rotation
    obtain ⟨a, b, c, d, e, rfl, hc, hd, he⟩ := sound_of_height hl (by omega)
    obtain ⟨pc, pd⟩ := hP.sub a b c d e hc hd pl
    rw [balanceFactor_node] at h2
    rw [height_node] at h1
    have hcp := sound_height_pos hc
    obtain ⟨a', b', c', d', e', rfl, hc', hd', he'⟩ := sound_of_height hd (by omega)
    obtain ⟨pc', pd'⟩ := hP.sub a' b' c' d' e' hc' hd' pd
    rw [height_node] at h2 he
    have hx : Sound (update (node a b c c' e)) := sound_update hc hc' _ _ _
    have px : P (update (node a b c c' e)) := hP.upd _ _ _ _ _ hc hc' pc pc'
    have hy : Sound (update (node sg m' d' r (max (node a b c (node a' b' c' d' e') e).height
        r.height + 1))) := sound_update hd' hr _ _ _
    refine ⟨update (node a' b' (update (node a b c c' e))
        (update (node sg m' d' r (max (node a b c (node a' b' c' d' e') e).height
          r.height + 1))) e'), rfl, sound_update hx hy _ _ _,
      hP.upd _ _ _ _ _ hx hy px (hP.upd _ _ _ _ _ hd' hr pd' pr), ?_, ?_⟩
    · rw [leaves_update_node hx, leaves_update_node hc, leaves_update_node hd',
        leaves_internal hc, leaves_internal hc']
      simp only [List.append_assoc]
    · intro bl br hb
      obtain ⟨b1, bc, bd⟩ := bl.sub
      obtain ⟨b2, bc', bd'⟩ := bd.sub
      rw [abs_le] at hb b1 b2
      rw [height_node] at hb b1
      refine ⟨balanced_update (balanced_update bc bc' ?_ _ _ _)
        (balanced_update bd' br ?_ _ _ _) ?_ _ _ _, ?_⟩
      · rw [abs_le]; omega
      · rw [abs_le]; omega
      · rw [update_height, update_height, abs_le]; omega
      · rw [update_height, update_height, update_height, height_node, lt_abs]
        omega
  · -- right heavy, single rotation
    obtain ⟨a, b, c, d, e, rfl, hc, hd, he⟩ := sound_of_height hr (by omega)
    obtain ⟨pc, pd⟩ := hP.sub a b c d e hc hd pr
    rw [balanceFactor_node] at h4
    rw [height_node] at h3 h1
    have hx : Sound (update (node sg m' l c (max l.height (node a b c d e).height + 1))) :=
      sound_update hl hc _ _ _
    refine ⟨_, rfl, sound_update hx hd _ _ _,
      hP.upd _ _ _ _ _ hx hd (hP.upd _ _ _ _ _ hl hc pl pc) pd, ?_, ?_⟩
    · rw [leaves_update_node hx, leaves_update_node hl, leaves_internal hc, List.append_assoc]
    · intro bl br hb
      obtain ⟨b1, bc, bd⟩ := br.sub
      rw [abs_le] at hb b1
      rw [height_node] at hb
      refine ⟨balanced_update (balanced_update bl bc ?_ _ _ _) bd ?_ _ _ _, ?_⟩
      · rw [abs_le]; omega
      · rw [update_height, abs_le]; omega
      · rw [update_height, update_height, height_node, lt_abs]
        omega
  · -- right heavy, double rotation
    obtain ⟨a, b, c, d, e, rfl, hc, hd, he⟩ := sound_of_height hr (by omega)
    obtain ⟨pc, pd⟩ := hP.sub a b c d e hc hd pr
    rw [balanceFactor_node] at h4
    rw [height_node] at h3 h1
    have hdp := sound_height_pos hd
    obtain ⟨a', b', c', d', e', rfl, hc', hd', he'⟩ := sound_of_height hc (by omega)
    obtain ⟨pc', pd'⟩ := hP.sub a' b' c' d' e' hc' hd' pc
    rw [height_node] at h4 he
    have hx : Sound (update (node sg m' l c' (max l.height
        (node a b (node a' b' c' d' e') d e).height + 1))) := sound_update hl hc' _ _ _
    have hy : Sound (update (node a b d' d e)) := sound_update hd' hd _ _ _
    refine ⟨update (node a' b' (update (node sg m' l c' (max l.height
        (node a b (node a' b' c' d' e') d e).height + 1))) (update (node a b d' d e)) e'),
      rfl, sound_update hx hy _ _ _,
      hP.upd _ _ _ _ _ hx hy (hP.upd _ _ _ _ _ hl hc' pl pc') (hP.upd _ _ _ _ _ hd' hd pd' pd),
      ?_, ?_⟩
    · rw [leaves_update_node hx, leaves_update_node hl, leaves_update_node hd',
        leaves_internal hc, leaves_internal hc']
      simp only [List.append_assoc]
    · intro bl br hb
      obtain ⟨b1, bc, bd⟩ := br.sub
      obtain ⟨b2, bc', bd'⟩ := bc.sub
      rw [abs_le] at hb b1 b2
      rw [height_node] at hb b1
      refine ⟨balanced_update (balanced_update bl bc' ?_ _ _ _)
        (balanced_update bd' bd ?_ _ _ _) ?_ _ _ _, ?_⟩
      · rw [abs_le]; omega
      · rw [abs_le]; omega
      · rw [update_height, update_height, abs_le]; omega
      · rw [update_height, update_height, update_height, height_node, lt_abs]
        omega
  · refine ⟨_, rfl, hsu, hpu, hlu, ?_⟩
    intro bl br _
    refine ⟨⟨?_, bl, br⟩, Or.inl (height_node _ _ _ _ _)⟩
    rw [abs_le]; omega

theorem heightsTrue_height {t : AVLTree} (h : HeightsTrue t) : t.height = trueHeight t := by
  cases t with
  | nil => rfl
  | node sg m l r hh => exact h.1

theorem sound_iff (t : AVLTree) : Sound t ↔ t ≠ nil ∧ TwoChildren t ∧ HeightsTrue t := by
  induction t with
  | nil => simp [Sound]
  | node sg m l r h ihl ihr =>
    constructor
    · rintro (⟨rfl, rfl, rfl⟩ | ⟨hl, hr, hh⟩)
      · refine ⟨AVLTree.noConfusion, Or.inl ⟨rfl, rfl⟩, ?_, trivial, trivial⟩
        simp [trueHeight]
      · obtain ⟨l1, l2, l3⟩ := ihl.1 hl
        obtain ⟨r1, r2, r3⟩ := ihr.1 hr
        refine ⟨AVLTree.noConfusion, Or.inr ⟨l1, r1, l2, r2⟩, ?_, l3, r3⟩
        rw [hh, heightsTrue_height l3, heightsTrue_height r3]
        rfl
    · rintro ⟨_, h2, h3, hl3, hr3⟩
      rcases h2 with ⟨rfl, rfl⟩ | ⟨l1, r1, l2, r2⟩
      · refine Or.inl ⟨rfl, rfl, ?_⟩
        rw [h3]
        simp [trueHeight]
      · refine Or.inr ⟨ihl.2 ⟨l1, l2, hl3⟩, ihr.2 ⟨r1, r2, hr3⟩, ?_⟩
        rw [h3, heightsTrue_height hl3, heightsTrue_height hr3]
        rfl

theorem sound_or_nil_iff (t : AVLTree) : (t = nil ∨ Sound t) ↔ TwoChildren t ∧ HeightsTrue t := by
  constructor
  · rintro (rfl | h)
    · exact ⟨trivial, trivial⟩
    · exact ((sound_iff t).1 h).2
  · rintro ⟨h1, h2⟩
    by_cases h : t = nil
    · exact Or.inl h
    · exact Or.inr ((sound_iff t).2 ⟨h, h1, h2⟩)

theorem sound_of {t : AVLTree} (h2 : TwoChildren t) (hh : HeightsTrue t) : t = nil ∨ Sound t :=
  (sound_or_nil_iff t).2 ⟨h2, hh⟩

theorem Sound.twoChildren {t : AVLTree} (h : Sound t) : TwoChildren t :=
  ((sound_iff t).1 h).2.1

theorem Sound.heights {t : AVLTree} (h : Sound t) : HeightsTrue t :=
  ((sound_iff t).1 h).2.2

theorem sound_getLast {t : AVLTree} (h : Sound t) :
    (leaves t).getLast? = some (rightmostSegment t) := by
  induction t with
  | nil => exact h.elim
  | node sg m l r hh _ ihr =>
    rcases h with ⟨rfl, rfl, _⟩ | ⟨hl, hr, _⟩
    · rfl
    · rw [leaves_internal hl, List.getLast?_append, ihr hr]
      simp only [rightmostSegment, sound_isNil hr, Bool.false_eq_true, if_false]
      rfl

theorem Sound.leaves_ne {t : AVLTree} (h : Sound t) : leaves t ≠ [] := by
  intro e
  have := sound_getLast h
  rw [e] at this
  exact Option.noConfusion this

theorem update_sound_eq {l : AVLTree} (hl : Sound l) (sg m : Option SegPtr) (r : AVLTree)
    (h : Int) :
    update (node sg m l r h) = node sg (rightmostSegment l) l r (max l.height r.height + 1) := by
  unfold AVLTree.update
  simp only [sound_isNil hl, Bool.not_false, Bool.true_and, Bool.false_eq_true, if_false, if_true]
  split
  · rename_i hleaf
    cases l with
    | nil => exact hl.elim
    | node a b c d e =>
      obtain ⟨_, rfl⟩ := isLeaf_true_of hleaf
      rfl
  · rfl

theorem closed_true : Closed fun _ => True :=
  ⟨fun _ _ _ _ _ _ _ _ _ => trivial, fun _ _ _ _ _ _ _ _ => ⟨trivial, trivial⟩⟩

theorem closed_cached : Closed Cached := by
  constructor
  · intro sg m l r h hl hr cl cr
    rw [update_sound_eq hl]
    exact Or.inr ⟨Or.inl (sound_ne_nil hl), sound_getLast hl, cl, cr⟩
  · intro sg m l r h hl hr c
    rcases c with ⟨e, _⟩ | ⟨_, _, cl, cr⟩
    · exact absurd e (sound_ne_nil hl)
    · exact ⟨cl, cr⟩

theorem nonNull_rightmost {t : AVLTree} (h : Sound t) (hn : NonNull t) :
    rightmostSegment t ≠ none := by
  induction t with
  | nil => exact h.elim
  | node sg m l r hh _ ihr =>
    rcases h with ⟨rfl, rfl, _⟩ | ⟨hl, hr, _⟩
    · rcases hn with ⟨_, _, h1⟩ | ⟨h1, _⟩
      · exact h1
      · rcases h1 with h1 | h1 <;> exact absurd rfl h1
    · rcases hn with ⟨_, h1, _⟩ | ⟨_, _, _, nr⟩
      · exact absurd h1 (sound_ne_nil hr)
      · simp only [rightmostSegment, sound_isNil hr, Bool.false_eq_true, if_false]
        exact ihr hr nr

theorem closed_nonNull : Closed NonNull := by
  constructor
  · intro sg m l r h hl hr nl nr
    rw [update_sound_eq hl]
    exact Or.inr ⟨Or.inl (sound_ne_nil hl), nonNull_rightmost hl nl, nl, nr⟩
  · intro sg m l r h hl hr c
    rcases c with ⟨e, _⟩ | ⟨_, _, cl, cr⟩
    · exact absurd e (sound_ne_nil hl)
    · exact ⟨cl, cr⟩

theorem closed_and {P R : AVLTree → Prop} (hP : Closed P) (hR : Closed R) :
    Closed fun t => P t ∧ R t :=
  ⟨fun sg m l r h hl hr pl pr =>
      ⟨hP.upd sg m l r h hl hr pl.1 pr.1, hR.upd sg m l r h hl hr pl.2 pr.2⟩,
    fun sg m l r h hl hr p =>
      ⟨⟨(hP.sub sg m l r h hl hr p.1).1, (hR.sub sg m l r h hl hr p.2).1⟩,
        (hP.sub sg m l r h hl hr p.1).2, (hR.sub sg m l r h hl hr p.2).2⟩⟩

theorem holders_internal {l : AVLTree} (hl : Sound l) (sg m : Option SegPtr) (r : AVLTree)
    (h : Int) (s : SegPtr) : holders (node sg m l r h) s = holders l s + holders r s := by
  simp only [holders, leaves_internal hl, List.filter_append, List.length_append]

/-- The function `erase` on a sound tree: it returns the empty tree or a sound tree whose
leaves are the leaves not holding `s`, in order; it keeps every closed
property; and on a balanced tree with at most one leaf holding `s` the result
is empty (when the tree was that leaf) or balanced, of the same height or one
less, and of the same height when no leaf holds `s`. -/
theorem erase_spec {P : AVLTree → Prop} (hP : Closed P) (hnil : P nil) {t : AVLTree}
    (ht : Sound t) (pt : P t) (s : SegPtr) :
    ∃ t', erase t s = some t' ∧ (t' = nil ∨ Sound t') ∧ P t' ∧
      leaves t' = (leaves t).filter (fun x => !ptrEq x (some s)) ∧
      (Balanced t → holders t s ≤ 1 →
        (t' = nil ∧ t.height = 1 ∧ holders t s = 1) ∨
        (t' ≠ nil ∧ Balanced t' ∧ (t'.height = t.height ∨ t'.height = t.height - 1) ∧
          (holders t s = 0 → t'.height = t.height))) := by
  induction t with
  | nil => exact ht.elim
  | node sg m l r h ihl ihr =>
    rw [AVLTree.erase]
    cases hleaf : (node sg m l r h).isLeaf with
    | true =>
      obtain ⟨rfl, rfl⟩ := isLeaf_true_of hleaf
      have hh : h = 1 := by
        rcases ht with ⟨_, _, h1⟩ | ⟨h1, _⟩
        · exact h1
        · exact h1.elim
      subst hh
      simp only [if_true]
      by_cases hp : ptrEq sg (some s) = true
      · simp only [hp, if_true]
        refine ⟨nil, rfl, Or.inl rfl, hnil, ?_, ?_⟩
        · simp [leaves, isNil, hp]
        · intro _ _
          left
          refine ⟨rfl, rfl, ?_⟩
          simp [holders, leaves, isNil, hp]
      · simp only [hp, if_false]
        refine ⟨_, rfl, Or.inr ht, pt, ?_, ?_⟩
        · simp [leaves, isNil, hp]
        · intro hb _
          right
          exact ⟨AVLTree.noConfusion, hb, Or.inl rfl, fun _ => rfl⟩
    | false =>
      obtain ⟨hl, hr, hh⟩ := sound_internal ht (isLeaf_false_of hleaf)
      obtain ⟨pl, pr⟩ := hP.sub sg m l r h hl hr pt
      obtain ⟨l1, hl1, hsl1, pl1, hll1, hbl1⟩ := ihl hl pl
      obtain ⟨r1, hr1, hsr1, pr1, hlr1, hbr1⟩ := ihr hr pr
      have hlp := sound_height_pos hl
      have hrp := sound_height_pos hr
      simp only [Bool.false_eq_true, if_false, hl1, hr1, Option.some_bind]
      rw [leaves_internal hl, List.filter_append, ← hll1, ← hlr1, holders_internal hl,
        height_node]
      rcases hsl1 with rfl | hsl1
      · rcases hsr1 with rfl | hsr1
        · simp only [isNil_nil, Bool.and_self, if_true]
          refine ⟨_, rfl, Or.inl rfl, hnil, rfl, ?_⟩
          intro hb hc
          obtain ⟨_, bl, br⟩ := hb.sub
          rcases hbl1 bl (by omega) with ⟨_, _, h1⟩ | ⟨h1, _⟩
          · rcases hbr1 br (by omega) with ⟨_, _, h2⟩ | ⟨h2, _⟩
            · omega
            · exact absurd rfl h2
          · exact absurd rfl h1
        · simp only [isNil_nil, sound_isNil hsr1, Bool.true_and, Bool.false_eq_true, if_false, if_true]
          refine ⟨_, rfl, Or.inr hsr1, pr1, by simp [leaves], ?_⟩
          intro hb hc
          obtain ⟨_, bl, br⟩ := hb.sub
          right
          rcases hbl1 bl (by omega) with ⟨_, h0, h1⟩ | ⟨h1, _⟩
          · rcases hbr1 br (by omega) with ⟨h2, _⟩ | ⟨_, h2, _, h3⟩
            · exact absurd h2 (sound_ne_nil hsr1)
            · have := h3 (by omega)
              exact ⟨sound_ne_nil hsr1, h2, by omega, by omega⟩
          · exact absurd rfl h1
      · rcases hsr1 with rfl | hsr1
        · simp only [isNil_nil, sound_isNil hsl1, Bool.false_and, Bool.false_eq_true, if_false, if_true]
          refine ⟨_, rfl, Or.inr hsl1, pl1, by simp [leaves], ?_⟩
          intro hb hc
          obtain ⟨_, bl, br⟩ := hb.sub
          right
          rcases hbr1 br (by omega) with ⟨_, h0, h1⟩ | ⟨h1, _⟩
          · rcases hbl1 bl (by omega) with ⟨h2, _⟩ | ⟨_, h2, _, h3⟩
            · exact absurd h2 (sound_ne_nil hsl1)
            · have := h3 (by omega)
              exact ⟨sound_ne_nil hsl1, h2, by omega, by omega⟩
          · exact absurd rfl h1
        · simp only [sound_isNil hsl1, sound_isNil hsr1, Bool.false_and, Bool.false_eq_true, if_false]
          obtain ⟨t, h1, h2, h3, h4, h5⟩ := rebalance_spec hP hsl1 hsr1 pl1 pr1 sg m h
          refine ⟨t, h1, Or.inr h2, h3, h4, ?_⟩
          intro hb hc
          obtain ⟨b0, bl, br⟩ := hb.sub
          rw [abs_le] at b0
          right
          rcases hbl1 bl (by omega) with ⟨h6, _⟩ | ⟨_, bl1, h6, h7⟩
          · exact absurd h6 (sound_ne_nil hsl1)
          · rcases hbr1 br (by omega) with ⟨h8, _⟩ | ⟨_, br1, h8, h9⟩
            · exact absurd h8 (sound_ne_nil hsr1)
            · have hz : holders l s = 0 ∨ holders r s = 0 := by omega
              have hd : |l1.height - r1.height| ≤ 2 := by
                rw [abs_le]
                rcases hz with hz | hz
                · have := h7 hz; omega
                · have := h9 hz; omega
              obtain ⟨bt, hht⟩ := h5 bl1 br1 hd
              refine ⟨sound_ne_nil h2, bt, ?_, ?_⟩
              · rcases hz with hz | hz
                · have := h7 hz
                  rcases hht with hht | ⟨hht1, hht⟩
                  · omega
                  · rw [lt_abs] at hht1; omega
                · have := h9 hz
                  rcases hht with hht | ⟨hht1, hht⟩
                  · omega
                  · rw [lt_abs] at hht1; omega
              · intro h0
                have e1 := h7 (by omega)
                have e2 := h9 (by omega)
                rcases hht with hht | ⟨hht1, hht⟩
                · omega
                · rw [lt_abs] at hht1; omega

theorem nonNull_leaf {sg m : Option SegPtr} {h : Int} (hn : NonNull (node sg m nil nil h)) :
    ∃ t, sg = some t := by
  rcases hn with ⟨_, _, h1⟩ | ⟨h1, _⟩
  · exact Option.ne_none_iff_exists'.1 h1
  · rcases h1 with h1 | h1 <;> exact absurd rfl h1

theorem nonNull_internal {sg m : Option SegPtr} {l r : AVLTree} {h : Int}
    (hn : NonNull (node sg m l r h)) (hi : l ≠ nil ∨ r ≠ nil) :
    (∃ t, m = some t) ∧ NonNull l ∧ NonNull r := by
  rcases hn with ⟨h1, h2, _⟩ | ⟨_, h1, h2, h3⟩
  · rcases hi with hi | hi
    · exact absurd h1 hi
    · exact absurd h2 hi
  · exact ⟨Option.ne_none_iff_exists'.1 h1, h2, h3⟩

/-- The function `insert` on a sound tree whose leaves and `maxLeft` fields are not null: it
returns a sound tree, keeps every closed property that holds of a fresh leaf,
and on a balanced tree the result is balanced, of the same height or one more. -/
theorem insert_spec {P : AVLTree → Prop} (hP : Closed P)
    (hleaf : ∀ s : SegPtr, P (node (some s) (some s) nil nil 1)) (sweepY : ℚ) {t : AVLTree}
    (ht : Sound t) (hn : NonNull t) (pt : P t) (s : SegPtr) :
    ∃ t', insert sweepY t s = some t' ∧ Sound t' ∧ P t' ∧
      (Balanced t → Balanced t' ∧ (t'.height = t.height ∨ t'.height = t.height + 1)) := by
  induction t with
  | nil => exact ht.elim
  | node sg m l r h ihl ihr =>
    unfold AVLTree.insert
    cases hlf : (node sg m l r h).isLeaf with
    | true =>
      obtain ⟨rfl, rfl⟩ := isLeaf_true_of hlf
      obtain ⟨t0, rfl⟩ := nonNull_leaf hn
      have hh : h = 1 := by
        rcases ht with ⟨_, _, h1⟩ | ⟨h1, _⟩
        · exact h1
        · exact h1.elim
      subst hh
      simp only [if_true]
      split_ifs
      · refine ⟨_, rfl, sound_update (sound_leaf _ _) ht _ _ _,
          hP.upd _ _ _ _ _ (sound_leaf _ _) ht (hleaf s) pt, ?_⟩
        intro hb
        refine ⟨balanced_update (balanced_leaf _ _ _) hb ?_ _ _ _, ?_⟩
        · simp [height]
        · rw [update_height, height_node, height_node]
          right; rfl
      · refine ⟨_, rfl, sound_update ht (sound_leaf _ _) _ _ _,
          hP.upd _ _ _ _ _ ht (sound_leaf _ _) pt (hleaf s), ?_⟩
        intro hb
        refine ⟨balanced_update hb (balanced_leaf _ _ _) ?_ _ _ _, ?_⟩
        · simp [height]
        · rw [update_height, height_node, height_node]
          right; rfl
    | false =>
      obtain ⟨hl, hr, hh⟩ := sound_internal ht (isLeaf_false_of hlf)
      obtain ⟨⟨t0, rfl⟩, nl, nr⟩ := nonNull_internal hn (isLeaf_false_of hlf)
      obtain ⟨pl, pr⟩ := hP.sub _ _ _ _ _ hl hr pt
      simp only [Bool.false_eq_true, if_false]
      rw [height_node]
      split_ifs
      · obtain ⟨l1, hl1, hsl1, pl1, hbl1⟩ := ihl hl nl pl
        rw [hl1]
        obtain ⟨t, h1, h2, h3, _, h5⟩ := rebalance_spec hP hsl1 hr pl1 pr sg (some t0) h
        refine ⟨t, h1, h2, h3, ?_⟩
        intro hb
        obtain ⟨b0, bl, br⟩ := hb.sub
        rw [abs_le] at b0
        obtain ⟨bl1, hh1⟩ := hbl1 bl
        have hd : |l1.height - r.height| ≤ 2 := by rw [abs_le]; omega
        obtain ⟨bt, hht⟩ := h5 bl1 br hd
        refine ⟨bt, ?_⟩
        rcases hht with hht | ⟨hht1, hht⟩
        · omega
        · rw [lt_abs] at hht1; omega
      · obtain ⟨r1, hr1, hsr1, pr1, hbr1⟩ := ihr hr nr pr
        rw [hr1]
        obtain ⟨t, h1, h2, h3, _, h5⟩ := rebalance_spec hP hl hsr1 pl pr1 sg (some t0) h
        refine ⟨t, h1, h2, h3, ?_⟩
        intro hb
        obtain ⟨b0, bl, br⟩ := hb.sub
        rw [abs_le] at b0
        obtain ⟨br1, hh1⟩ := hbr1 br
        have hd : |l.height - r1.height| ≤ 2 := by rw [abs_le]; omega
        obtain ⟨bt, hht⟩ := h5 bl br1 hd
        refine ⟨bt, ?_⟩
        rcases hht with hht | ⟨hht1, hht⟩
        · omega
        · rw [lt_abs] at hht1; omega

theorem wellFormed_leaf (s : SegPtr) : WellFormed (node (some s) (some s) nil nil 1) :=
  ⟨Or.inl ⟨rfl, rfl⟩, ⟨by simp [trueHeight], trivial, trivial⟩, balanced_leaf _ _ _⟩

/-! ## Well-formed trees, leaf sequences and the cached `maxLeft` -/

/-- C14 as stated fails. The tree `unsetCacheTree` (two leaves under a root whose
`maxLeft` is null) is well-formed in the sense of the claim, and `insert` on
it returns no tree: it passes the null `maxLeft` to `segmentLess`, which
dereferences it. -/
theorem insert_needs_maxLeft :
    WellFormed unsetCacheTree ∧ insert (1 / 2) unsetCacheTree ptrRight = none := by
  decide!

/-- C14 amended. For a well-formed tree `t` (two children per internal node, true
heights, balance within 1) and a segment `s`: when every leaf of `t` holds a
segment and every internal node a `maxLeft` that is not null, `insert(t, s)`
returns a well-formed tree with the same two properties; and when at most one
leaf of `t` holds `s`, `erase(t, s)` returns the empty tree or a well-formed
tree. -/
theorem insert_erase_well_formed (sweepY : ℚ) (t : AVLTree) (s : SegPtr) (hw : WellFormed t) :
    (NonNull t → ∃ t', insert sweepY t s = some t' ∧ WellFormed t' ∧ NonNull t') ∧
    (holders t s ≤ 1 → ∃ t', erase t s = some t' ∧ (t' = nil ∨ WellFormed t')) := by
  obtain ⟨h2, hh, hb⟩ := hw
  rcases sound_of h2 hh with rfl | hs
  · exact ⟨fun _ => ⟨_, rfl, wellFormed_leaf s, Or.inl ⟨rfl, rfl, Option.noConfusion⟩⟩,
      fun _ => ⟨nil, rfl, Or.inl rfl⟩⟩
  · constructor
    · intro hn
      obtain ⟨t', h1, h3, h4, h5⟩ :=
        insert_spec closed_nonNull (fun s => Or.inl ⟨rfl, rfl, Option.noConfusion⟩)
          sweepY hs hn hn s
      exact ⟨t', h1, ⟨h3.twoChildren, h3.heights, (h5 hb).1⟩, h4⟩
    · intro hc
      obtain ⟨t', h1, h3, _, _, h5⟩ := erase_spec closed_true trivial hs trivial s
      refine ⟨t', h1, ?_⟩
      rcases h3 with h3 | h3
      · exact Or.inl h3
      · rcases h5 hb hc with ⟨h6, _⟩ | ⟨_, h6, _⟩
        · exact Or.inl h6
        · exact Or.inr ⟨h3.twoChildren, h3.heights, h6⟩

/-- C14 amended, at `twoLeafTree`: inserting `ptrRight` and erasing `ptrLeft`. -/
theorem insert_erase_well_formed_witness :
    (∃ t', insert (1 / 2) twoLeafTree ptrRight = some t' ∧ WellFormed t' ∧ NonNull t') ∧
    (∃ t', erase twoLeafTree ptrLeft = some t' ∧ (t' = nil ∨ WellFormed t')) :=
  ⟨(insert_erase_well_formed (1 / 2) twoLeafTree ptrRight (by decide!)).1 (by decide!),
    (insert_erase_well_formed (1 / 2) twoLeafTree ptrLeft (by decide!)).2 (by decide!)⟩

/-- C15 as stated fails. In `tallLeafTree` every internal node has two children
and no leaf holds `ptrRight`, so the claim wants `erase(t, ptrRight)` to keep
the leaves `ptrLeft`, `ptrMid`; the code returns a tree whose only leaf is
`ptrMid`: the stored height 5 of the left leaf makes the balance factor 4, and
`rotateRight` turns that leaf into an internal node. -/
theorem erase_loses_leaf_under_wrong_height :
    TwoChildren tallLeafTree ∧
    (leaves tallLeafTree).filter (fun x => !ptrEq x (some ptrRight)) =
      [some ptrLeft, some ptrMid] ∧
    (erase tallLeafTree ptrRight).map leaves = some [some ptrMid] := by
  decide!

/-- C15 amended. For a tree `t` in which every internal node has two children and
every stored height is the true subtree height, and a segment `s`,
`erase(t, s)` returns a tree whose leaves from left to right are the leaves of
`t` that do not hold `s`, in their order in `t`; they are the leaves of `t` when
no leaf holds `s`, and the returned tree is empty when no leaf is left. -/
theorem erase_leaves (t : AVLTree) (s : SegPtr) (h2 : TwoChildren t) (hh : HeightsTrue t) :
    ∃ t', erase t s = some t' ∧
      leaves t' = (leaves t).filter (fun x => !ptrEq x (some s)) ∧
      (holders t s = 0 → leaves t' = leaves t) ∧
      (leaves t' = [] → t' = nil) := by
  have key : ∃ t', erase t s = some t' ∧ (t' = nil ∨ Sound t') ∧
      leaves t' = (leaves t).filter (fun x => !ptrEq x (some s)) := by
    rcases sound_of h2 hh with rfl | hs
    · exact ⟨nil, rfl, Or.inl rfl, rfl⟩
    · obtain ⟨t', h1, h3, _, h4, _⟩ := erase_spec closed_true trivial hs trivial s
      exact ⟨t', h1, h3, h4⟩
  obtain ⟨t', h1, h3, h4⟩ := key
  refine ⟨t', h1, h4, ?_, ?_⟩
  · intro h0
    rw [h4, List.filter_eq_self]
    intro x hx
    have h5 : (leaves t).filter (fun x => ptrEq x (some s)) = [] :=
      List.length_eq_zero.1 h0
    rw [List.filter_eq_nil_iff] at h5
    simpa using h5 x hx
  · intro h5
    rcases h3 with h3 | h3
    · exact h3
    · exact absurd h5 h3.leaves_ne

/-- C15 amended, at `twoLeafTree` and the segment `ptrLeft`. -/
theorem erase_leaves_witness :
    ∃ t', erase twoLeafTree ptrLeft = some t' ∧
      leaves t' = (leaves twoLeafTree).filter (fun x => !ptrEq x (some ptrLeft)) ∧
      (holders twoLeafTree ptrLeft = 0 → leaves t' = leaves twoLeafTree) ∧
      (leaves t' = [] → t' = nil) :=
  erase_leaves twoLeafTree ptrLeft (by decide!) (by decide!)

/-- C16 as stated fails. In `tallLeafTree` every internal node has two children
and its `maxLeft` is the segment of the rightmost leaf of its left subtree, but
`erase(t, ptrRight)`, `insert(t, ptrRight)` and `rotateRight(t)` each return a
tree whose root has a right child only, with no leaf in its left subtree for
`maxLeft` to name: the stored height 5 of the left leaf makes `erase` and
`insert` rotate, and the rotation lifts a leaf. -/
theorem wrong_height_breaks_two_children :
    TwoChildren tallLeafTree ∧ Cached tallLeafTree ∧
    (∃ t', erase tallLeafTree ptrRight = some t' ∧ ¬ TwoChildren t' ∧ ¬ Cached t') ∧
    (∃ t', insert (1 / 2) tallLeafTree ptrRight = some t' ∧ ¬ TwoChildren t' ∧ ¬ Cached t') ∧
    (∃ t', rotateRight tallLeafTree = some t' ∧ ¬ TwoChildren t' ∧ ¬ Cached t') :=
  ⟨by decide!, by decide!,
    ⟨node (some ptrLeft) (some ptrLeft) nil (node none none nil (leafOf ptrMid) 2) 3,
      by decide!, by decide!, by decide!⟩,
    ⟨node (some ptrLeft) (some ptrLeft) nil (node none none nil
        (node none (some ptrMid) (leafOf ptrMid) (leafOf ptrRight) 2) 3) 4,
      by decide!, by decide!, by decide!⟩,
    ⟨node (some ptrLeft) (some ptrLeft) nil (node none none nil (leafOf ptrMid) 2) 3,
      by decide!, by decide!, by decide!⟩⟩

/-- C16 amended. For a tree `t` in which every internal node has two children,
every stored height is the true subtree height and every internal node's
`maxLeft` is the segment of the rightmost leaf of its left subtree, and a
segment `s`: `erase(t, s)` returns a tree with these three properties; so does
`insert(t, s)` when moreover every leaf of `t` holds a segment and every
`maxLeft` is not null; and so do `rotateRight(t)` and `rotateLeft(t)` when the
child they lift is an internal node. -/
theorem insert_erase_keep_cache (sweepY : ℚ) (t : AVLTree) (s : SegPtr)
    (h2 : TwoChildren t) (hh : HeightsTrue t) (hc : Cached t) :
    (∃ t', erase t s = some t' ∧ TwoChildren t' ∧ HeightsTrue t' ∧ Cached t') ∧
    (NonNull t →
      ∃ t', insert sweepY t s = some t' ∧ TwoChildren t' ∧ HeightsTrue t' ∧ Cached t' ∧
        NonNull t') ∧
    (∀ ys ym xs xm xl xr xh yr yh, t = node ys ym (node xs xm xl xr xh) yr yh → xl ≠ nil →
      ∃ t', rotateRight t = some t' ∧ TwoChildren t' ∧ HeightsTrue t' ∧ Cached t') ∧
    (∀ xs xm xl ys ym yl yr yh xh, t = node xs xm xl (node ys ym yl yr yh) xh → yl ≠ nil →
      ∃ t', rotateLeft t = some t' ∧ TwoChildren t' ∧ HeightsTrue t' ∧ Cached t') := by
  refine ⟨?_, ?_, ?_, ?_⟩
  · rcases sound_of h2 hh with rfl | hs
    · exact ⟨nil, rfl, trivial, trivial, trivial⟩
    · obtain ⟨t', h1, h3, h4, _, _⟩ := erase_spec closed_cached trivial hs hc s
      rcases h3 with rfl | h3
      · exact ⟨nil, h1, trivial, trivial, trivial⟩
      · exact ⟨t', h1, h3.twoChildren, h3.heights, h4⟩
  · intro hn
    rcases sound_of h2 hh with rfl | hs
    · exact ⟨_, rfl, (wellFormed_leaf s).1, (wellFormed_leaf s).2.1, Or.inl ⟨rfl, rfl⟩,
        Or.inl ⟨rfl, rfl, Option.noConfusion⟩⟩
    · obtain ⟨t', h1, h3, h4, _⟩ :=
        insert_spec (closed_and closed_cached closed_nonNull)
          (fun s => ⟨Or.inl ⟨rfl, rfl⟩, Or.inl ⟨rfl, rfl, Option.noConfusion⟩⟩)
          sweepY hs hn ⟨hc, hn⟩ s
      exact ⟨t', h1, h3.twoChildren, h3.heights, h4.1, h4.2⟩
  · rintro ys ym xs xm xl xr xh yr yh rfl hxl
    have hs : Sound (node ys ym (node xs xm xl xr xh) yr yh) := by
      rcases sound_of h2 hh with h | h
      · exact AVLTree.noConfusion h
      · exact h
    obtain ⟨hx, hyr, _⟩ := sound_internal hs (Or.inl AVLTree.noConfusion)
    obtain ⟨hxl', hxr, _⟩ := sound_internal hx (Or.inl hxl)
    obtain ⟨cx, cyr⟩ := closed_cached.sub _ _ _ _ _ hx hyr hc
    obtain ⟨cxl, cxr⟩ := closed_cached.sub _ _ _ _ _ hxl' hxr cx
    have hy : Sound (update (node ys ym xr yr yh)) := sound_update hxr hyr _ _ _
    have hr : Sound (update (node xs xm xl (update (node ys ym xr yr yh)) xh)) :=
      sound_update hxl' hy _ _ _
    exact ⟨_, rfl, hr.twoChildren, hr.heights,
      closed_cached.upd _ _ _ _ _ hxl' hy cxl (closed_cached.upd _ _ _ _ _ hxr hyr cxr cyr)⟩
  · rintro xs xm xl ys ym yl yr yh xh rfl hyl
    have hs : Sound (node xs xm xl (node ys ym yl yr yh) xh) := by
      rcases sound_of h2 hh with h | h
      · exact AVLTree.noConfusion h
      · exact h
    obtain ⟨hxl, hy, _⟩ := sound_internal hs (Or.inr AVLTree.noConfusion)
    obtain ⟨hyl', hyr, _⟩ := sound_internal hy (Or.inl hyl)
    obtain ⟨cxl, cy⟩ := closed_cached.sub _ _ _ _ _ hxl hy hc
    obtain ⟨cyl, cyr⟩ := closed_cached.sub _ _ _ _ _ hyl' hyr cy
    have hx : Sound (update (node xs xm xl yl xh)) := sound_update hxl hyl' _ _ _
    have hr : Sound (update (node ys ym (update (node xs xm xl yl xh)) yr yh)) :=
      sound_update hx hyr _ _ _
    exact ⟨_, rfl, hr.twoChildren, hr.heights,
      closed_cached.upd _ _ _ _ _ hx hyr (closed_cached.upd _ _ _ _ _ hxl hyl' cxl cyl) cyr⟩

/-- C16 amended, at `twoLeafTree`: erasing `ptrLeft` and inserting `ptrRight`. -/
theorem insert_erase_keep_cache_witness :
    (∃ t', erase twoLeafTree ptrLeft = some t' ∧ TwoChildren t' ∧ HeightsTrue t' ∧ Cached t') ∧
    (∃ t', insert (1 / 2) twoLeafTree ptrRight = some t' ∧ TwoChildren t' ∧ HeightsTrue t' ∧
      Cached t' ∧ NonNull t') :=
  ⟨(insert_erase_keep_cache (1 / 2) twoLeafTree ptrLeft (by decide!) (by decide!)
      (by decide!)).1,
    (insert_erase_keep_cache (1 / 2) twoLeafTree ptrRight (by decide!) (by decide!)
      (by decide!)).2.1 (by decide!)⟩

/-! ## Trees whose leaves ascend in x -/

/-- Against itself or a segment at least `1e-9` away in x, `segmentLess`
without `noid` compares the x-values. -/
theorem segmentLess_iff_lt {sweepY : ℚ} {a b : SegPtr}
    (h : a = b ∨ eps ≤ |a.seg.getXatY sweepY - b.seg.getXatY sweepY|) :
    segmentLess sweepY a.seg b.seg false = true ↔
      a.seg.getXatY sweepY < b.seg.getXatY sweepY := by
  rw [segmentLess_false_iff]
  constructor
  · rintro (h1 | ⟨h1, h2⟩)
    · exact h1
    · rcases h with rfl | h
      · exact absurd h2 (lt_irrefl _)
      · exact absurd h1 (not_lt.2 h)
  · exact Or.inl

theorem lt_of_not_lt_of_gap {x y : ℚ} (h : eps ≤ |x - y|) (hn : ¬ x < y) : y < x := by
  rcases lt_or_eq_of_le (not_lt.1 hn) with h1 | h1
  · exact h1
  · rw [h1, sub_self, abs_zero] at h
    exact absurd h (not_le.2 eps_pos)

theorem leaves_leaf_eq {sg : Option SegPtr} {ls : List SegPtr} (h : [sg] = ls.map some) :
    ∃ t0, sg = some t0 ∧ ls = [t0] := by
  cases ls with
  | nil => simp at h
  | cons a tl =>
    cases tl with
    | nil =>
      simp only [List.map_cons, List.map_nil, List.cons.injEq, and_true] at h
      exact ⟨a, h, rfl⟩
    | cons b tl => simp at h

theorem leaves_split {l r : AVLTree} {ls : List SegPtr} (h : leaves l ++ leaves r = ls.map some) :
    ∃ ll lr, ls = ll ++ lr ∧ leaves l = ll.map some ∧ leaves r = lr.map some := by
  obtain ⟨ll, lr, h1, h2, h3⟩ := List.map_eq_append_iff.1 h.symm
  exact ⟨ll, lr, h1, h2.symm, h3.symm⟩

theorem last_of_cached {l : AVLTree} {m : Option SegPtr} {ll : List SegPtr}
    (hm : (leaves l).getLast? = some m) (hl : leaves l = ll.map some) :
    ∃ t0 init, m = some t0 ∧ ll = init ++ [t0] := by
  rw [hl, List.getLast?_map] at hm
  cases hg : ll.getLast? with
  | none => rw [hg] at hm; exact Option.noConfusion hm
  | some t0 =>
    rw [hg] at hm
    simp only [Option.map_some', Option.some.injEq] at hm
    obtain ⟨init, hi⟩ := List.getLast?_eq_some_iff.1 hg
    exact ⟨t0, init, hm.symm, hi⟩

theorem leaves_nil_eq {ls : List SegPtr} (h : leaves nil = ls.map some) : ls = [] := by
  cases ls with
  | nil => rfl
  | cons a tl => simp [leaves] at h

theorem leaves_node {sg m : Option SegPtr} {l r : AVLTree} {h : Int}
    (hl : (l.isNil && r.isNil) = false) :
    leaves (node sg m l r h) = leaves l ++ leaves r := by
  simp only [leaves, hl, Bool.false_eq_true, if_false]

/-- Where `insert` puts the new leaf in a sound tree with correct `maxLeft`
fields and leaves ascending in x, all at least `1e-9` away from `s`. -/
theorem insert_leaves (sweepY : ℚ) (s : SegPtr) {t : AVLTree} (ht : Sound t) (hc : Cached t)
    (ls : List SegPtr) (hls : leaves t = ls.map some)
    (hinc : ls.Pairwise fun a b => a.seg.getXatY sweepY < b.seg.getXatY sweepY)
    (hs : ∀ a ∈ ls, eps ≤ |s.seg.getXatY sweepY - a.seg.getXatY sweepY|) :
    ∃ t' l1 l2, insert sweepY t s = some t' ∧ Sound t' ∧ ls = l1 ++ l2 ∧
      leaves t' = (l1 ++ s :: l2).map some ∧
      (∀ a ∈ l1, a.seg.getXatY sweepY < s.seg.getXatY sweepY) ∧
      (∀ b ∈ l2, s.seg.getXatY sweepY < b.seg.getXatY sweepY) := by
  induction t generalizing ls with
  | nil => exact ht.elim
  | node sg m l r h ihl ihr =>
    unfold AVLTree.insert
    cases hlf : (node sg m l r h).isLeaf with
    | true =>
      obtain ⟨rfl, rfl⟩ := isLeaf_true_of hlf
      have hls' : [sg] = ls.map some := hls
      obtain ⟨t0, rfl, rfl⟩ := leaves_leaf_eq hls'
      have hg := hs t0 (List.mem_singleton.2 rfl)
      simp only [if_true]
      split_ifs with hlt
      · rw [segmentLess_iff_lt (Or.inr hg)] at hlt
        refine ⟨_, [], [t0], rfl, sound_update (sound_leaf _ _) ht _ _ _, rfl, ?_, ?_, ?_⟩
        · rw [leaves_update_node (sound_leaf _ _)]; rfl
        · intro a ha; simp at ha
        · intro b hb
          rw [List.mem_singleton.1 hb]; exact hlt
      · rw [segmentLess_iff_lt (Or.inr hg)] at hlt
        refine ⟨_, [t0], [], rfl, sound_update ht (sound_leaf _ _) _ _ _, rfl, ?_, ?_, ?_⟩
        · rw [leaves_update_node ht]; rfl
        · intro a ha
          rw [List.mem_singleton.1 ha]; exact lt_of_not_lt_of_gap hg hlt
        · intro b hb; simp at hb
    | false =>
      obtain ⟨hl, hr, hh⟩ := sound_internal ht (isLeaf_false_of hlf)
      rw [leaves_internal hl] at hls
      obtain ⟨ll, lr, rfl, hll, hlr⟩ := leaves_split hls
      rcases hc with ⟨e, _⟩ | ⟨_, hm, cl, cr⟩
      · exact absurd e (sound_ne_nil hl)
      obtain ⟨t0, init, rfl, hinit⟩ := last_of_cached hm hll
      obtain ⟨incl, incr, hlr'⟩ := List.pairwise_append.1 hinc
      have ht0 : t0 ∈ ll := by rw [hinit]; simp
      have hg := hs t0 (List.mem_append_left _ ht0)
      simp only [Bool.false_eq_true, if_false]
      split_ifs with hlt
      · rw [segmentLess_iff_lt (Or.inr hg)] at hlt
        obtain ⟨l1, a, b, h1, hsl1, rfl, h3, h4, h5⟩ :=
          ihl hl cl ll hll incl (fun x hx => hs x (List.mem_append_left _ hx))
        rw [h1]
        obtain ⟨t', e1, e2, _, e4, _⟩ :=
          rebalance_spec closed_true hsl1 hr trivial trivial sg (some t0) h
        refine ⟨t', a, b ++ lr, e1, e2, by simp, ?_, h4, ?_⟩
        · rw [e4, h3, hlr]; simp
        · intro x hx
          rcases List.mem_append.1 hx with hx | hx
          · exact h5 x hx
          · exact lt_trans hlt (hlr' t0 ht0 x hx)
      · rw [segmentLess_iff_lt (Or.inr hg)] at hlt
        have hlt' := lt_of_not_lt_of_gap hg hlt
        obtain ⟨r1, a, b, h1, hsr1, rfl, h3, h4, h5⟩ :=
          ihr hr cr lr hlr incr (fun x hx => hs x (List.mem_append_right _ hx))
        rw [h1]
        obtain ⟨t', e1, e2, _, e4, _⟩ :=
          rebalance_spec closed_true hl hsr1 trivial trivial sg (some t0) h
        refine ⟨t', ll ++ a, b, e1, e2, by simp, ?_, ?_, h5⟩
        · rw [e4, h3, hll]; simp
        · intro x hx
          rcases List.mem_append.1 hx with hx | hx
          · rw [hinit] at hx incl
            rcases List.mem_append.1 hx with hx | hx
            · exact lt_trans ((List.pairwise_append.1 incl).2.2 x hx t0 (by simp)) hlt'
            · rw [List.mem_singleton.1 hx]; exact hlt'
          · exact h4 x hx

/-- C17. For a well-formed tree `t` with correct `maxLeft` fields whose leaves
`ls`, read left to right, are strictly increasing in x at the sweep coordinate
and pairwise at least `1e-9` apart, and a segment `s` at least `1e-9` away
from every leaf, `insert(t, s)` returns a tree whose leaves are `ls` with `s`
added at one position, again strictly increasing in x. -/
theorem insert_keeps_leaves_sorted (sweepY : ℚ) (t : AVLTree) (s : SegPtr) (ls : List SegPtr)
    (hw : WellFormed t) (hc : Cached t) (hls : leaves t = ls.map some)
    (hinc : ls.Pairwise fun a b => a.seg.getXatY sweepY < b.seg.getXatY sweepY)
    (hgap : ls.Pairwise fun a b => eps ≤ |a.seg.getXatY sweepY - b.seg.getXatY sweepY|)
    (hs : ∀ a ∈ ls, eps ≤ |s.seg.getXatY sweepY - a.seg.getXatY sweepY|) :
    ∃ t' l1 l2, insert sweepY t s = some t' ∧ ls = l1 ++ l2 ∧
      leaves t' = (l1 ++ s :: l2).map some ∧
      (l1 ++ s :: l2).Pairwise fun a b => a.seg.getXatY sweepY < b.seg.getXatY sweepY := by
  have key : ∃ t' l1 l2, insert sweepY t s = some t' ∧ ls = l1 ++ l2 ∧
      leaves t' = (l1 ++ s :: l2).map some ∧
      (∀ a ∈ l1, a.seg.getXatY sweepY < s.seg.getXatY sweepY) ∧
      (∀ b ∈ l2, s.seg.getXatY sweepY < b.seg.getXatY sweepY) := by
    rcases sound_of hw.1 hw.2.1 with rfl | hsd
    · have : ls = [] := by
        cases ls with
        | nil => rfl
        | cons a tl => simp [leaves] at hls
      subst this
      exact ⟨_, [], [], rfl, rfl, rfl, by simp, by simp⟩
    · obtain ⟨t', l1, l2, h1, _, h2, h3, h4, h5⟩ := insert_leaves sweepY s hsd hc ls hls hinc hs
      exact ⟨t', l1, l2, h1, h2, h3, h4, h5⟩
  obtain ⟨t', l1, l2, h1, rfl, h3, h4, h5⟩ := key
  refine ⟨t', l1, l2, h1, rfl, h3, ?_⟩
  obtain ⟨i1, i2, i3⟩ := List.pairwise_append.1 hinc
  rw [List.pairwise_append]
  refine ⟨i1, List.pairwise_cons.2 ⟨h5, i2⟩, ?_⟩
  intro a ha b hb
  rcases List.mem_cons.1 hb with hb | hb
  · rw [hb]; exact h4 a ha
  · exact i3 a ha b hb

/-- C17 at `twoLeafTree` (leaves at x = 0 and x = 1), the segment `ptrRight`
(x = 2) and the sweep coordinate `1/2`. -/
theorem insert_keeps_leaves_sorted_witness :
    ∃ t' l1 l2, insert (1 / 2) twoLeafTree ptrRight = some t' ∧ [ptrLeft, ptrMid] = l1 ++ l2 ∧
      leaves t' = (l1 ++ ptrRight :: l2).map some ∧
      (l1 ++ ptrRight :: l2).Pairwise
        fun a b => a.seg.getXatY (1 / 2) < b.seg.getXatY (1 / 2) :=
  insert_keeps_leaves_sorted (1 / 2) twoLeafTree ptrRight [ptrLeft, ptrMid] (by decide!)
    (by decide!) (by decide!) (by decide!) (by decide!) (by decide!)

/-- The loop of `above` without `noid`, on a tree with correct `maxLeft` fields
and leaves ascending in x: the first leaf right of `s`, or the running answer. -/
theorem aboveLoop_find (sweepY : ℚ) (s : SegPtr) {t : AVLTree} (hc : Cached t)
    (ls : List SegPtr) (hls : leaves t = ls.map some)
    (hinc : ls.Pairwise fun a b => a.seg.getXatY sweepY < b.seg.getXatY sweepY)
    (hs : ∀ a ∈ ls, s = a ∨ eps ≤ |s.seg.getXatY sweepY - a.seg.getXatY sweepY|)
    (succ : Option SegPtr) :
    aboveLoop sweepY s false t succ =
      some ((ls.find? fun a => decide (s.seg.getXatY sweepY < a.seg.getXatY sweepY)).or succ) := by
  induction t generalizing ls succ with
  | nil =>
    rw [leaves_nil_eq hls]
    rfl
  | node sg m l r h ihl ihr =>
    unfold aboveLoop
    cases hlf : (l.isNil && r.isNil) with
    | true =>
      obtain ⟨rfl, rfl⟩ := isLeaf_true_of hlf
      have hls' : [sg] = ls.map some := hls
      obtain ⟨t0, rfl, rfl⟩ := leaves_leaf_eq hls'
      have hg := hs t0 (List.mem_singleton.2 rfl)
      simp only [if_true, List.find?_cons, List.find?_nil]
      by_cases hlt : s.seg.getXatY sweepY < t0.seg.getXatY sweepY
      · simp [(segmentLess_iff_lt hg).2 hlt, hlt]
      · have : ¬ segmentLess sweepY s.seg t0.seg false = true :=
          fun h => hlt ((segmentLess_iff_lt hg).1 h)
        simp [this, hlt]
    | false =>
      rw [leaves_node hlf] at hls
      obtain ⟨ll, lr, rfl, hll, hlr⟩ := leaves_split hls
      rcases hc with ⟨e1, e2⟩ | ⟨_, hm, cl, cr⟩
      · rw [e1, e2] at hlf; exact absurd hlf (by decide)
      obtain ⟨t0, init, rfl, hinit⟩ := last_of_cached hm hll
      obtain ⟨incl, incr, hlr'⟩ := List.pairwise_append.1 hinc
      have ht0 : t0 ∈ ll := by rw [hinit]; simp
      have hg := hs t0 (List.mem_append_left _ ht0)
      simp only [Bool.false_eq_true, if_false, List.find?_append]
      by_cases hlt : s.seg.getXatY sweepY < t0.seg.getXatY sweepY
      · rw [if_pos ((segmentLess_iff_lt hg).2 hlt),
          ihl cl ll hll incl (fun x hx => hs x (List.mem_append_left _ hx))]
        cases hf : ll.find? fun a => decide (s.seg.getXatY sweepY < a.seg.getXatY sweepY) with
        | none =>
          have := List.find?_eq_none.1 hf t0 ht0
          simp only [decide_eq_true_eq] at this
          exact absurd hlt this
        | some a => rfl
      · have hn : ¬ segmentLess sweepY s.seg t0.seg false = true :=
          fun h => hlt ((segmentLess_iff_lt hg).1 h)
        rw [if_neg hn, ihr cr lr hlr incr (fun x hx => hs x (List.mem_append_right _ hx))]
        have hf : (ll.find? fun a => decide (s.seg.getXatY sweepY < a.seg.getXatY sweepY))
            = none := by
          rw [List.find?_eq_none]
          intro x hx
          simp only [decide_eq_true_eq, not_lt]
          rw [hinit] at hx incl
          rcases List.mem_append.1 hx with hx | hx
          · exact le_trans (le_of_lt ((List.pairwise_append.1 incl).2.2 x hx t0 (by simp)))
              (not_lt.1 hlt)
          · rw [List.mem_singleton.1 hx]; exact not_lt.1 hlt
        rw [hf]
        rfl

/-- The loop of `below` without `noid`, on a tree with correct `maxLeft` fields
and leaves ascending in x: the last leaf left of `s`, or the running answer. -/
theorem belowLoop_find (sweepY : ℚ) (s : SegPtr) {t : AVLTree} (hc : Cached t)
    (ls : List SegPtr) (hls : leaves t = ls.map some)
    (hinc : ls.Pairwise fun a b => a.seg.getXatY sweepY < b.seg.getXatY sweepY)
    (hs : ∀ a ∈ ls, a = s ∨ eps ≤ |a.seg.getXatY sweepY - s.seg.getXatY sweepY|)
    (pred : Option SegPtr) :
    belowLoop sweepY s false t pred =
      some ((ls.reverse.find?
        fun a => decide (a.seg.getXatY sweepY < s.seg.getXatY sweepY)).or pred) := by
  induction t generalizing ls pred with
  | nil =>
    rw [leaves_nil_eq hls]
    rfl
  | node sg m l r h ihl ihr =>
    unfold belowLoop
    cases hlf : (l.isNil && r.isNil) with
    | true =>
      obtain ⟨rfl, rfl⟩ := isLeaf_true_of hlf
      have hls' : [sg] = ls.map some := hls
      obtain ⟨t0, rfl, rfl⟩ := leaves_leaf_eq hls'
      have hg := hs t0 (List.mem_singleton.2 rfl)
      simp only [if_true, List.reverse_singleton, List.find?_cons, List.find?_nil]
      by_cases hlt : t0.seg.getXatY sweepY < s.seg.getXatY sweepY
      · simp [(segmentLess_iff_lt hg).2 hlt, hlt]
      · have : ¬ segmentLess sweepY t0.seg s.seg false = true :=
          fun h => hlt ((segmentLess_iff_lt hg).1 h)
        simp [this, hlt]
    | false =>
      rw [leaves_node hlf] at hls
      obtain ⟨ll, lr, rfl, hll, hlr⟩ := leaves_split hls
      rcases hc with ⟨e1, e2⟩ | ⟨_, hm, cl, cr⟩
      · rw [e1, e2] at hlf; exact absurd hlf (by decide)
      obtain ⟨t0, init, rfl, hinit⟩ := last_of_cached hm hll
      obtain ⟨incl, incr, hlr'⟩ := List.pairwise_append.1 hinc
      have ht0 : t0 ∈ ll := by rw [hinit]; simp
      have hg := hs t0 (List.mem_append_left _ ht0)
      simp only [Bool.false_eq_true, if_false, List.reverse_append, List.find?_append]
      by_cases hlt : t0.seg.getXatY sweepY < s.seg.getXatY sweepY
      · rw [if_pos ((segmentLess_iff_lt hg).2 hlt),
          ihr cr lr hlr incr (fun x hx => hs x (List.mem_append_right _ hx))]
        have hf : (ll.reverse.find?
            fun a => decide (a.seg.getXatY sweepY < s.seg.getXatY sweepY)) = some t0 := by
          rw [hinit, List.reverse_append, List.reverse_singleton, List.singleton_append,
            List.find?_cons]
          simp [hlt]
        rw [hf]
        cases lr.reverse.find? fun a => decide (a.seg.getXatY sweepY < s.seg.getXatY sweepY)
          <;> rfl
      · have hn : ¬ segmentLess sweepY t0.seg s.seg false = true :=
          fun h => hlt ((segmentLess_iff_lt hg).1 h)
        rw [if_neg hn, ihl cl ll hll incl (fun x hx => hs x (List.mem_append_left _ hx))]
        have hf : (lr.reverse.find?
            fun a => decide (a.seg.getXatY sweepY < s.seg.getXatY sweepY)) = none := by
          rw [List.find?_eq_none]
          intro x hx
          simp only [decide_eq_true_eq, not_lt]
          exact le_trans (not_lt.1 hlt) (le_of_lt (hlr' t0 ht0 x (List.mem_reverse.1 hx)))
        rw [hf]
        rfl

/-- C18. For a tree `t` with correct `maxLeft` fields whose leaves `ls`, read left
to right, are strictly increasing in x at the sweep coordinate, and a segment
`s` at least `1e-9` away in x from every leaf other than itself: `above(t, s)`
without `noid` returns a leaf right of `s` that no leaf right of `s` precedes in
x, or null when no leaf is right of `s`; `below(t, s)` returns a leaf left of
`s` that no leaf left of `s` exceeds in x, or null when no leaf is left of `s`;
and neither returns `s`. -/
theorem above_below_neighbours (sweepY : ℚ) (t : AVLTree) (s : SegPtr) (ls : List SegPtr)
    (hc : Cached t) (hls : leaves t = ls.map some)
    (hinc : ls.Pairwise fun a b => a.seg.getXatY sweepY < b.seg.getXatY sweepY)
    (hs : ∀ a ∈ ls, a = s ∨ eps ≤ |a.seg.getXatY sweepY - s.seg.getXatY sweepY|) :
    (∃ r, above sweepY t s false = some r ∧ r ≠ some s ∧
      (∀ a, r = some a → a ∈ ls ∧ s.seg.getXatY sweepY < a.seg.getXatY sweepY ∧
        ∀ b ∈ ls, s.seg.getXatY sweepY < b.seg.getXatY sweepY →
          a.seg.getXatY sweepY ≤ b.seg.getXatY sweepY) ∧
      (r = none → ∀ b ∈ ls, ¬ s.seg.getXatY sweepY < b.seg.getXatY sweepY)) ∧
    (∃ r, below sweepY t s false = some r ∧ r ≠ some s ∧
      (∀ a, r = some a → a ∈ ls ∧ a.seg.getXatY sweepY < s.seg.getXatY sweepY ∧
        ∀ b ∈ ls, b.seg.getXatY sweepY < s.seg.getXatY sweepY →
          b.seg.getXatY sweepY ≤ a.seg.getXatY sweepY) ∧
      (r = none → ∀ b ∈ ls, ¬ b.seg.getXatY sweepY < s.seg.getXatY sweepY)) := by
  have hs' : ∀ a ∈ ls, s = a ∨ eps ≤ |s.seg.getXatY sweepY - a.seg.getXatY sweepY| := by
    intro a ha
    rcases hs a ha with h | h
    · exact Or.inl h.symm
    · exact Or.inr (by rw [abs_sub_comm]; exact h)
  constructor
  · refine ⟨_, aboveLoop_find sweepY s hc ls hls hinc hs' none, ?_, ?_, ?_⟩
    · rw [Option.or_none]
      intro h
      have := (List.find?_eq_some.1 h).1
      simp at this
    · intro a ha
      rw [Option.or_none] at ha
      obtain ⟨h1, as, bs, rfl, h3⟩ := List.find?_eq_some.1 ha
      simp only [decide_eq_true_eq] at h1
      refine ⟨by simp, h1, ?_⟩
      intro b hb hlt
      rcases List.mem_append.1 hb with hb | hb
      · have := h3 b hb
        simp only [Bool.not_eq_true', decide_eq_false_iff_not] at this
        exact absurd hlt this
      · rcases List.mem_cons.1 hb with hb | hb
        · rw [hb]
        · exact le_of_lt (List.rel_of_pairwise_cons (List.pairwise_append.1 hinc).2.1 hb)
    · intro h b hb
      rw [Option.or_none] at h
      have := List.find?_eq_none.1 h b hb
      simpa using this
  · refine ⟨_, belowLoop_find sweepY s hc ls hls hinc hs none, ?_, ?_, ?_⟩
    · rw [Option.or_none]
      intro h
      have := (List.find?_eq_some.1 h).1
      simp at this
    · intro a ha
      rw [Option.or_none] at ha
      obtain ⟨h1, as, bs, hrev, h3⟩ := List.find?_eq_some.1 ha
      simp only [decide_eq_true_eq] at h1
      have hl : ls = bs.reverse ++ a :: as.reverse := by
        rw [← List.reverse_reverse ls, hrev]
        simp
      subst hl
      refine ⟨by simp, h1, ?_⟩
      intro b hb hlt
      rcases List.mem_append.1 hb with hb | hb
      · exact le_of_lt ((List.pairwise_append.1 hinc).2.2 b hb a (by simp))
      · rcases List.mem_cons.1 hb with hb | hb
        · rw [hb]
        · have := h3 b (List.mem_reverse.1 hb)
          simp only [Bool.not_eq_true', decide_eq_false_iff_not] at this
          exact absurd hlt this
    · intro h b hb
      rw [Option.or_none] at h
      have := List.find?_eq_none.1 h b (List.mem_reverse.2 hb)
      simpa using this

/-- C18 at `twoLeafTree` (leaves at x = 0 and x = 1), the segment `ptrLeft` held
by its left leaf, and the sweep coordinate `1/2`. -/
theorem above_below_neighbours_witness :
    (∃ r, above (1 / 2) twoLeafTree ptrLeft false = some r ∧ r ≠ some ptrLeft ∧
      (r = none → ∀ b ∈ [ptrLeft, ptrMid],
        ¬ ptrLeft.seg.getXatY (1 / 2) < b.seg.getXatY (1 / 2))) ∧
    (∃ r, below (1 / 2) twoLeafTree ptrLeft false = some r ∧ r ≠ some ptrLeft ∧
      (r = none → ∀ b ∈ [ptrLeft, ptrMid],
        ¬ b.seg.getXatY (1 / 2) < ptrLeft.seg.getXatY (1 / 2))) :=
  match above_below_neighbours (1 / 2) twoLeafTree ptrLeft [ptrLeft, ptrMid] (by decide!)
    (by decide!) (by decide!) (by decide!) with
  | ⟨⟨r, h1, h2, _, h3⟩, ⟨r', h4, h5, _, h6⟩⟩ => ⟨⟨r, h1, h2, h3⟩, ⟨r', h4, h5, h6⟩⟩

/-! ## Further runs of `findIntersections` -/

/-- On the parallel segments `(0,0)-(2,0)` and `(0,1)-(2,1)`, `findIntersections`
returns, for every hash function, an empty output vector. -/
theorem parallel_output (hashDouble : ℚ → Nat) :
    findIntersections hashDouble parallelInput = some [] :=
  (findIntersections_free hashDouble parallelInput (by decide!)).trans (by decide!)

/-- C13 fails on `zombieInput`, for every hash function. The Remove event of the
segment `(0,1)-(0,0)` is among the events pushed before the loop, the loop ends
with an empty queue, and the status tree then still holds one leaf, that
segment: the point `(0,-5e-10)` that `getIntersection` accepts within the
`1e-9` widening of the bounding boxes lies below the lower endpoint `(0,0)`, so
the Intersection event is dispatched after the Remove event and inserts the
segment again. -/
theorem removed_segment_back_in_tree (hashDouble : ℚ → Nat) :
    (⟨⟨0, 0⟩, 1, some ⟨0, Segment.ctor ⟨0, 1⟩ ⟨0, 0⟩ 0⟩, none⟩ : Event) ∈
      (init zombieInput).events ∧
    (loop hashDouble (maxIterations zombieInput.length) (init zombieInput)).map
      (fun st => (st.events, leaves st.root, st.output)) =
    some ([], [some ⟨0, Segment.ctor ⟨0, 1⟩ ⟨0, 0⟩ 0⟩], [⟨0, -(1 / 2000000000)⟩]) :=
  ⟨by decide!,
    (congrArg (Option.map fun st => (st.events, leaves st.root, st.output))
      (loop_free hashDouble (maxIterations zombieInput.length) (init zombieInput)
        (by decide!))).trans (by decide!)⟩

/-- C20 fails on `nudgedInput`, for every hash function: the output is the one
point `(0, 1e-6)`, the insert point of the horizontal segment `(0,0)-(10,0)`
moved up by `1e-6`, and of the two input segments `isPointOnSegment` accepts
that point for the vertical one (id 1) only. -/
theorem nudged_point_off_segment (hashDouble : ℚ → Nat) :
    findIntersections hashDouble nudgedInput = some [⟨0, 1 / 1000000⟩] ∧
    (nudgedInput.filter fun s => isPointOnSegment ⟨0, 1 / 1000000⟩ s).map (fun s => s.id)
      = [1] :=
  ⟨(findIntersections_free hashDouble nudgedInput (by decide!)).trans (by decide!), by decide!⟩

end SweepLine
